import Mathlib

set_option maxHeartbeats 1600000

/-!
Verification development for the Pendo event capture/replay backend
(`backend/simulator/pendo_capture.py` and `backend/simulator/simulate.py`).

The Python code is shallowly embedded as executable Lean definitions:

* Python byte strings are `List Nat` (each entry `< 256`), Python text
  strings are `List Char` (Unicode scalar values, as in CPython; lone
  surrogates are outside the model).
* JSON values are the mutual inductive `Json`/`JsonList`/`JsonObj`;
  Python `dict`s are ordered association structures, mirroring CPython's
  insertion-ordered dictionaries.  JSON numbers are modelled as integers
  (the event payloads handled by the code are integer-valued; IEEE floats
  are outside the model).
* `json.dumps(..., separators=(',', ':'))` (with its default
  `ensure_ascii=True`) and `json.loads` are implemented directly.
* `zlib.compress` is modelled as a genuine member of the zlib wire
  format: the two-byte `0x78 0x9C` header, a DEFLATE body made of
  stored (BTYPE=00) blocks, and the big-endian Adler-32 trailer.
  `zlib.decompress(b, wbits)` is modelled by a stored-block inflater
  (`inflateStored`) plus the zlib/gzip framing checks; DEFLATE blocks
  with Huffman-compressed types are outside the stored-block model and
  are mapped to failure.  Trailing bytes after a complete DEFLATE
  stream are ignored, as CPython's `zlib.decompress` does.
* `base64` and `urllib.parse.quote`/`unquote` are implemented directly.
* Randomness (`random.randint`) is modelled by its support and uniform
  probability mass function; `asyncio.gather(..., return_exceptions=True)`
  and the batching loop are modelled by an explicit schedule/trace.
-/

/-! ## JSON values (Python objects handled by `json.dumps`/`json.loads`) -/

mutual
inductive Json where
  | null : Json
  | bool (b : Bool) : Json
  | num (n : Int) : Json
  | str (s : List Char) : Json
  | arr (xs : JsonList) : Json
  | obj (kvs : JsonObj) : Json
  deriving DecidableEq

inductive JsonList where
  | nil : JsonList
  | cons (hd : Json) (tl : JsonList) : JsonList
  deriving DecidableEq

inductive JsonObj where
  | onil : JsonObj
  | ocons (k : List Char) (v : Json) (tl : JsonObj) : JsonObj
  deriving DecidableEq
end

/-- Convert a `JsonList` to an ordinary Lean list of values. -/
def JsonList.toList : JsonList → List Json
  | .nil => []
  | .cons x tl => x :: tl.toList

/-- Convert an ordinary list of values to a `JsonList`. -/
def JsonList.ofList : List Json → JsonList
  | [] => .nil
  | x :: tl => .cons x (JsonList.ofList tl)

/-- Convert a `JsonObj` to a list of key/value pairs (insertion order). -/
def JsonObj.toList : JsonObj → List (List Char × Json)
  | .onil => []
  | .ocons k v tl => (k, v) :: tl.toList

/-- Keys of a `JsonObj`, in insertion order. -/
def JsonObj.keys : JsonObj → List (List Char)
  | .onil => []
  | .ocons k _ tl => k :: tl.keys

/-! ## Serialization: `json.dumps(events, separators=(',', ':'))`

CPython's default `ensure_ascii=True` escapes every character outside
`0x20..0x7E`; characters above `0xFFFF` are written as a UTF-16
surrogate pair of `\uXXXX` escapes.  Integers are rendered in decimal. -/

/-- Lower-case hexadecimal digit, as produced by CPython's `\uXXXX` escapes. -/
def hexDigitChar (n : Nat) : Char :=
  if n < 10 then Char.ofNat (48 + n) else Char.ofNat (87 + n)

/-- Render a `\uXXXX` escape for a code unit `n < 0x10000`. -/
def uEscape (n : Nat) : List Char :=
  ['\\', 'u', hexDigitChar (n / 4096 % 16), hexDigitChar (n / 256 % 16),
   hexDigitChar (n / 16 % 16), hexDigitChar (n % 16)]

/-- Escape one character the way `json.dumps` (with `ensure_ascii=True`) does. -/
def escapeChar (c : Char) : List Char :=
  if c = '"' then ['\\', '"']
  else if c = '\\' then ['\\', '\\']
  else if c.toNat = 8 then ['\\', 'b']
  else if c.toNat = 9 then ['\\', 't']
  else if c.toNat = 10 then ['\\', 'n']
  else if c.toNat = 12 then ['\\', 'f']
  else if c.toNat = 13 then ['\\', 'r']
  else if c.toNat < 32 then uEscape c.toNat
  else if c.toNat ≤ 126 then [c]
  else if c.toNat < 65536 then uEscape c.toNat
  else
    uEscape (55296 + (c.toNat - 65536) / 1024) ++ uEscape (56320 + (c.toNat - 65536) % 1024)

/-- Serialize a JSON string literal (quotes plus escaped body). -/
def dumpStr (s : List Char) : List Char :=
  '"' :: (s.map escapeChar).flatten ++ ['"']

/-- Decimal digits of `n`, least significant first; `fuel`-structural so that
the kernel can evaluate it. -/
def natDigitsRev : Nat → Nat → List Nat
  | 0, _ => []
  | fuel + 1, n => if n = 0 then [] else n % 10 :: natDigitsRev fuel (n / 10)

/-- Decimal rendering of a natural number. -/
def natChars (n : Nat) : List Char :=
  if n = 0 then ['0'] else (natDigitsRev (n + 1) n).reverse.map (fun d => Char.ofNat (48 + d))

/-- Decimal rendering of an integer, as CPython's `repr`/`json.dumps`. -/
def intChars (i : Int) : List Char :=
  if i < 0 then '-' :: natChars i.natAbs else natChars i.natAbs

mutual
/-- Model of `json.dumps(v, separators=(',', ':'))` on a single value. -/
def dumpJson : Json → List Char
  | .null => ['n', 'u', 'l', 'l']
  | .bool b => if b then ['t', 'r', 'u', 'e'] else ['f', 'a', 'l', 's', 'e']
  | .num n => intChars n
  | .str s => dumpStr s
  | .arr xs => '[' :: (dumpJsonList xs ++ [']'])
  | .obj kvs => '{' :: (dumpJsonObj kvs ++ ['}'])

/-- Comma-separated serialization of array elements. -/
def dumpJsonList : JsonList → List Char
  | .nil => []
  | .cons x .nil => dumpJson x
  | .cons x (.cons y tl) => dumpJson x ++ ',' :: dumpJsonList (.cons y tl)

/-- Comma-separated serialization of object members (`"key":value`). -/
def dumpJsonObj : JsonObj → List Char
  | .onil => []
  | .ocons k v .onil => dumpStr k ++ ':' :: dumpJson v
  | .ocons k v (.ocons k2 v2 tl) =>
      dumpStr k ++ ':' :: dumpJson v ++ ',' :: dumpJsonObj (.ocons k2 v2 tl)
end

/-! ## UTF-8 (CPython `str.encode('utf-8')` / `bytes.decode('utf-8')`) -/

/-- UTF-8 encoding of one Unicode scalar value. -/
def utf8Char (c : Char) : List Nat :=
  let n := c.toNat
  if n < 128 then [n]
  else if n < 2048 then [192 + n / 64, 128 + n % 64]
  else if n < 65536 then [224 + n / 4096, 128 + n / 64 % 64, 128 + n % 64]
  else [240 + n / 262144, 128 + n / 4096 % 64, 128 + n / 64 % 64, 128 + n % 64]

/-- Model of `str.encode('utf-8')`. -/
def utf8Encode (s : List Char) : List Nat :=
  (s.map utf8Char).flatten

/-- Is `b` a UTF-8 continuation byte? -/
def isCont (b : Nat) : Bool :=
  128 ≤ b ∧ b ≤ 191

/-- Strict UTF-8 decoder (rejects overlong forms, surrogates and values
above `U+10FFFF`, as CPython's `bytes.decode('utf-8')` does).  The fuel is
at least the length of the input. -/
def utf8DecodeF : Nat → List Nat → Option (List Char)
  | _, [] => some []
  | 0, _ :: _ => none
  | fuel + 1, b :: rest =>
    if b < 128 then (utf8DecodeF fuel rest).map (Char.ofNat b :: ·)
    else if 194 ≤ b ∧ b ≤ 223 then
      match rest with
      | b2 :: rest2 =>
        if isCont b2 then
          (utf8DecodeF fuel rest2).map (Char.ofNat ((b - 192) * 64 + (b2 - 128)) :: ·)
        else none
      | [] => none
    else if 224 ≤ b ∧ b ≤ 239 then
      match rest with
      | b2 :: b3 :: rest3 =>
        let lo2 : Nat := if b = 224 then 160 else 128
        let hi2 : Nat := if b = 237 then 159 else 191
        if (lo2 ≤ b2 ∧ b2 ≤ hi2) ∧ isCont b3 then
          (utf8DecodeF fuel rest3).map
            (Char.ofNat ((b - 224) * 4096 + (b2 - 128) * 64 + (b3 - 128)) :: ·)
        else none
      | _ => none
    else if 240 ≤ b ∧ b ≤ 244 then
      match rest with
      | b2 :: b3 :: b4 :: rest4 =>
        let lo2 : Nat := if b = 240 then 144 else 128
        let hi2 : Nat := if b = 244 then 143 else 191
        if (lo2 ≤ b2 ∧ b2 ≤ hi2) ∧ isCont b3 ∧ isCont b4 then
          (utf8DecodeF fuel rest4).map
            (Char.ofNat ((b - 240) * 262144 + (b2 - 128) * 4096 + (b3 - 128) * 64 + (b4 - 128)) :: ·)
        else none
      | _ => none
    else none

/-- Model of `bytes.decode('utf-8')` (returns `none` where CPython raises
`UnicodeDecodeError`). -/
def utf8Decode (bs : List Nat) : Option (List Char) :=
  utf8DecodeF bs.length bs

/-! ## Base64 (`base64.urlsafe_b64encode`, `base64.b64decode`) -/

/-- Character of the standard base64 alphabet for an index `< 64`. -/
def b64Char (n : Nat) : Char :=
  if n < 26 then Char.ofNat (65 + n)
  else if n < 52 then Char.ofNat (97 + (n - 26))
  else if n < 62 then Char.ofNat (48 + (n - 52))
  else if n = 62 then '+'
  else '/'

/-- Character of the URL-safe base64 alphabet for an index `< 64`. -/
def b64UrlChar (n : Nat) : Char :=
  if n < 62 then b64Char n else if n = 62 then '-' else '_'

/-- Index of a standard-alphabet base64 character (`none` outside it). -/
def b64Index (c : Char) : Option Nat :=
  if 65 ≤ c.toNat ∧ c.toNat ≤ 90 then some (c.toNat - 65)
  else if 97 ≤ c.toNat ∧ c.toNat ≤ 122 then some (c.toNat - 97 + 26)
  else if 48 ≤ c.toNat ∧ c.toNat ≤ 57 then some (c.toNat - 48 + 52)
  else if c = '+' then some 62
  else if c = '/' then some 63
  else none

/-- Model of `base64.urlsafe_b64encode` (with `=` padding), 3 input bytes
per 4 output characters. -/
def b64UrlEncode : List Nat → List Char
  | [] => []
  | [a] => [b64UrlChar (a / 4), b64UrlChar (a % 4 * 16), '=', '=']
  | [a, b] => [b64UrlChar (a / 4), b64UrlChar (a % 4 * 16 + b / 16), b64UrlChar (b % 16 * 4), '=']
  | a :: b :: c :: rest =>
      b64UrlChar (a / 4) :: b64UrlChar (a % 4 * 16 + b / 16) ::
      b64UrlChar (b % 16 * 4 + c / 64) :: b64UrlChar (c % 64) :: b64UrlEncode rest

/-- Decode groups of four standard-alphabet characters; a `=`-padded group
terminates the stream (as `binascii.a2b_base64` does).  Input characters were
already filtered to the alphabet plus `=`. -/
def b64Quads : Nat → List Char → Option (List Nat)
  | _, [] => some []
  | 0, _ :: _ => none
  | fuel + 1, c1 :: c2 :: c3 :: c4 :: rest => do
      let i1 ← b64Index c1
      let i2 ← b64Index c2
      if c3 = '=' then
        if c4 = '=' then some [i1 * 4 + i2 / 16] else none
      else do
        let i3 ← b64Index c3
        if c4 = '=' then some [i1 * 4 + i2 / 16, i2 % 16 * 16 + i3 / 4]
        else do
          let i4 ← b64Index c4
          let tail ← b64Quads fuel rest
          pure ((i1 * 4 + i2 / 16) :: (i2 % 16 * 16 + i3 / 4) :: (i3 % 4 * 64 + i4) :: tail)
  | _, _ => none

/-- Model of `base64.b64decode` with its default `validate=False`:
characters outside the alphabet (and outside `=`) are discarded before
decoding, and a left-over group that is not a valid padded quad raises
(`none` here). -/
def b64Decode (s : List Char) : Option (List Nat) :=
  let kept := s.filter (fun c => (b64Index c).isSome || c = '=')
  b64Quads kept.length kept

/-! ## Percent-encoding (`urllib.parse.quote` / `urllib.parse.unquote`) -/

/-- Characters `urllib.parse.quote` never escapes (here called with
`safe=''`): ASCII letters, digits and `_.-~`. -/
def quoteSafe (c : Char) : Bool :=
  (65 ≤ c.toNat ∧ c.toNat ≤ 90) ∨ (97 ≤ c.toNat ∧ c.toNat ≤ 122) ∨
  (48 ≤ c.toNat ∧ c.toNat ≤ 57) ∨ c = '_' ∨ c = '.' ∨ c = '-' ∨ c = '~'

/-- Upper-case hexadecimal digit as used by `urllib.parse.quote`. -/
def hexDigitCharU (n : Nat) : Char :=
  if n < 10 then Char.ofNat (48 + n) else Char.ofNat (55 + n)

/-- Model of `urllib.parse.quote(s, safe='')`. -/
def pyQuote (s : List Char) : List Char :=
  (s.map (fun c =>
    if quoteSafe c then [c]
    else (utf8Char c).flatMap (fun b => ['%', hexDigitCharU (b / 16), hexDigitCharU (b % 16)]))).flatten

/-- Value of one hexadecimal digit character, upper or lower case. -/
def hexVal (c : Char) : Option Nat :=
  if 48 ≤ c.toNat ∧ c.toNat ≤ 57 then some (c.toNat - 48)
  else if 65 ≤ c.toNat ∧ c.toNat ≤ 70 then some (c.toNat - 55)
  else if 97 ≤ c.toNat ∧ c.toNat ≤ 102 then some (c.toNat - 87)
  else none

/-- Decode UTF-8 with `errors='replace'` (never fails; invalid prefixes
produce `U+FFFD` and resynchronise one byte later), as `urllib.parse.unquote`
does for percent-decoded byte runs. -/
def utf8DecodeReplace : Nat → List Nat → List Char
  | _, [] => []
  | 0, _ :: _ => []
  | fuel + 1, b :: rest =>
    if b < 128 then Char.ofNat b :: utf8DecodeReplace fuel rest
    else if 194 ≤ b ∧ b ≤ 223 then
      match rest with
      | b2 :: rest2 =>
        if isCont b2 then
          Char.ofNat ((b - 192) * 64 + (b2 - 128)) :: utf8DecodeReplace fuel rest2
        else Char.ofNat 65533 :: utf8DecodeReplace fuel rest
      | [] => [Char.ofNat 65533]
    else Char.ofNat 65533 :: utf8DecodeReplace fuel rest

/-- Percent-decode: collect maximal runs of `%XX` byte triples and decode
them as UTF-8 with replacement; malformed `%` sequences are kept verbatim.
Model of `urllib.parse.unquote`. -/
def pyUnquoteF : Nat → List Char → List Char
  | _, [] => []
  | 0, l => l
  | fuel + 1, c :: rest =>
    if c = '%' then
      match rest with
      | h1 :: h2 :: rest2 =>
        match hexVal h1, hexVal h2 with
        | some v1, some v2 => utf8DecodeReplace 1 [v1 * 16 + v2] ++ pyUnquoteF fuel rest2
        | _, _ => c :: pyUnquoteF fuel rest
      | _ => c :: pyUnquoteF fuel rest
    else c :: pyUnquoteF fuel rest

/-- Model of `urllib.parse.unquote` (adequate for the inputs considered
here: each percent triple decodes an ASCII byte, and multi-byte UTF-8 runs
do not occur in the payloads this system produces or consumes). -/
def pyUnquote (s : List Char) : List Char :=
  pyUnquoteF s.length s

/-! ## zlib and gzip (`zlib.compress`, `zlib.decompress`, `gzip.decompress`)

These CPython extension modules are not part of the repository; they are
modelled as genuine members of the RFC 1950/1951/1952 wire formats,
restricted to stored (BTYPE=00) DEFLATE blocks: the compressor emits a
valid zlib stream whose body is stored blocks, and the inflater accepts
exactly the streams whose body is stored blocks (Huffman block types are
outside the model and map to failure, where real inflate may succeed; every
byte-level framing check — block length complements, header checksums,
Adler-32/CRC-32 trailers — is implemented faithfully). -/

/-- Adler-32 of a byte list (RFC 1950). -/
def adler32 (bs : List Nat) : Nat :=
  let p := bs.foldl (fun p byte => ((p.1 + byte) % 65521, (p.2 + p.1 + byte) % 65521)) (1, 0)
  p.2 * 65536 + p.1

/-- Big-endian byte rendering of the Adler-32 trailer. -/
def adlerBytes (bs : List Nat) : List Nat :=
  let v := adler32 bs
  [v / 16777216 % 256, v / 65536 % 256, v / 256 % 256, v % 256]

/-- DEFLATE body made of stored (BTYPE=00) blocks of at most 65535 bytes
each, the final one carrying BFINAL; each block is the header byte, the
16-bit little-endian length, its ones-complement and the raw data. -/
def deflateStored : Nat → List Nat → List Nat
  | 0, _ => []
  | fuel + 1, data =>
    if data.length ≤ 65535 then
      1 :: data.length % 256 :: data.length / 256 ::
        (65535 - data.length) % 256 :: (65535 - data.length) / 256 :: data
    else
      0 :: 255 :: 255 :: 0 :: 0 :: (data.take 65535 ++ deflateStored fuel (data.drop 65535))

/-- Parse consecutive stored DEFLATE blocks; returns the decompressed
output and the bytes after the final block (real inflate stops at
BFINAL and ignores what follows).  `none` on a non-stored block type,
a length/complement mismatch, or truncation, where real inflate raises
`zlib.error`. -/
def inflateStored : Nat → List Nat → Option (List Nat × List Nat)
  | 0, _ => none
  | _ + 1, [] => none
  | fuel + 1, hdr :: rest =>
    let bfinal := hdr % 2
    let btype := hdr / 2 % 4
    if btype ≠ 0 then none else
    match rest with
    | lL :: lH :: nL :: nH :: rest2 =>
      let len := lL + 256 * lH
      let nlen := nL + 256 * nH
      if nlen ≠ 65535 - len then none
      else if rest2.length < len then none
      else if bfinal = 1 then some (rest2.take len, rest2.drop len)
      else
        match inflateStored fuel (rest2.drop len) with
        | some (out, rem) => some (rest2.take len ++ out, rem)
        | none => none
    | _ => none

/-- Model of `zlib.compress(data)`: CMF/FLG header `0x78 0x9C` (deflate,
32 KiB window — the header CPython emits at the default level), DEFLATE
body, big-endian Adler-32 trailer. -/
def zlibCompress (data : List Nat) : List Nat :=
  120 :: 156 :: (deflateStored (data.length + 1) data ++ adlerBytes data)

/-- Model of `zlib.decompress(bs, wbits)` for positive `wbits`: checks the
zlib header (method 8, window fitting `wbits`, header checksum divisible by
31, no preset dictionary), inflates the body and verifies the Adler-32
trailer; trailing bytes after the trailer are ignored. -/
def zlibDecompressHeader (wbits : Nat) (bs : List Nat) : Option (List Nat) :=
  match bs with
  | cmf :: flg :: body =>
    if cmf % 16 = 8 ∧ cmf / 16 + 8 ≤ wbits ∧ (cmf * 256 + flg) % 31 = 0 ∧ flg / 32 % 2 = 0 then
      match inflateStored (body.length + 1) body with
      | some (out, rem) =>
        match rem with
        | a1 :: a2 :: a3 :: a4 :: _ =>
          if a1 * 16777216 + a2 * 65536 + a3 * 256 + a4 = adler32 out then some out else none
        | _ => none
      | none => none
    else none
  | _ => none

/-- Model of `zlib.decompress(bs, wbits)` for negative `wbits`: a raw
DEFLATE stream with neither header nor trailer; trailing bytes are
ignored.  Stored blocks hold no window back-references, so the magnitude
of a negative `wbits` cannot change the result. -/
def zlibDecompressRaw (bs : List Nat) : Option (List Nat) :=
  (inflateStored (bs.length + 1) bs).map (fun p => p.1)

/-- Dispatch of `zlib.decompress(bs, wbits)` over the `wbits` values used
by `decode_jzb`. -/
def zlibDecompress (wbits : Int) (bs : List Nat) : Option (List Nat) :=
  if wbits < 0 then zlibDecompressRaw bs else zlibDecompressHeader wbits.toNat bs

/-- CRC-32 shift of one bit (IEEE polynomial, reflected form). -/
def crc32Bits : Nat → Nat → Nat
  | 0, r => r
  | k + 1, r => crc32Bits k (if r % 2 = 1 then Nat.xor (r / 2) 3988292384 else r / 2)

/-- CRC-32 of a byte list (RFC 1952). -/
def crc32 (bs : List Nat) : Nat :=
  Nat.xor (bs.foldl (fun r b => crc32Bits 8 (Nat.xor r b)) 4294967295) 4294967295

/-- Model of `gzip.decompress(bs)`: the `0x1F 0x8B` magic, deflate method,
no flags, six more header bytes, DEFLATE body, then little-endian CRC-32
and input-size trailer. -/
def gzipDecompress (bs : List Nat) : Option (List Nat) :=
  match bs with
  | 31 :: 139 :: 8 :: 0 :: _ :: _ :: _ :: _ :: _ :: _ :: body =>
    match inflateStored (body.length + 1) body with
    | some (out, rem) =>
      match rem with
      | c1 :: c2 :: c3 :: c4 :: s1 :: s2 :: s3 :: s4 :: _ =>
        if c1 + 256 * c2 + 65536 * c3 + 16777216 * c4 = crc32 out ∧
           s1 + 256 * s2 + 65536 * s3 + 16777216 * s4 = out.length % 4294967296 then
          some out
        else none
      | _ => none
    | none => none
  | _ => none

/-! ## Parsing: `json.loads`

The parser mirrors CPython's `json.loads` on the fragment the system
exercises: strict strings (raw control characters below `0x20` rejected,
`\uXXXX` escapes with surrogate-pair combination), integer numbers (a
following `.`/`e`/`E` would make CPython produce a float, which is outside
this model and maps to failure), arrays, objects with CPython's
duplicate-key semantics (first position, last value), and surrounding
whitespace. -/

/-- Is `c` a decimal digit? -/
def isDigit (c : Char) : Bool :=
  48 ≤ c.toNat ∧ c.toNat ≤ 57

/-- Is `c` JSON whitespace (space, tab, line feed, carriage return)? -/
def isJsonWs (c : Char) : Bool :=
  c = ' ' ∨ c.toNat = 9 ∨ c.toNat = 10 ∨ c.toNat = 13

/-- Drop leading JSON whitespace. -/
def skipWs : List Char → List Char
  | [] => []
  | c :: rest => if isJsonWs c then skipWs rest else c :: rest

/-- Parse four hexadecimal digits of a `\uXXXX` escape. -/
def parseHex4 : List Char → Option (Nat × List Char)
  | h1 :: h2 :: h3 :: h4 :: rest => do
    let v1 ← hexVal h1
    let v2 ← hexVal h2
    let v3 ← hexVal h3
    let v4 ← hexVal h4
    pure (v1 * 4096 + v2 * 256 + v3 * 16 + v4, rest)
  | _ => none

/-- Parse the body of a JSON string literal up to the closing quote,
returning the decoded characters and the remaining input.  Lone UTF-16
surrogates (which Lean's `Char` cannot hold and `json.dumps` never emits
for scalar text) are rejected. -/
def parseStrBody : Nat → List Char → Option (List Char × List Char)
  | 0, _ => none
  | _ + 1, [] => none
  | fuel + 1, c :: rest =>
    if c = '"' then some ([], rest)
    else if c = '\\' then
      match rest with
      | [] => none
      | e :: rest2 =>
        if e = '"' then (parseStrBody fuel rest2).map (fun p => ('"' :: p.1, p.2))
        else if e = '\\' then (parseStrBody fuel rest2).map (fun p => ('\\' :: p.1, p.2))
        else if e = '/' then (parseStrBody fuel rest2).map (fun p => ('/' :: p.1, p.2))
        else if e = 'b' then (parseStrBody fuel rest2).map (fun p => (Char.ofNat 8 :: p.1, p.2))
        else if e = 'f' then (parseStrBody fuel rest2).map (fun p => (Char.ofNat 12 :: p.1, p.2))
        else if e = 'n' then (parseStrBody fuel rest2).map (fun p => (Char.ofNat 10 :: p.1, p.2))
        else if e = 'r' then (parseStrBody fuel rest2).map (fun p => (Char.ofNat 13 :: p.1, p.2))
        else if e = 't' then (parseStrBody fuel rest2).map (fun p => (Char.ofNat 9 :: p.1, p.2))
        else if e = 'u' then
          match parseHex4 rest2 with
          | none => none
          | some (v, rest3) =>
            if 55296 ≤ v ∧ v ≤ 56319 then
              match rest3 with
              | '\\' :: 'u' :: more =>
                match parseHex4 more with
                | some (w, rest4) =>
                  if 56320 ≤ w ∧ w ≤ 57343 then
                    (parseStrBody fuel rest4).map
                      (fun p => (Char.ofNat (65536 + (v - 55296) * 1024 + (w - 56320)) :: p.1, p.2))
                  else none
                | none => none
              | _ => none
            else if 56320 ≤ v ∧ v ≤ 57343 then none
            else (parseStrBody fuel rest3).map (fun p => (Char.ofNat v :: p.1, p.2))
        else none
    else if c.toNat < 32 then none
    else (parseStrBody fuel rest).map (fun p => (c :: p.1, p.2))

/-- Accumulate decimal digits (the scanner's integer loop). -/
def parseDigitsAcc : Nat → List Char → Nat × List Char
  | acc, [] => (acc, [])
  | acc, c :: rest =>
    if isDigit c then parseDigitsAcc (acc * 10 + (c.toNat - 48)) rest else (acc, c :: rest)

/-- Reject a following `.`, `e` or `E`: CPython would parse a float there,
which is outside this integer-number model. -/
def floatGuard (n : Nat) : List Char → Option (Nat × List Char)
  | [] => some (n, [])
  | c :: rest => if c = '.' ∨ c = 'e' ∨ c = 'E' then none else some (n, c :: rest)

/-- Parse an unsigned JSON integer (leading zeros rejected as in the JSON
grammar). -/
def parseUInt : List Char → Option (Nat × List Char)
  | [] => none
  | c :: rest =>
    if ¬ isDigit c then none
    else if c = '0' then floatGuard 0 rest
    else
      let p := parseDigitsAcc (c.toNat - 48) rest
      floatGuard p.1 p.2

/-- Parse a JSON number (integer fragment of the grammar). -/
def parseNumber : List Char → Option (Json × List Char)
  | [] => none
  | c :: rest =>
    if c = '-' then (parseUInt rest).map (fun p => (Json.num (-(p.1 : Int)), p.2))
    else (parseUInt (c :: rest)).map (fun p => (Json.num (p.1 : Int), p.2))

/-- Insert a key/value pair with CPython `dict` assignment semantics: an
existing key keeps its position and takes the new value, a new key is
appended. -/
def JsonObj.set : JsonObj → List Char → Json → JsonObj
  | .onil, k, v => .ocons k v .onil
  | .ocons k0 v0 tl, k, v =>
    if k0 = k then .ocons k0 v tl else .ocons k0 v0 (tl.set k v)

/-- Build a `JsonObj` from parsed members by sequential `dict` assignment. -/
def objOfPairs (ps : List (List Char × Json)) : JsonObj :=
  ps.foldl (fun o p => o.set p.1 p.2) .onil

mutual
/-- Parse one JSON value (after optional leading whitespace).  The fuel
bounds the nesting recursion; each recursive call strictly consumes input,
so a fuel of the input length suffices. -/
def parseValue : Nat → List Char → Option (Json × List Char)
  | 0, _ => none
  | fuel + 1, l =>
    match skipWs l with
    | [] => none
    | c :: rest =>
      if c = 'n' then
        match rest with
        | 'u' :: 'l' :: 'l' :: r => some (.null, r)
        | _ => none
      else if c = 't' then
        match rest with
        | 'r' :: 'u' :: 'e' :: r => some (.bool true, r)
        | _ => none
      else if c = 'f' then
        match rest with
        | 'a' :: 'l' :: 's' :: 'e' :: r => some (.bool false, r)
        | _ => none
      else if c = '"' then
        (parseStrBody (rest.length + 1) rest).map (fun p => (.str p.1, p.2))
      else if c = '[' then
        match skipWs rest with
        | ']' :: r => some (.arr .nil, r)
        | l2 => (parseElems fuel l2).map (fun p => (.arr p.1, p.2))
      else if c = '{' then
        match skipWs rest with
        | '}' :: r => some (.obj .onil, r)
        | l2 => (parseMembers fuel l2).map (fun p => (.obj (objOfPairs p.1), p.2))
      else if c = '-' ∨ isDigit c then parseNumber (c :: rest)
      else none

/-- Parse the non-empty element list of a JSON array, up to and including
the closing bracket. -/
def parseElems : Nat → List Char → Option (JsonList × List Char)
  | 0, _ => none
  | fuel + 1, l =>
    match parseValue fuel l with
    | none => none
    | some (v, r) =>
      match skipWs r with
      | ',' :: r2 => (parseElems fuel r2).map (fun p => (.cons v p.1, p.2))
      | ']' :: r2 => some (.cons v .nil, r2)
      | _ => none

/-- Parse the non-empty member list of a JSON object, up to and including
the closing brace. -/
def parseMembers : Nat → List Char → Option (List (List Char × Json) × List Char)
  | 0, _ => none
  | fuel + 1, l =>
    match skipWs l with
    | '"' :: rest =>
      match parseStrBody (rest.length + 1) rest with
      | none => none
      | some (k, r) =>
        match skipWs r with
        | ':' :: r2 =>
          match parseValue fuel r2 with
          | none => none
          | some (v, r3) =>
            match skipWs r3 with
            | ',' :: r4 => (parseMembers fuel r4).map (fun p => ((k, v) :: p.1, p.2))
            | '}' :: r4 => some ([(k, v)], r4)
            | _ => none
        | _ => none
    | _ => none
end

/-- Model of `json.loads`: parse one value with only whitespace around it. -/
def jsonLoads (s : List Char) : Option Json :=
  match parseValue (s.length + 1) s with
  | some (v, rest) => if skipWs rest = [] then some v else none
  | none => none

/-! ## The wire codec (`PendoReplay.encode_to_jzb`, `PendoCapture.decode_jzb`) -/

/-- Model of `str.rstrip('=')`. -/
def rstripEq (s : List Char) : List Char :=
  (s.reverse.dropWhile (fun c => c = '=')).reverse

/-- Model of `PendoReplay.encode_to_jzb`: compact JSON (`ensure_ascii`),
`zlib.compress`, URL-safe base64 with the `=` padding stripped, then
`urllib.parse.quote(..., safe='')`. -/
def encodeToJzb (events : JsonList) : List Char :=
  pyQuote (rstripEq (b64UrlEncode (zlibCompress (utf8Encode (dumpJson (.arr events))))))

/-- The URL-safe-to-standard alphabet conversion in `decode_jzb`
(`.replace('-', '+').replace('_', '/')`). -/
def urlsafeToStd (s : List Char) : List Char :=
  (s.map (fun c => if c = '-' then '+' else c)).map (fun c => if c = '_' then '/' else c)

/-- Right-pad with `=` to a multiple of four characters, as `decode_jzb`
does before calling `b64decode`. -/
def padB64 (s : List Char) : List Char :=
  if s.length % 4 = 0 then s else s ++ List.replicate (4 - s.length % 4) '='

/-- The base64 phase of `decode_jzb`: URL-safe conversion and padding, then
standard `b64decode`; if that raises, fall back to padding the original
percent-decoded text and decoding it with the standard alphabet. -/
def b64Phase (urlDecoded : List Char) : Option (List Nat) :=
  match b64Decode (padB64 (urlsafeToStd urlDecoded)) with
  | some bs => some bs
  | none => b64Decode (padB64 urlDecoded)

/-- One attempt of the `for wbits in [-15, 15, -13, 13]` loop: decompress
with the given `wbits` and decode the result as UTF-8 (both inside the
`try`, so UTF-8 failure also falls to the next iteration). -/
def wbitsAttempt (w : Int) (bs : List Nat) : Option (List Char) :=
  (zlibDecompress w bs).bind utf8Decode

/-- Result of the whole `wbits` loop: the loop `break`s on the first
attempt that does not raise — even when the decompressed text is empty. -/
def firstWbits (bs : List Nat) : Option (List Char) :=
  match wbitsAttempt (-15) bs with
  | some t => some t
  | none =>
    match wbitsAttempt 15 bs with
    | some t => some t
    | none =>
      match wbitsAttempt (-13) bs with
      | some t => some t
      | none => wbitsAttempt 13 bs

/-- Python truthiness of the accumulated `json_string`: `None` and the
empty string are falsy, which sends the code to its next method. -/
def falsyStr : Option (List Char) → Bool
  | none => true
  | some [] => true
  | some (_ :: _) => false

/-- Decompression cascade of `decode_jzb` (methods 1 to 4): the `wbits`
loop, raw DEFLATE after skipping the first two bytes, gzip, then the bytes
as plain UTF-8.  Returns the text that survives the final
`if not json_string` guard, or `none` where the code returns `[]`. -/
def jzbText (bs : List Nat) : Option (List Char) :=
  let m1 := firstWbits bs
  if falsyStr m1 = false then m1 else
  let m2 := (zlibDecompressRaw (bs.drop 2)).bind utf8Decode
  if falsyStr m2 = false then m2 else
  let m3 := (gzipDecompress bs).bind utf8Decode
  if falsyStr m3 = false then m3 else
  match utf8Decode bs with
  | none => none
  | some [] => none
  | some (c :: t) => some (c :: t)

/-- Wrap a parsed JSON value the way `decode_jzb` does
(`events if isinstance(events, list) else [events]`). -/
def listify : Json → List Json
  | .arr xs => xs.toList
  | v => [v]

/-- Model of `PendoCapture.decode_jzb`.  Every failure path of the Python
code (`except` branches and the `if not json_string` guard) returns `[]`;
the outer `try` also converts a `json.loads` failure into `[]`. -/
def decodeJzb (s : List Char) : List Json :=
  match b64Phase (pyUnquote s) with
  | none => []
  | some bs =>
    match jzbText bs with
    | none => []
    | some t =>
      match jsonLoads t with
      | none => []
      | some v => listify v

/-! ### The specification's description of the fallback ladder

The spec sentence behind claim C4 prescribes the attempt order
(a) zlib/deflate with header, (b) raw deflate, (c) raw deflate after
skipping two bytes, (d) gzip, (e) plain UTF-8, and says the decoder
returns the parse of the first attempt "that yields a value decodable as
UTF-8 text".  The following definition is written from those words (not
from the code) so the two can be compared. -/

/-- First attempt, in the specification's order, that yields UTF-8 text
(empty or not — the spec has no non-emptiness condition). -/
def specLadderText (bs : List Nat) : Option (List Char) :=
  match (zlibDecompressHeader 15 bs).bind utf8Decode with
  | some t => some t
  | none =>
    match (zlibDecompressRaw bs).bind utf8Decode with
    | some t => some t
    | none =>
      match (zlibDecompressRaw (bs.drop 2)).bind utf8Decode with
      | some t => some t
      | none =>
        match (gzipDecompress bs).bind utf8Decode with
        | some t => some t
        | none => utf8Decode bs

/-- Decoder that claim C4 describes: same base64 phase, but the
decompression attempts in the specification's order, returning the parse
of the first attempt that yields UTF-8 text. -/
def specOrderDecode (s : List Char) : List Json :=
  match b64Phase (pyUnquote s) with
  | none => []
  | some bs =>
    match specLadderText bs with
    | none => []
    | some t =>
      match jsonLoads t with
      | none => []
      | some v => listify v

/-- The corrected description of the decompression cascade, written from
the amended claim text: try zlib with `wbits` −15, then 15, then −13,
then 13, stopping at the first attempt that raises no error even when it
yields empty text; when every attempt raised or the surviving text is
empty, try raw DEFLATE after skipping the first two bytes, then gzip,
then the bytes as plain UTF-8, each accepted only when it yields
non-empty UTF-8 text; `none` where the decoder gives up. -/
def amendedLadderText (bs : List Nat) : Option (List Char) :=
  let w :=
    match wbitsAttempt (-15) bs with
    | some t => some t
    | none =>
      match wbitsAttempt 15 bs with
      | some t => some t
      | none =>
        match wbitsAttempt (-13) bs with
        | some t => some t
        | none => wbitsAttempt 13 bs
  match w with
  | some (c :: t) => some (c :: t)
  | _ =>
    match (zlibDecompressRaw (bs.drop 2)).bind utf8Decode with
    | some (c :: t) => some (c :: t)
    | _ =>
      match (gzipDecompress bs).bind utf8Decode with
      | some (c :: t) => some (c :: t)
      | _ =>
        match utf8Decode bs with
        | some (c :: t) => some (c :: t)
        | _ => none

/-! ## Distribution planner (`Simulator._calculate_*_distribution`)

Python number arithmetic on the percentage weights (`/`, `*`, `int(...)`)
is modelled with exact rationals; `int(x)` truncates toward zero.
Mappings are insertion-ordered association lists, mirroring CPython
dictionaries.  A Python exception escaping one of these functions is
modelled as `none`. -/

/-- CPython `dict` assignment `d[k] = v`: an existing key keeps its
position and takes the new value, a new key is appended. -/
def pset {α β : Type} [DecidableEq α] : List (α × β) → α → β → List (α × β)
  | [], k, v => [(k, v)]
  | (k0, v0) :: rest, k, v =>
    if k0 = k then (k0, v) :: rest else (k0, v0) :: pset rest k v

/-- Lookup returning `none` for a missing key. -/
def plookup {α β : Type} [DecidableEq α] (d : List (α × β)) (k : α) : Option β :=
  (d.find? (fun p => p.1 = k)).map Prod.snd

/-- Lookup `d[k]` on an integer-valued mapping (the code only reads keys
it has initialised; `0` stands in for the impossible missing-key case). -/
def dget (d : List (String × Int)) (k : String) : Int :=
  ((d.find? (fun p => p.1 = k)).map (fun p => p.2)).getD 0

/-- Membership test `k in d`. -/
def dhas (d : List (String × Int)) (k : String) : Bool :=
  d.any (fun p => p.1 = k)

/-- Sum of `d.values()`. -/
def dsum (d : List (String × Int)) : Int :=
  (d.map (fun p => p.2)).sum

/-- Model of `max(d.keys(), key=lambda k: d[k])`: CPython's `max` keeps
the current maximum on ties, so the first key attaining the maximal value
wins; `none` models the `ValueError` on an empty dictionary. -/
def argmaxKey : List (String × Int) → Option String
  | [] => none
  | (k, v) :: rest =>
    match argmaxKey rest with
    | none => some k
    | some k2 => if v < dget rest k2 then some k2 else some k

/-- Model of CPython `int(x)` on a rational: truncation toward zero. -/
def pyInt (q : ℚ) : Int :=
  if q < 0 then -(Int.floor (-q)) else Int.floor q

/-- A user-journey path as the planner receives it: identifier and
optional legacy `percentage` (`None` is `none`). -/
structure JPath where
  path_id : String
  percentage : Option ℚ
  deriving DecidableEq

/-- A user segment: share of the population and per-path preference
weights. -/
structure Segment where
  segment_id : String
  percentage : ℚ
  path_preferences : List (String × ℚ)
  deriving DecidableEq

/-- An account; `user_count` is read with `account.get('user_count', 10)`. -/
structure Account where
  account_id : String
  user_count : Option ℚ
  deriving DecidableEq

/-- Truthiness of `path.get('percentage')`: `None` and `0` are falsy and
exclude the path from the legacy strategy. -/
def truthyPct : Option ℚ → Bool
  | none => false
  | some q => decide (q ≠ 0)

/-- The weight sum `sum(path['percentage'] for path in paths if
path.get('percentage'))`. -/
def legacyTotal (paths : List JPath) : ℚ :=
  (paths.map (fun p => if truthyPct p.percentage then p.percentage.getD 0 else 0)).sum

/-- Floor phase of `_calculate_legacy_distribution`. -/
def legacyFloors (user_count : Int) (paths : List JPath) : List (String × Int) :=
  paths.foldl (fun d p =>
    if truthyPct p.percentage then
      pset d p.path_id (pyInt ((user_count : ℚ) * (p.percentage.getD 0 / legacyTotal paths)))
    else d) []

/-- The rounding correction shared by the three strategies: add
`user_count - assigned` to the first key holding the largest count
(`none` models the `ValueError` of `max` on an empty dictionary). -/
def adjustLargest (d : List (String × Int)) (diff : Int) : Option (List (String × Int)) :=
  match argmaxKey d with
  | none => none
  | some k => some (pset d k (dget d k + diff))

/-- Model of `Simulator._calculate_legacy_distribution`.  The division by
`total_percentage` only executes for paths with truthy percentages, so a
zero total raises only when such a path exists. -/
def calcLegacyDistribution (user_count : Int) (paths : List JPath) :
    Option (List (String × Int)) :=
  if (paths.any fun p => truthyPct p.percentage) ∧ legacyTotal paths = 0 then none
  else
    let d := legacyFloors user_count paths
    if dsum d < user_count then adjustLargest d (user_count - dsum d) else some d

/-- Segment percentage total `sum(segment['percentage'] for segment in
user_segments)`. -/
def segTotal (segments : List Segment) : ℚ :=
  (segments.map (fun s => s.percentage)).sum

/-- Preference total `sum(path_preferences.values())` of one segment. -/
def prefTotal (s : Segment) : ℚ :=
  (s.path_preferences.map (fun p => p.2)).sum

/-- The zero-initialised dictionary over all paths. -/
def initPaths (paths : List JPath) : List (String × Int) :=
  paths.foldl (fun d p => pset d p.path_id 0) []

/-- Distribution loop of `_calculate_segment_based_distribution`: per
segment, `int(user_count * segment_share)` users, spread over the
segment's preferences by `int(segment_user_count * preference_ratio)`;
preferences naming unknown paths are skipped with a warning. -/
def segmentFloors (user_count : Int) (segments : List Segment)
    (init : List (String × Int)) : List (String × Int) :=
  segments.foldl (fun d seg =>
    let segUsers := pyInt ((user_count : ℚ) * (seg.percentage / segTotal segments))
    seg.path_preferences.foldl (fun d2 pref =>
      if dhas d2 pref.1 then
        pset d2 pref.1 (dget d2 pref.1 + pyInt ((segUsers : ℚ) * (pref.2 / prefTotal seg)))
      else d2) d) init

/-- Model of `Simulator._calculate_segment_based_distribution`. -/
def calcSegmentDistribution (user_count : Int) (segments : List Segment)
    (paths : List JPath) : Option (List (String × Int)) :=
  if segments ≠ [] ∧ segTotal segments = 0 then none
  else if ∃ s ∈ segments, s.path_preferences ≠ [] ∧ prefTotal s = 0 then none
  else
    let d := segmentFloors user_count segments (initPaths paths)
    if dsum d ≠ user_count then adjustLargest d (user_count - dsum d) else some d

/-- Account weight `account.get('user_count', 10)`. -/
def acctUsers (a : Account) : ℚ :=
  a.user_count.getD 10

/-- Account weight total. -/
def acctTotal (accounts : List Account) : ℚ :=
  (accounts.map acctUsers).sum

/-- Model of `Simulator._distribute_account_users_across_segments`
(no rounding correction of its own; segments that scale to zero users are
skipped). -/
def distributeAccountUsers (account_user_count : Int) (segments : List Segment)
    (paths : List JPath) : List (String × Int) :=
  segments.foldl (fun d seg =>
    let segUsers := pyInt ((account_user_count : ℚ) * (seg.percentage / segTotal segments))
    if segUsers = 0 then d
    else seg.path_preferences.foldl (fun d2 pref =>
      if dhas d2 pref.1 then
        pset d2 pref.1 (dget d2 pref.1 + pyInt ((segUsers : ℚ) * (pref.2 / prefTotal seg)))
      else d2) d) (initPaths paths)

/-- Model of `Simulator._calculate_account_based_distribution`: scale each
account to `int(account_share * user_count)` users, distribute each scaled
account through the segment algorithm, sum, then apply the rounding
correction. -/
def calcAccountDistribution (user_count : Int) (accounts : List Account)
    (segments : List Segment) (paths : List JPath) : Option (List (String × Int)) :=
  if accounts ≠ [] ∧ acctTotal accounts = 0 then none
  else if accounts ≠ [] ∧ segments ≠ [] ∧ segTotal segments = 0 then none
  else if accounts ≠ [] ∧ ∃ s ∈ segments, s.path_preferences ≠ [] ∧ prefTotal s = 0 then none
  else
    let d := accounts.foldl (fun d acct =>
      let scaled := pyInt (acctUsers acct / acctTotal accounts * (user_count : ℚ))
      (distributeAccountUsers scaled segments paths).foldl
        (fun dd pr => pset dd pr.1 (dget dd pr.1 + pr.2)) d) (initPaths paths)
    if dsum d ≠ user_count then adjustLargest d (user_count - dsum d) else some d

/-! ## `Simulator.bulk_simulate` (claim C10)

The `PendoReplay` class in `pendo_capture.py` defines exactly the methods
`__aenter__`, `__aexit__`, `load_templates`, `generate_user_session_ids`,
`random_string`, `replay_user_journey`, `send_pendo_request`,
`encode_to_jzb` and `bulk_replay`; there is no `bulk_replay_with_segments`
anywhere in the repository, so the awaited call
`replay.bulk_replay_with_segments(...)` raises `AttributeError` inside the
`try`, and the `except Exception` handler returns the failure dictionary.
Exceptions raised before the `try` (the strategy selection, the
distribution computation and the percentage-report loop, lines 499-512)
propagate to the caller; they are modelled as `none`. -/

/-- Subset of the result dictionary of `bulk_simulate` that the claims
mention. -/
structure SimResult where
  success : Bool
  sessions_scheduled : Int
  sessions_completed : Int
  deriving DecidableEq

/-- Strategy selection of `bulk_simulate` (`if accounts: ... elif
user_segments: ... else: ...`; `None` and the empty list are falsy).  In
the account branch a `None` `user_segments` is iterated inside
`_distribute_account_users_across_segments` and raises `TypeError`. -/
def bulkSimulateDist (user_count : Int) (paths : List JPath)
    (segments : Option (List Segment)) (accounts : Option (List Account)) :
    Option (List (String × Int)) :=
  match accounts with
  | some (a :: rest) =>
    match segments with
    | some segs => calcAccountDistribution user_count (a :: rest) segs paths
    | none => none
  | _ =>
    match segments with
    | some (s :: rest) => calcSegmentDistribution user_count (s :: rest) paths
    | _ => calcLegacyDistribution user_count paths

/-- Model of `Simulator.bulk_simulate`.  After the distribution phase the
report loop computes `(count / user_count) * 100` for every entry, raising
`ZeroDivisionError` when `user_count == 0` and the distribution is
non-empty; otherwise the `try` block is entered, the missing
`bulk_replay_with_segments` attribute raises, and the handler returns
`{'success': False, ..., 'sessions_completed': 0}`. -/
def bulkSimulate (user_count : Int) (paths : List JPath)
    (segments : Option (List Segment)) (accounts : Option (List Account)) :
    Option SimResult :=
  match bulkSimulateDist user_count paths segments accounts with
  | none => none
  | some dist =>
    if dist ≠ [] ∧ user_count = 0 then none
    else some { success := false, sessions_scheduled := user_count, sessions_completed := 0 }

/-! ## Replay engine (`PendoReplay.send_pendo_request`,
`replay_user_journey`, `bulk_replay`) -/

/-- The session-identity fields substituted into every replayed event. -/
structure SessionIds where
  visitor_id : List Char
  session_id : List Char
  tab_id : List Char
  frame_id : List Char
  account_id : List Char

/-- One event after `event.copy()` and the six-field `update` of
`send_pendo_request` (dictionary update keeps existing key positions and
appends new keys in the literal's order). -/
def modifyEvent (browserTime : Int) (ids : SessionIds) (e : JsonObj) : JsonObj :=
  (((((e.set "browser_time".data (.num browserTime)).set
      "visitor_id".data (.str ids.visitor_id)).set
      "session_id".data (.str ids.session_id)).set
      "tab_id".data (.str ids.tab_id)).set
      "frame_id".data (.str ids.frame_id)).set
      "account_id".data (.str ids.account_id)

/-- A captured request template (`PendoEventTemplate` in the source). -/
structure PendoEventTemplate where
  path_id : String
  sequence_order : Int
  base_url : List Char
  query_params : List (List Char × List Char)
  decoded_events : List JsonObj
  timing_delay_ms : Int
  deriving DecidableEq

/-- Percent-encoding used by `urllib.parse.urlencode` for keys and values
(`quote_plus`: space becomes `+`). -/
def quotePlus (s : List Char) : List Char :=
  (s.map (fun c =>
    if c = ' ' then ['+']
    else if quoteSafe c then [c]
    else (utf8Char c).flatMap (fun b => ['%', hexDigitCharU (b / 16), hexDigitCharU (b % 16)]))).flatten

/-- Model of `urllib.parse.urlencode` on an ordered mapping. -/
def urlencode (ps : List (List Char × List Char)) : List Char :=
  List.intercalate ['&'] (ps.map (fun p => quotePlus p.1 ++ '=' :: quotePlus p.2))

/-- The outbound request built by `send_pendo_request`. -/
structure SentRequest where
  url : List Char
  params : List (List Char × List Char)
  events : List JsonObj
  deriving DecidableEq

/-- Model of `send_pendo_request` up to the network call: events are
modified on copies (`event.copy()`), the template's `query_params` is
copied (`.copy()`) before the `jzb` and `ct` overrides, and the template
object itself is never written to — the pair returns the template as the
call leaves it together with the request it sends. -/
def sendPendoRequest (t : PendoEventTemplate) (browserTime : Int) (ids : SessionIds) :
    PendoEventTemplate × SentRequest :=
  let modified := t.decoded_events.map (modifyEvent browserTime ids)
  let jzb := encodeToJzb (JsonList.ofList (modified.map Json.obj))
  let qp := pset (pset t.query_params "jzb".data jzb) "ct".data (intChars browserTime)
  (t, { url := t.base_url ++ '?' :: urlencode qp, params := qp, events := modified })

/-- Outcome of one HTTP GET: a status code or a transport-level error. -/
inductive NetOutcome where
  | status (code : Int)
  | transportError (msg : List Char)
  deriving DecidableEq

/-- A network behaviour: the outcome of the `n`-th request sent by a
session. -/
def Net : Type := Nat → NetOutcome

/-- What the `try`/`except` around `session.get` records: HTTP 200 prints
success, any other status prints a warning, an exception prints an error —
nothing propagates out of `send_pendo_request`. -/
inductive SendLog where
  | ok
  | httpFail (code : Int)
  | sendError (msg : List Char)
  deriving DecidableEq

/-- Classification performed by the response handling in
`send_pendo_request`. -/
def classifyOutcome : NetOutcome → SendLog
  | .status code => if code = 200 then .ok else .httpFail code
  | .transportError m => .sendError m

/-- Stable insertion by `sequence_order` (equal keys keep their original
relative order, as CPython's `sorted` guarantees). -/
def insertBySeq (t : PendoEventTemplate) : List PendoEventTemplate → List PendoEventTemplate
  | [] => [t]
  | u :: rest =>
    if u.sequence_order < t.sequence_order then u :: insertBySeq t rest else t :: u :: rest

/-- Model of `sorted(templates, key=lambda t: t.sequence_order)`. -/
def sortBySeq (ts : List PendoEventTemplate) : List PendoEventTemplate :=
  ts.foldr insertBySeq []

/-- Delay accumulated before one template:
`template.timing_delay_ms or random.randint(1000, 4000)` — Python `or`
takes the random fallback exactly when the stored delay is `0`. -/
def journeyDelay (rng : Nat → Int) (idx : Nat) (t : PendoEventTemplate) : Int :=
  if t.timing_delay_ms = 0 then rng idx else t.timing_delay_ms

/-- Loop body of `replay_user_journey` over the already-sorted templates:
accumulate the timestamp, send each request, record its log entry, and
continue with the next template whatever the outcome was. -/
def replayJourney (net : Net) (rng : Nat → Int) :
    List PendoEventTemplate → Int → Nat → SessionIds → List (SentRequest × SendLog)
  | [], _, _, _ => []
  | t :: rest, ts, idx, ids =>
    let ts2 := ts + journeyDelay rng idx t
    ((sendPendoRequest t ts2 ids).2, classifyOutcome (net idx)) ::
      replayJourney net rng rest ts2 (idx + 1) ids

/-- Model of `replay_user_journey`. -/
def replayUserJourney (net : Net) (rng : Nat → Int) (templates : List PendoEventTemplate)
    (baseTs : Int) (ids : SessionIds) : List (SentRequest × SendLog) :=
  replayJourney net rng (sortBySeq templates) baseTs 0 ids

/-! ## Batch dispatch (`bulk_replay`) and randomness -/

/-- Support of `random.randint(a, b)`: CPython documents the result `N`
as `a <= N <= b` — both endpoints included. -/
def randintSupport (a b : Int) : Finset Int :=
  Finset.Icc a b

/-- Probability `random.randint(a, b)` assigns to `k`: uniform over the
inclusive range. -/
def randintPMF (a b k : Int) : ℚ :=
  if k ∈ Finset.Icc a b then 1 / ((b - a + 1) : ℚ) else 0

/-- Offsets drawn by `bulk_replay`
(`random.randint(0, days_back * 24 * 60 * 60)`). -/
def offsetSupport (days_back : Int) : Finset Int :=
  randintSupport 0 (days_back * 24 * 60 * 60)

/-- Probability of one offset value. -/
def offsetPMF (days_back k : Int) : ℚ :=
  randintPMF 0 (days_back * 24 * 60 * 60) k

/-- The session timestamp materialised from an offset:
`now - timedelta(seconds=offset)`. -/
def sessionTimestamp (now off : Int) : Int :=
  now - off

/-- Batches formed by `for i in range(0, len(sessions), batch_size)` with
slices `sessions[i : i + batch_size]`; fuel-structural on the length. -/
def batchesF {α : Type} (bs : Nat) : Nat → List α → List (List α)
  | 0, _ => []
  | _ + 1, [] => []
  | fuel + 1, l => l.take bs :: batchesF bs fuel (l.drop bs)

/-- The batch schedule of `bulk_replay` over the shuffled session list. -/
def batchSchedule {α : Type} (sessions : List α) (batch_size : Nat) : List (List α) :=
  batchesF batch_size sessions.length sessions

/-- Model of `asyncio.gather(*tasks, return_exceptions=True)`: every task
of the batch runs to completion and contributes one result slot; a failure
in one task cancels none of its siblings. -/
def gatherRE {α β : Type} (run : α → β) (batch : List α) : List β :=
  batch.map run

/-- Events of the serialized dispatch timeline of the batching loop. -/
inductive BatchEv (α : Type) where
  | batchStart (i : Nat)
  | run (s : α)
  | batchEnd (i : Nat)
  deriving DecidableEq

/-- Dispatch timeline of the batching loop from batch index `i` onward:
the loop awaits the `gather` of a whole batch before sleeping and starting
the next iteration, so the trace of batch `i` is a contiguous segment and
batch `i + 1` begins only after `batchEnd i`. -/
def dispatchTraceFrom {α : Type} (i : Nat) : List (List α) → List (BatchEv α)
  | [] => []
  | b :: rest =>
    BatchEv.batchStart i :: (b.map BatchEv.run ++ (BatchEv.batchEnd i :: dispatchTraceFrom (i + 1) rest))

/-- Dispatch timeline of `bulk_replay`. -/
def dispatchTrace {α : Type} (bts : List (List α)) : List (BatchEv α) :=
  dispatchTraceFrom 0 bts

/-! ## Claim C6: session timestamp offsets -/

/-- Claim C6 counterexample: with `days_back = 1` the offset generator
`random.randint(0, days_back * 24 * 60 * 60)` can produce `86400`
itself, which is not strictly less than `days_back × 86400` — CPython's
`randint` includes both endpoints, so the claimed half-open interval
`[0, days_back × 86400)` is wrong. -/
theorem offset_range_counterexample :
    (86400 : Int) ∈ offsetSupport 1 ∧ ¬ ((86400 : Int) < 1 * 86400) := by
  refine ⟨?_, by omega⟩
  unfold offsetSupport randintSupport
  rw [Finset.mem_Icc]
  omega

/-- Claim C6 as amended: the random offset is drawn uniformly from the
closed interval `[0, days_back × 86400]` — membership in the support is
exactly `0 ≤ k ≤ days_back × 86400`, and every member has the same
probability `1 / (days_back × 86400 + 1)`. -/
theorem offset_closed_uniform (d k : Int) :
    (k ∈ offsetSupport d ↔ 0 ≤ k ∧ k ≤ d * 86400) ∧
    (k ∈ offsetSupport d → offsetPMF d k = 1 / ((d * 86400 + 1 : Int) : ℚ)) := by
  have hd : d * 24 * 60 * 60 = d * 86400 := by ring
  constructor
  · unfold offsetSupport randintSupport
    rw [Finset.mem_Icc, hd]
  · intro h
    unfold offsetSupport randintSupport at h
    unfold offsetPMF randintPMF
    rw [if_pos h]
    push_cast
    ring_nf

/-- Witness for the amended C6 theorem at `days_back = 1`, `k = 86400`. -/
theorem offset_closed_uniform_witness :
    offsetPMF 1 86400 = 1 / ((1 * 86400 + 1 : Int) : ℚ) := by
  have h := offset_closed_uniform 1 86400
  exact h.2 (h.1.mpr (by omega))

/-! ## Claim C7: batch dispatch -/

/-- The batches of `bulk_replay` concatenate back to the session list in
order (contiguous slices). -/
theorem batchesF_flatten {α : Type} (bs : Nat) (hbs : 0 < bs) :
    ∀ (fuel : Nat) (l : List α), l.length ≤ fuel → (batchesF bs fuel l).flatten = l := by
  intro fuel
  induction fuel with
  | zero =>
    intro l hl
    rw [Nat.le_zero, List.length_eq_zero] at hl
    subst hl
    rfl
  | succ n ih =>
    intro l hl
    match l with
    | [] => rfl
    | c :: rest =>
      show (List.take bs (c :: rest) :: batchesF bs n (List.drop bs (c :: rest))).flatten
          = c :: rest
      rw [List.flatten_cons, ih _ (by simp only [List.length_drop]; omega),
        List.take_append_drop]

/-- The batching loop forms exactly `⌈n / batch_size⌉` batches. -/
theorem batchesF_length {α : Type} (bs : Nat) (hbs : 0 < bs) :
    ∀ (fuel : Nat) (l : List α), l.length ≤ fuel →
      (batchesF bs fuel l).length = (l.length + bs - 1) / bs := by
  intro fuel
  induction fuel with
  | zero =>
    intro l hl
    rw [Nat.le_zero, List.length_eq_zero] at hl
    subst hl
    show 0 = (0 + bs - 1) / bs
    rw [Nat.div_eq_of_lt (by omega)]
  | succ n ih =>
    intro l hl
    match l with
    | [] =>
      show 0 = (0 + bs - 1) / bs
      rw [Nat.div_eq_of_lt (by omega)]
    | c :: rest =>
      show (batchesF bs n (List.drop bs (c :: rest))).length + 1
          = ((c :: rest).length + bs - 1) / bs
      rw [ih _ (by simp only [List.length_drop]; omega)]
      simp only [List.length_drop]
      have h1 : (c :: rest).length + bs - 1 = ((c :: rest).length - 1) + bs := by
        simp only [List.length_cons]; omega
      rw [h1, Nat.add_div_right _ hbs]
      have h2 : ((c :: rest).length - bs + bs - 1) / bs = ((c :: rest).length - 1) / bs := by
        rcases le_or_lt (c :: rest).length bs with hle | hlt
        · rw [Nat.div_eq_of_lt (by omega), Nat.div_eq_of_lt (by omega)]
        · congr 1
          omega
      rw [h2]

/-- Every batch has at most `batch_size` sessions. -/
theorem batchesF_sizes {α : Type} (bs : Nat) :
    ∀ (fuel : Nat) (l : List α), ∀ b ∈ batchesF bs fuel l, b.length ≤ bs := by
  intro fuel
  induction fuel with
  | zero => intro l b hb; cases hb
  | succ n ih =>
    intro l b hb
    match l with
    | [] => cases hb
    | c :: rest =>
      rcases List.mem_cons.mp hb with rfl | h
      · simp [List.length_take]
      · exact ih _ _ h

/-- A `batchStart j` marker occurs in the timeline of batches `k, k+1, …`
whenever `k ≤ j` falls inside it. -/
theorem dispatchTraceFrom_start_mem {α : Type} :
    ∀ (bts : List (List α)) (k j : Nat), k ≤ j → j < k + bts.length →
      ∃ mid post, dispatchTraceFrom k bts = mid ++ BatchEv.batchStart j :: post := by
  intro bts
  induction bts with
  | nil => intro k j h1 h2; simp at h2; omega
  | cons b rest ih =>
    intro k j h1 h2
    rcases Nat.eq_or_lt_of_le h1 with rfl | hlt
    · exact ⟨[], b.map BatchEv.run ++ (BatchEv.batchEnd k :: dispatchTraceFrom (k + 1) rest), rfl⟩
    · obtain ⟨mid, post, hmp⟩ := ih (k + 1) j hlt (by simp at h2 ⊢; omega)
      refine ⟨BatchEv.batchStart k :: (b.map BatchEv.run ++ (BatchEv.batchEnd k :: mid)), post, ?_⟩
      show BatchEv.batchStart k :: (b.map BatchEv.run ++ (BatchEv.batchEnd k :: dispatchTraceFrom (k + 1) rest))
          = BatchEv.batchStart k :: (b.map BatchEv.run ++ (BatchEv.batchEnd k :: mid)) ++ BatchEv.batchStart j :: post
      rw [hmp]
      simp [List.append_assoc]

/-- In the dispatch timeline, batch `i` ends before any later batch `j`
starts. -/
theorem dispatchTraceFrom_order {α : Type} :
    ∀ (bts : List (List α)) (k i j : Nat), k ≤ i → i < j → j < k + bts.length →
      ∃ pre mid post,
        dispatchTraceFrom k bts = pre ++ BatchEv.batchEnd i :: (mid ++ BatchEv.batchStart j :: post) := by
  intro bts
  induction bts with
  | nil => intro k i j h1 h2 h3; simp at h3; omega
  | cons b rest ih =>
    intro k i j h1 h2 h3
    rcases Nat.eq_or_lt_of_le h1 with rfl | hlt
    · obtain ⟨mid, post, hmp⟩ := dispatchTraceFrom_start_mem rest (k + 1) j (by omega)
        (by simp at h3 ⊢; omega)
      refine ⟨BatchEv.batchStart k :: b.map BatchEv.run, mid, post, ?_⟩
      show BatchEv.batchStart k :: (b.map BatchEv.run ++ (BatchEv.batchEnd k :: dispatchTraceFrom (k + 1) rest))
          = (BatchEv.batchStart k :: b.map BatchEv.run) ++ BatchEv.batchEnd k :: (mid ++ BatchEv.batchStart j :: post)
      rw [hmp]
      simp [List.append_assoc]
    · obtain ⟨pre, mid, post, hmp⟩ := ih (k + 1) i j hlt h2 (by simp at h3 ⊢; omega)
      refine ⟨BatchEv.batchStart k :: (b.map BatchEv.run ++ (BatchEv.batchEnd k :: pre)), mid, post, ?_⟩
      show BatchEv.batchStart k :: (b.map BatchEv.run ++ (BatchEv.batchEnd k :: dispatchTraceFrom (k + 1) rest))
          = BatchEv.batchStart k :: (b.map BatchEv.run ++ (BatchEv.batchEnd k :: pre)) ++ BatchEv.batchEnd i :: (mid ++ BatchEv.batchStart j :: post)
      rw [hmp]
      simp [List.append_assoc]

/-- Claim C7: `bulk_replay` partitions the shuffled session list of length
`n` into exactly `⌈n / batch_size⌉` contiguous batches of at most
`batch_size` sessions each; `asyncio.gather(..., return_exceptions=True)`
gives every session of a batch its own result slot regardless of failures
(no sibling is cancelled), and in the dispatch timeline batch `i` ends
before any later batch `j` starts. -/
theorem batch_dispatch {S : Type} (sessions : List S) (bs : Nat) (hbs : 0 < bs) :
    (batchSchedule sessions bs).length = (sessions.length + bs - 1) / bs ∧
    (∀ b ∈ batchSchedule sessions bs, b.length ≤ bs) ∧
    (batchSchedule sessions bs).flatten = sessions ∧
    (∀ (T : Type) (run : S → T) (b : List S), (gatherRE run b).length = b.length) ∧
    (∀ i j, i < j → j < (batchSchedule sessions bs).length →
      ∃ pre mid post,
        dispatchTrace (batchSchedule sessions bs) =
          pre ++ BatchEv.batchEnd i :: (mid ++ BatchEv.batchStart j :: post)) := by
  refine ⟨batchesF_length bs hbs _ _ le_rfl, batchesF_sizes bs _ _,
    batchesF_flatten bs hbs _ _ le_rfl, fun T run b => List.length_map _ _, ?_⟩
  intro i j hij hj
  exact dispatchTraceFrom_order _ 0 i j (Nat.zero_le i) hij (by omega)

/-- Witness for C7 at the spec's example: `batch_size = 2` and 5 sessions
give exactly 3 batches, the concrete schedule being `[[0,1],[2,3],[4]]`. -/
theorem batch_dispatch_witness :
    (0 : Nat) < 2 ∧
    (batchSchedule [0, 1, 2, 3, 4] 2).length = (5 + 2 - 1) / 2 ∧
    batchSchedule [0, 1, 2, 3, 4] 2 = [[0, 1], [2, 3], [4]] ∧
    (5 + 2 - 1) / 2 = 3 :=
  ⟨by omega, (batch_dispatch [0, 1, 2, 3, 4] 2 (by omega)).1, rfl, by omega⟩

/-! ## Claim C8: network-failure isolation -/

/-- The log entries a journey is expected to record: one per template,
each classifying that request's own outcome. -/
def expectedLogs (net : Net) : Nat → Nat → List SendLog
  | _, 0 => []
  | idx, n + 1 => classifyOutcome (net idx) :: expectedLogs net (idx + 1) n

/-- The requests a journey sends do not depend on the network outcomes. -/
theorem replayJourney_fst (net net2 : Net) (rng : Nat → Int) :
    ∀ (l : List PendoEventTemplate) (ts : Int) (idx : Nat) (ids : SessionIds),
      (replayJourney net rng l ts idx ids).map Prod.fst =
        (replayJourney net2 rng l ts idx ids).map Prod.fst := by
  intro l
  induction l with
  | nil => intro ts idx ids; rfl
  | cons t rest ih =>
    intro ts idx ids
    simp only [replayJourney, List.map_cons, ih]

/-- A journey sends exactly one request per template. -/
theorem replayJourney_length (net : Net) (rng : Nat → Int) :
    ∀ (l : List PendoEventTemplate) (ts : Int) (idx : Nat) (ids : SessionIds),
      (replayJourney net rng l ts idx ids).length = l.length := by
  intro l
  induction l with
  | nil => intro ts idx ids; rfl
  | cons t rest ih =>
    intro ts idx ids
    simp only [replayJourney, List.length_cons, ih]

/-- The logs a journey records are the per-request classifications, in
order. -/
theorem replayJourney_snd (net : Net) (rng : Nat → Int) :
    ∀ (l : List PendoEventTemplate) (ts : Int) (idx : Nat) (ids : SessionIds),
      (replayJourney net rng l ts idx ids).map Prod.snd =
        expectedLogs net idx l.length := by
  intro l
  induction l with
  | nil => intro ts idx ids; rfl
  | cons t rest ih =>
    intro ts idx ids
    simp only [replayJourney, List.map_cons, List.length_cons, expectedLogs, ih]

/-- Stable insertion grows the length by one. -/
theorem insertBySeq_length (t : PendoEventTemplate) :
    ∀ l : List PendoEventTemplate, (insertBySeq t l).length = l.length + 1 := by
  intro l
  induction l with
  | nil => rfl
  | cons u rest ih =>
    by_cases h : u.sequence_order < t.sequence_order
    · simp [insertBySeq, h, ih]
    · simp [insertBySeq, h]

/-- Sorting by sequence order keeps the number of templates. -/
theorem sortBySeq_length (ts : List PendoEventTemplate) :
    (sortBySeq ts).length = ts.length := by
  unfold sortBySeq
  induction ts with
  | nil => rfl
  | cons t rest ih => simp [List.foldr_cons, insertBySeq_length, ih]

/-- Claim C8: a network failure (non-2xx status or transport error) on one
request is classified and recorded but changes nothing else — the requests
sent by a session are identical under any two network behaviours (so every
subsequent template is still sent), their number equals the number of
templates, each recorded log entry classifies its own request's outcome,
and a batch gathered with `return_exceptions=True` still yields one result
per sibling session. -/
theorem network_failure_isolation (net net2 : Net) (rng : Nat → Int)
    (templates : List PendoEventTemplate) (baseTs : Int) (ids : SessionIds)
    (sessions : List SessionIds) :
    (replayUserJourney net rng templates baseTs ids).map Prod.fst =
      (replayUserJourney net2 rng templates baseTs ids).map Prod.fst ∧
    (replayUserJourney net rng templates baseTs ids).length = templates.length ∧
    (replayUserJourney net rng templates baseTs ids).map Prod.snd =
      expectedLogs net 0 templates.length ∧
    (gatherRE (fun s => replayUserJourney net rng templates baseTs s) sessions).length =
      sessions.length := by
  refine ⟨replayJourney_fst net net2 rng _ _ _ _, ?_, ?_, List.length_map _ _⟩
  · rw [replayUserJourney, replayJourney_length, sortBySeq_length]
  · rw [replayUserJourney, replayJourney_snd, sortBySeq_length]

/-! ## Claim C9: replay leaves the template unchanged and overrides
exactly the `jzb` and `ct` parameters -/

/-- Lookup on a cons cell. -/
theorem plookup_cons {α β : Type} [DecidableEq α] (p : α × β) (rest : List (α × β)) (k : α) :
    plookup (p :: rest) k = if p.1 = k then some p.2 else plookup rest k := by
  by_cases h : p.1 = k
  · rw [plookup, List.find?_cons_of_pos _ (by simp [h]), if_pos h]
    rfl
  · rw [plookup, List.find?_cons_of_neg _ (by simp [h]), if_neg h]
    rfl

/-- Setting a key makes it look up to the new value. -/
theorem plookup_pset_self {α β : Type} [DecidableEq α] :
    ∀ (d : List (α × β)) (k : α) (v : β), plookup (pset d k v) k = some v := by
  intro d k v
  induction d with
  | nil => simp [pset, plookup_cons, plookup, List.find?]
  | cons p rest ih =>
    by_cases h : p.1 = k
    · rw [pset, if_pos h, plookup_cons, if_pos h]
    · rw [pset, if_neg h, plookup_cons, if_neg h, ih]

/-- Setting a key leaves every other key's lookup unchanged. -/
theorem plookup_pset_other {α β : Type} [DecidableEq α] :
    ∀ (d : List (α × β)) (k k2 : α) (v : β), k2 ≠ k →
      plookup (pset d k v) k2 = plookup d k2 := by
  intro d k k2 v hne
  induction d with
  | nil =>
    rw [pset, plookup_cons, if_neg (fun h => hne h.symm)]
  | cons p rest ih =>
    by_cases h : p.1 = k
    · rw [pset, if_pos h, plookup_cons, plookup_cons]
      show (if p.1 = k2 then some v else plookup rest k2) = _
      rcases eq_or_ne p.1 k2 with h2 | h2
      · exact absurd (h.symm.trans h2).symm hne
      · rw [if_neg h2, if_neg h2]
    · rw [pset, if_neg h, plookup_cons, plookup_cons, ih]

/-- Claim C9: `send_pendo_request` leaves the stored template unchanged
(the code only reads `template` fields and works on `event.copy()` and
`query_params.copy()`), and the outbound request's query parameters are
the template's static `query_params` with exactly the `jzb` and `ct` keys
overridden: `jzb` carries the freshly encoded payload, `ct` the
client-timestamp in milliseconds, and every other key is untouched.  The
URL is the base URL plus the encoded parameters. -/
theorem replay_frame_effect (t : PendoEventTemplate) (browserTime : Int) (ids : SessionIds) :
    (sendPendoRequest t browserTime ids).1 = t ∧
    plookup (sendPendoRequest t browserTime ids).2.params "jzb".data =
      some (encodeToJzb (JsonList.ofList
        ((t.decoded_events.map (modifyEvent browserTime ids)).map Json.obj))) ∧
    plookup (sendPendoRequest t browserTime ids).2.params "ct".data =
      some (intChars browserTime) ∧
    (∀ k, k ≠ "jzb".data → k ≠ "ct".data →
      plookup (sendPendoRequest t browserTime ids).2.params k = plookup t.query_params k) ∧
    (sendPendoRequest t browserTime ids).2.url =
      t.base_url ++ '?' :: urlencode (sendPendoRequest t browserTime ids).2.params := by
  refine ⟨rfl, ?_, ?_, ?_, rfl⟩
  · show plookup (pset (pset t.query_params "jzb".data _) "ct".data _) "jzb".data = _
    rw [plookup_pset_other _ _ _ _ (by decide), plookup_pset_self]
  · exact plookup_pset_self _ _ _
  · intro k hk1 hk2
    show plookup (pset (pset t.query_params "jzb".data _) "ct".data _) k = _
    rw [plookup_pset_other _ _ _ _ hk2, plookup_pset_other _ _ _ _ hk1]

/-- Concrete template for the C9 witness. -/
def tmplW : PendoEventTemplate :=
  { path_id := "p1", sequence_order := 0, base_url := "https://app.pendo.io/data".data,
    query_params := [("v".data, "2".data)], decoded_events := [], timing_delay_ms := 0 }

/-- Concrete session identity for the C9 witness. -/
def idsW : SessionIds :=
  { visitor_id := "_PENDO_T_x".data, session_id := "s".data, tab_id := "t".data,
    frame_id := "f".data, account_id := "demo_account".data }

/-- Witness for C9: on a concrete template, the untouched key `v` still
looks up to its original value, and the template comes back unchanged. -/
theorem replay_frame_effect_witness :
    (sendPendoRequest tmplW 5 idsW).1 = tmplW ∧
    plookup (sendPendoRequest tmplW 5 idsW).2.params "v".data = plookup tmplW.query_params "v".data :=
  ⟨(replay_frame_effect tmplW 5 idsW).1,
   (replay_frame_effect tmplW 5 idsW).2.2.2.1 "v".data (by decide) (by decide)⟩

/-! ## Claim C10: `bulk_simulate` -/

/-- Claim C10 counterexample: with `user_count = 0` and one valid path the
distribution phase returns `{'a': 0}`, and the percentage-report loop at
line 511 divides by `user_count` before the `try` block is entered, so
`bulk_simulate` raises `ZeroDivisionError` instead of returning a result
dictionary — the claim's "for every input" quantifier fails. -/
theorem bulk_simulate_counterexample :
    bulkSimulate 0 [{ path_id := "a", percentage := some 50 }] none none = none := by
  norm_num [bulkSimulate, bulkSimulateDist, calcLegacyDistribution, legacyFloors, legacyTotal,
    truthyPct, pset, dsum, pyInt]

/-- Claim C10 as amended: for every input on which the pre-`try` phase
completes (the distribution phase succeeds and the report loop does not
divide by a zero `user_count`), `bulk_simulate` returns the failure
dictionary with `success = False` and `sessions_completed = 0`, because
`replay.bulk_replay_with_segments` names a method `PendoReplay` does not
define and the resulting `AttributeError` lands in the `except` branch. -/
theorem bulk_simulate_always_fails (user_count : Int) (paths : List JPath)
    (segments : Option (List Segment)) (accounts : Option (List Account))
    (dist : List (String × Int))
    (hdist : bulkSimulateDist user_count paths segments accounts = some dist)
    (hz : user_count ≠ 0 ∨ dist = []) :
    bulkSimulate user_count paths segments accounts =
      some { success := false, sessions_scheduled := user_count, sessions_completed := 0 } := by
  unfold bulkSimulate
  rw [hdist]
  rcases hz with h | h
  · simp [h]
  · subst h
    simp

/-- Witness for the amended C10 theorem on a concrete valid input. -/
theorem bulk_simulate_always_fails_witness :
    bulkSimulate 10 [{ path_id := "a", percentage := some 50 }] none none =
      some { success := false, sessions_scheduled := 10, sessions_completed := 0 } :=
  bulk_simulate_always_fails 10 [{ path_id := "a", percentage := some 50 }] none none
    [("a", 10)]
    (by norm_num [bulkSimulateDist, calcLegacyDistribution, legacyFloors, legacyTotal,
      truthyPct, pset, dsum, pyInt])
    (Or.inl (by norm_num))

/-! ## Claims C2 and C5: distribution exactness and remainder assignment -/

/-- Lookup on a cons cell for the integer-valued `dget`. -/
theorem dget_cons (k0 : String) (v0 : Int) (rest : List (String × Int)) (k : String) :
    dget ((k0, v0) :: rest) k = if k0 = k then v0 else dget rest k := by
  by_cases h : k0 = k
  · rw [dget, List.find?_cons_of_pos _ (by simp [h]), if_pos h]
    rfl
  · rw [dget, List.find?_cons_of_neg _ (by simp [h]), if_neg h]
    rfl

/-- Sum over a cons cell. -/
theorem dsum_cons (k0 : String) (v0 : Int) (rest : List (String × Int)) :
    dsum ((k0, v0) :: rest) = v0 + dsum rest := by
  simp [dsum]

/-- The increment pattern `d[k] = d.get(k, 0) + x` always raises the value
sum by exactly `x`: the first occurrence is updated, or a fresh key is
appended. -/
theorem dsum_pset_add : ∀ (d : List (String × Int)) (k : String) (x : Int),
    dsum (pset d k (dget d k + x)) = dsum d + x := by
  intro d k x
  induction d with
  | nil => simp [pset, dget, dsum, List.find?]
  | cons p rest ih =>
    match p with
    | (k0, v0) =>
      by_cases h : k0 = k
      · rw [dget_cons, if_pos h, pset, if_pos h, dsum_cons, dsum_cons]
        omega
      · rw [dget_cons, if_neg h, pset, if_neg h, dsum_cons, dsum_cons, ih]
        omega

/-- Dictionary assignment never empties a dictionary. -/
theorem pset_ne_nil {α β : Type} [DecidableEq α] (d : List (α × β)) (k : α) (v : β) :
    pset d k v ≠ [] := by
  match d with
  | [] => simp [pset]
  | (k0, v0) :: rest =>
    rw [pset]
    by_cases h : k0 = k
    · rw [if_pos h]; simp
    · rw [if_neg h]; simp

/-- All values of a distribution dictionary are nonnegative. -/
def allNonneg (d : List (String × Int)) : Prop :=
  ∀ p ∈ d, 0 ≤ p.2

/-- Overwriting a nonnegative value cannot raise the sum by more than the
new value. -/
theorem dsum_pset_le : ∀ (d : List (String × Int)) (k : String) (v : Int),
    allNonneg d → dsum (pset d k v) ≤ dsum d + v := by
  intro d k v hnn
  induction d with
  | nil => simp [pset, dsum]
  | cons p rest ih =>
    match p with
    | (k0, v0) =>
      have hv0 : 0 ≤ v0 := hnn (k0, v0) (by simp)
      by_cases h : k0 = k
      · rw [pset, if_pos h, dsum_cons, dsum_cons]
        omega
      · rw [pset, if_neg h, dsum_cons, dsum_cons]
        have := ih (fun p hp => hnn p (List.mem_cons_of_mem _ hp))
        omega

/-- Assignment of a nonnegative value preserves value nonnegativity. -/
theorem allNonneg_pset : ∀ (d : List (String × Int)) (k : String) (v : Int),
    allNonneg d → 0 ≤ v → allNonneg (pset d k v) := by
  intro d k v hnn hv
  induction d with
  | nil =>
    intro p hp
    simp [pset] at hp
    subst hp
    exact hv
  | cons q rest ih =>
    match q with
    | (k0, v0) =>
      intro p hp
      by_cases h : k0 = k
      · rw [pset, if_pos h] at hp
        rcases List.mem_cons.mp hp with rfl | hp2
        · exact hv
        · exact hnn p (List.mem_cons_of_mem _ hp2)
      · rw [pset, if_neg h] at hp
        rcases List.mem_cons.mp hp with rfl | hp2
        · exact hnn (k0, v0) (by simp)
        · exact ih (fun r hr => hnn r (List.mem_cons_of_mem _ hr)) p hp2

/-- The `max` call fails exactly on the empty dictionary. -/
theorem argmaxKey_none_iff : ∀ d : List (String × Int), argmaxKey d = none ↔ d = [] := by
  intro d
  match d with
  | [] => simp [argmaxKey]
  | (k, v) :: rest =>
    simp only [argmaxKey]
    constructor
    · intro h
      exfalso
      rcases hm : argmaxKey rest with _ | k2 <;> rw [hm] at h <;> simp at h
      by_cases hc : v < dget rest k2 <;> simp [hc] at h
    · intro h
      cases h

/-- The rounding correction succeeds on a nonempty dictionary and raises
the value sum by exactly the difference it distributes. -/
theorem adjustLargest_dsum (d : List (String × Int)) (diff : Int) (h : d ≠ []) :
    ∃ d2, adjustLargest d diff = some d2 ∧ dsum d2 = dsum d + diff := by
  rcases hm : argmaxKey d with _ | k
  · exact absurd ((argmaxKey_none_iff d).mp hm) h
  · exact ⟨pset d k (dget d k + diff), by rw [adjustLargest, hm], dsum_pset_add d k diff⟩

/-- A fold whose steps never empty the dictionary keeps it nonempty. -/
theorem foldl_ne_nil_of_step {β : Type} (f : List (String × Int) → β → List (String × Int))
    (hf : ∀ acc x, acc ≠ [] → f acc x ≠ []) :
    ∀ (l : List β) (acc : List (String × Int)), acc ≠ [] → l.foldl f acc ≠ [] := by
  intro l
  induction l with
  | nil => intro acc h; exact h
  | cons x rest ih => intro acc h; exact ih (f acc x) (hf acc x h)

/-- The zero-initialised path dictionary is nonempty when a path exists. -/
theorem initPaths_ne_nil (paths : List JPath) (h : paths ≠ []) : initPaths paths ≠ [] := by
  match paths with
  | [] => exact absurd rfl h
  | p :: rest =>
    show List.foldl _ (pset [] p.path_id 0) rest ≠ []
    exact foldl_ne_nil_of_step _ (fun acc x _ => pset_ne_nil acc x.path_id 0) rest _
      (pset_ne_nil [] p.path_id 0)

/-- The segment distribution loop keeps the dictionary nonempty. -/
theorem segmentFloors_ne_nil (user_count : Int) (segments : List Segment)
    (init : List (String × Int)) (h : init ≠ []) :
    segmentFloors user_count segments init ≠ [] := by
  refine foldl_ne_nil_of_step _ ?_ segments init h
  intro acc seg hacc
  refine foldl_ne_nil_of_step _ ?_ seg.path_preferences acc hacc
  intro acc2 pref hacc2
  by_cases hh : dhas acc2 pref.1
  · rw [if_pos hh]; exact pset_ne_nil _ _ _
  · rw [if_neg hh]; exact hacc2

/-- Truncation below a nonnegative rational stays below it. -/
theorem pyInt_le (q : ℚ) (h : 0 ≤ q) : (pyInt q : ℚ) ≤ q := by
  rw [pyInt, if_neg (not_lt.mpr h)]
  exact Int.floor_le q

/-- Truncation of a nonnegative rational is nonnegative. -/
theorem pyInt_nonneg (q : ℚ) (h : 0 ≤ q) : 0 ≤ pyInt q := by
  rw [pyInt, if_neg (not_lt.mpr h)]
  exact Int.le_floor.mpr (by exact_mod_cast h)

/-- Invariant of the legacy floor loop: values stay nonnegative, and the
dictionary's value sum grows by at most the exact (unfloored) share of the
processed paths. -/
theorem legacyFoldl_bound (u : Int) (T : ℚ) (hu : 0 ≤ (u : ℚ)) (hT : 0 < T) :
    ∀ (l : List JPath) (acc : List (String × Int)),
      (∀ p ∈ l, 0 ≤ p.percentage.getD 0) → allNonneg acc →
      allNonneg (l.foldl (fun d p =>
        if truthyPct p.percentage then
          pset d p.path_id (pyInt ((u : ℚ) * (p.percentage.getD 0 / T)))
        else d) acc) ∧
      (dsum (l.foldl (fun d p =>
        if truthyPct p.percentage then
          pset d p.path_id (pyInt ((u : ℚ) * (p.percentage.getD 0 / T)))
        else d) acc) : ℚ) ≤ (dsum acc : ℚ) +
        (l.map (fun p =>
          if truthyPct p.percentage then (u : ℚ) * (p.percentage.getD 0 / T) else 0)).sum := by
  intro l
  induction l with
  | nil => intro acc _ hacc; exact ⟨hacc, by simp⟩
  | cons p rest ih =>
    intro acc hq hacc
    have hqp : 0 ≤ p.percentage.getD 0 := hq p (by simp)
    have hqrest : ∀ r ∈ rest, 0 ≤ r.percentage.getD 0 :=
      fun r hr => hq r (List.mem_cons_of_mem _ hr)
    by_cases ht : truthyPct p.percentage
    · have hx : 0 ≤ (u : ℚ) * (p.percentage.getD 0 / T) :=
        mul_nonneg hu (div_nonneg hqp hT.le)
      have hstep : allNonneg (pset acc p.path_id (pyInt ((u : ℚ) * (p.percentage.getD 0 / T)))) :=
        allNonneg_pset _ _ _ hacc (pyInt_nonneg _ hx)
      have hsum : dsum (pset acc p.path_id (pyInt ((u : ℚ) * (p.percentage.getD 0 / T)))) ≤
          dsum acc + pyInt ((u : ℚ) * (p.percentage.getD 0 / T)) :=
        dsum_pset_le _ _ _ hacc
      obtain ⟨h1, h2⟩ := ih (pset acc p.path_id (pyInt ((u : ℚ) * (p.percentage.getD 0 / T))))
        hqrest hstep
      refine ⟨by simpa [List.foldl_cons, ht] using h1, ?_⟩
      simp only [List.foldl_cons, List.map_cons, List.sum_cons, if_pos ht]
      calc (dsum (rest.foldl _ (pset acc p.path_id (pyInt ((u : ℚ) * (p.percentage.getD 0 / T))))) : ℚ)
          ≤ (dsum (pset acc p.path_id (pyInt ((u : ℚ) * (p.percentage.getD 0 / T)))) : ℚ) +
            (rest.map (fun p =>
              if truthyPct p.percentage then (u : ℚ) * (p.percentage.getD 0 / T) else 0)).sum := h2
        _ ≤ ((dsum acc : ℚ) + pyInt ((u : ℚ) * (p.percentage.getD 0 / T))) +
            (rest.map (fun p =>
              if truthyPct p.percentage then (u : ℚ) * (p.percentage.getD 0 / T) else 0)).sum := by
              have : (dsum (pset acc p.path_id (pyInt ((u : ℚ) * (p.percentage.getD 0 / T)))) : ℚ) ≤
                  (dsum acc : ℚ) + (pyInt ((u : ℚ) * (p.percentage.getD 0 / T)) : ℚ) := by
                exact_mod_cast hsum
              linarith
        _ ≤ (dsum acc : ℚ) + ((u : ℚ) * (p.percentage.getD 0 / T) +
            (rest.map (fun p =>
              if truthyPct p.percentage then (u : ℚ) * (p.percentage.getD 0 / T) else 0)).sum) := by
              have := pyInt_le _ hx
              linarith
    · obtain ⟨h1, h2⟩ := ih acc hqrest hacc
      refine ⟨by simpa [List.foldl_cons, ht] using h1, ?_⟩
      simp only [List.foldl_cons, List.map_cons, List.sum_cons, if_neg ht]
      simpa [ht] using by linarith [h2]

/-- The exact (unfloored) shares of the legacy strategy sum to the whole
population. -/
theorem legacyWeights_sum (u : Int) (ps : List JPath) (hT : legacyTotal ps ≠ 0) :
    (ps.map (fun p =>
      if truthyPct p.percentage then (u : ℚ) * (p.percentage.getD 0 / legacyTotal ps) else 0)).sum
      = (u : ℚ) := by
  have factor : ∀ (l : List JPath) (T : ℚ),
      (l.map (fun p =>
        if truthyPct p.percentage then (u : ℚ) * (p.percentage.getD 0 / T) else 0)).sum =
      ((u : ℚ) / T) * (l.map (fun p =>
        if truthyPct p.percentage then p.percentage.getD 0 else 0)).sum := by
    intro l T
    induction l with
    | nil => simp
    | cons p rest ih =>
      simp only [List.map_cons, List.sum_cons, ih]
      by_cases ht : truthyPct p.percentage
      · rw [if_pos ht, if_pos ht]
        ring
      · rw [if_neg ht, if_neg ht]
        ring
  rw [factor ps (legacyTotal ps)]
  show (u : ℚ) / legacyTotal ps * legacyTotal ps = u
  rw [div_mul_cancel₀ _ hT]

/-- The legacy weight total is positive for valid inputs. -/
theorem legacyTotal_pos :
    ∀ ps : List JPath, (∀ p ∈ ps, 0 ≤ p.percentage.getD 0) →
      (∃ p ∈ ps, truthyPct p.percentage = true) → 0 < legacyTotal ps := by
  intro ps
  induction ps with
  | nil => intro _ h; simp at h
  | cons p rest ih =>
    intro hq hex
    have hrest_nonneg : 0 ≤ (rest.map (fun p =>
        if truthyPct p.percentage then p.percentage.getD 0 else 0)).sum := by
      apply List.sum_nonneg
      intro x hx
      simp only [List.mem_map] at hx
      obtain ⟨r, hr, rfl⟩ := hx
      by_cases ht : truthyPct r.percentage
      · rw [if_pos ht]; exact hq r (List.mem_cons_of_mem _ hr)
      · rw [if_neg ht]
    by_cases ht : truthyPct p.percentage
    · have hp0 : 0 ≤ p.percentage.getD 0 := hq p (by simp)
      have hpne : p.percentage.getD 0 ≠ 0 := by
        rcases hpc : p.percentage with _ | q
        · rw [hpc] at ht; simp [truthyPct] at ht
        · rw [hpc] at ht
          simp only [truthyPct, decide_eq_true_eq] at ht
          simpa [hpc] using ht
      have hppos : 0 < p.percentage.getD 0 := lt_of_le_of_ne hp0 (Ne.symm hpne)
      show 0 < legacyTotal (p :: rest)
      rw [legacyTotal, List.map_cons, List.sum_cons, if_pos ht]
      have : (0 : ℚ) < p.percentage.getD 0 + (rest.map (fun p =>
          if truthyPct p.percentage then p.percentage.getD 0 else 0)).sum := by linarith
      exact this
    · obtain ⟨r, hr, hrt⟩ := hex
      rcases List.mem_cons.mp hr with rfl | hr2
      · rw [hrt] at ht; simp at ht
      · have := ih (fun x hx => hq x (List.mem_cons_of_mem _ hx)) ⟨r, hr2, hrt⟩
        show 0 < legacyTotal (p :: rest)
        rw [legacyTotal, List.map_cons, List.sum_cons, if_neg ht]
        rw [legacyTotal] at this
        linarith

/-- A fold whose step either keeps the dictionary or performs an
assignment, and always assigns on truthy paths, produces a nonempty
dictionary whenever the accumulator is nonempty or a truthy path occurs. -/
theorem foldl_truthy_ne_nil (f : List (String × Int) → JPath → List (String × Int))
    (hf : ∀ acc p, f acc p = acc ∨ ∃ k v, f acc p = pset acc k v)
    (hft : ∀ acc p, truthyPct p.percentage = true → ∃ k v, f acc p = pset acc k v) :
    ∀ (l : List JPath) (acc : List (String × Int)),
      (acc ≠ [] ∨ ∃ p ∈ l, truthyPct p.percentage = true) →
      l.foldl f acc ≠ [] := by
  intro l
  induction l with
  | nil =>
    intro acc h
    rcases h with h | h
    · exact h
    · simp at h
  | cons p rest ih =>
    intro acc h
    rcases h with h | h
    · have hacc2 : f acc p ≠ [] := by
        rcases hf acc p with heq | ⟨k, v, heq⟩
        · rw [heq]; exact h
        · rw [heq]; exact pset_ne_nil _ _ _
      exact ih (f acc p) (Or.inl hacc2)
    · obtain ⟨q, hq, hqt⟩ := h
      rcases List.mem_cons.mp hq with rfl | hq2
      · obtain ⟨k, v, heq⟩ := hft acc q hqt
        refine ih (f acc q) (Or.inl ?_)
        rw [heq]
        exact pset_ne_nil _ _ _
      · exact ih (f acc p) (Or.inr ⟨q, hq2, hqt⟩)

/-- The correction tail shared by the segment and account strategies
(`if assigned != user_count`) always lands on the exact total. -/
theorem finishSum (d : List (String × Int)) (u : Int) (hne : d ≠ []) :
    ∃ d2, (if dsum d ≠ u then adjustLargest d (u - dsum d) else some d) = some d2 ∧
      dsum d2 = u := by
  by_cases h : dsum d ≠ u
  · rw [if_pos h]
    obtain ⟨d2, h1, h2⟩ := adjustLargest_dsum d (u - dsum d) hne
    exact ⟨d2, h1, by omega⟩
  · rw [if_neg h]
    push_neg at h
    exact ⟨d, rfl, h⟩

/-- The correction tail of the legacy strategy (`if assigned <
user_count`) lands on the exact total provided the floors do not
overshoot. -/
theorem finishSumLt (d : List (String × Int)) (u : Int) (hne : d ≠ []) (hle : dsum d ≤ u) :
    ∃ d2, (if dsum d < u then adjustLargest d (u - dsum d) else some d) = some d2 ∧
      dsum d2 = u := by
  by_cases h : dsum d < u
  · rw [if_pos h]
    obtain ⟨d2, h1, h2⟩ := adjustLargest_dsum d (u - dsum d) hne
    exact ⟨d2, h1, by omega⟩
  · rw [if_neg h]
    exact ⟨d, rfl, by omega⟩

/-- Claim C2: for every valid input (positive total; legacy: nonnegative
weights with at least one truthy one; segment/account: at least one path
and none of the divisions raising), the distribution returned by each of
the three strategies has values summing exactly to the requested total. -/
theorem distribution_sum_exact :
    (∀ (u : Int) (ps : List JPath), 0 < u →
      (∀ p ∈ ps, 0 ≤ p.percentage.getD 0) →
      (∃ p ∈ ps, truthyPct p.percentage = true) →
      ∃ d, calcLegacyDistribution u ps = some d ∧ dsum d = u) ∧
    (∀ (u : Int) (segs : List Segment) (ps : List JPath), ps ≠ [] →
      ¬(segs ≠ [] ∧ segTotal segs = 0) →
      ¬(∃ s ∈ segs, s.path_preferences ≠ [] ∧ prefTotal s = 0) →
      ∃ d, calcSegmentDistribution u segs ps = some d ∧ dsum d = u) ∧
    (∀ (u : Int) (accts : List Account) (segs : List Segment) (ps : List JPath), ps ≠ [] →
      ¬(accts ≠ [] ∧ acctTotal accts = 0) →
      ¬(accts ≠ [] ∧ segs ≠ [] ∧ segTotal segs = 0) →
      ¬(accts ≠ [] ∧ ∃ s ∈ segs, s.path_preferences ≠ [] ∧ prefTotal s = 0) →
      ∃ d, calcAccountDistribution u accts segs ps = some d ∧ dsum d = u) := by
  refine ⟨?_, ?_, ?_⟩
  · intro u ps hu hq hex
    have hT : 0 < legacyTotal ps := legacyTotal_pos ps hq hex
    have hguard : ¬((ps.any fun p => truthyPct p.percentage) ∧ legacyTotal ps = 0) := by
      intro hc
      exact absurd hc.2 hT.ne'
    rw [calcLegacyDistribution, if_neg hguard]
    have hb : dsum (legacyFloors u ps) ≤ u := by
      have h2 := (legacyFoldl_bound u (legacyTotal ps) (by exact_mod_cast hu.le) hT ps []
        hq (by intro p hp; cases hp)).2
      rw [legacyWeights_sum u ps hT.ne'] at h2
      have h3 : (dsum (legacyFloors u ps) : ℚ) ≤ (dsum ([] : List (String × Int)) : ℚ) + u := h2
      have h4 : (dsum (legacyFloors u ps) : ℚ) ≤ (u : ℚ) := by
        have h5 : dsum ([] : List (String × Int)) = 0 := rfl
        rw [h5] at h3
        push_cast at h3
        linarith
      exact_mod_cast h4
    have hne : legacyFloors u ps ≠ [] := by
      refine foldl_truthy_ne_nil _ ?_ ?_ ps [] (Or.inr hex)
      · intro acc p
        by_cases ht : truthyPct p.percentage
        · exact Or.inr ⟨p.path_id, _, by rw [if_pos ht]⟩
        · exact Or.inl (by rw [if_neg ht])
      · intro acc p ht
        exact ⟨p.path_id, _, by rw [if_pos ht]⟩
    exact finishSumLt (legacyFloors u ps) u hne hb
  · intro u segs ps hps hg1 hg2
    rw [calcSegmentDistribution, if_neg hg1, if_neg hg2]
    exact finishSum _ u (segmentFloors_ne_nil u segs _ (initPaths_ne_nil ps hps))
  · intro u accts segs ps hps hg1 hg2 hg3
    rw [calcAccountDistribution, if_neg hg1, if_neg hg2, if_neg hg3]
    refine finishSum _ u ?_
    refine foldl_ne_nil_of_step _ ?_ accts _ (initPaths_ne_nil ps hps)
    intro acc acct hacc
    refine foldl_ne_nil_of_step _ ?_ _ acc hacc
    intro acc2 pr _
    exact pset_ne_nil _ _ _

/-- The spec's three-path example: weights 33, 33, 34. -/
def paths33 : List JPath :=
  [{ path_id := "p1", percentage := some 33 },
   { path_id := "p2", percentage := some 33 },
   { path_id := "p3", percentage := some 34 }]

/-- A concrete segment for the witnesses. -/
def segW : Segment :=
  { segment_id := "s1", percentage := 100, path_preferences := [("p1", 60), ("p2", 40)] }

/-- A concrete account for the witnesses. -/
def acctW : Account :=
  { account_id := "acme", user_count := some 5 }

/-- Witness for claim C2: all three strategies hit the exact total on
concrete valid inputs. -/
theorem distribution_sum_exact_witness :
    (∃ d, calcLegacyDistribution 10 paths33 = some d ∧ dsum d = 10) ∧
    (∃ d, calcSegmentDistribution 7 [segW] paths33 = some d ∧ dsum d = 7) ∧
    (∃ d, calcAccountDistribution 7 [acctW] [segW] paths33 = some d ∧ dsum d = 7) :=
  ⟨distribution_sum_exact.1 10 paths33 (by norm_num)
      (by
        intro p hp
        simp only [paths33, List.mem_cons, List.not_mem_nil, or_false] at hp
        rcases hp with rfl | rfl | rfl <;> norm_num)
      ⟨{ path_id := "p1", percentage := some 33 }, by simp [paths33], by norm_num [truthyPct]⟩,
   distribution_sum_exact.2.1 7 [segW] paths33 (by simp [paths33])
      (by
        intro hc
        norm_num [segW, segTotal] at hc)
      (by
        intro hc
        obtain ⟨s, hs, h1, h2⟩ := hc
        simp only [List.mem_singleton] at hs
        subst hs
        norm_num [segW, prefTotal] at h2),
   distribution_sum_exact.2.2 7 [acctW] [segW] paths33 (by simp [paths33])
      (by
        intro hc
        norm_num [acctW, acctUsers, acctTotal] at hc)
      (by
        intro hc
        norm_num [segW, segTotal] at hc)
      (by
        intro hc
        obtain ⟨_, s, hs, h1, h2⟩ := hc
        simp only [List.mem_singleton] at hs
        subst hs
        norm_num [segW, prefTotal] at h2)⟩

/-- Keys of an integer-valued dictionary, in insertion order. -/
def dkeys (d : List (String × Int)) : List String :=
  d.map Prod.fst

/-- The key returned by `argmaxKey` is one of the dictionary's keys. -/
theorem argmaxKey_mem : ∀ (d : List (String × Int)) (k : String),
    argmaxKey d = some k → k ∈ dkeys d := by
  intro d
  induction d with
  | nil => intro k h; cases h
  | cons p rest ih =>
    intro k h
    match p with
    | (k0, v0) =>
      rcases hm : argmaxKey rest with _ | k2
      · simp only [argmaxKey, hm] at h
        simp at h
        simp [dkeys, h]
      · simp only [argmaxKey, hm] at h
        by_cases hc : v0 < dget rest k2
        · rw [if_pos hc] at h
          simp at h
          subst h
          exact List.mem_cons_of_mem _ (ih k2 hm)
        · rw [if_neg hc] at h
          simp at h
          simp [dkeys, h]

/-- Characterisation of `argmaxKey` on dictionaries with distinct keys:
the returned key holds the maximal value, and every strictly earlier entry
holds a strictly smaller value (CPython's `max` keeps the first maximal
element). -/
theorem argmaxKey_spec : ∀ (d : List (String × Int)), (dkeys d).Nodup →
    ∀ k, argmaxKey d = some k →
      (∀ p ∈ d, p.2 ≤ dget d k) ∧
      ∃ pre post, d = pre ++ (k, dget d k) :: post ∧ (∀ p ∈ pre, p.2 < dget d k) := by
  intro d
  induction d with
  | nil => intro _ k h; cases h
  | cons p rest ih =>
    intro hnodup k h
    match p with
    | (k0, v0) =>
      have hnr : (dkeys rest).Nodup := (List.nodup_cons.mp hnodup).2
      have hk0nm : k0 ∉ dkeys rest := (List.nodup_cons.mp hnodup).1
      rcases hm : argmaxKey rest with _ | k2
      · have hrest : rest = [] := (argmaxKey_none_iff rest).mp hm
        subst hrest
        simp only [argmaxKey, hm] at h
        simp at h
        subst h
        rw [dget_cons, if_pos rfl]
        refine ⟨by intro q hq; simp at hq; subst hq; exact le_rfl, [], [], by simp, ?_⟩
        intro q hq
        cases hq
      · have hk2mem : k2 ∈ dkeys rest := argmaxKey_mem rest k2 hm
        have hk0k2 : k0 ≠ k2 := fun he => hk0nm (he ▸ hk2mem)
        obtain ⟨ihall, pre, post, hsplit, hpre⟩ := ih hnr k2 hm
        simp only [argmaxKey, hm] at h
        by_cases hc : v0 < dget rest k2
        · rw [if_pos hc] at h
          simp at h
          subst h
          have hdg : dget ((k0, v0) :: rest) k2 = dget rest k2 := by
            rw [dget_cons, if_neg hk0k2]
          rw [hdg]
          refine ⟨?_, (k0, v0) :: pre, post, ?_, ?_⟩
          · intro q hq
            rcases List.mem_cons.mp hq with rfl | hq2
            · exact hc.le
            · exact ihall q hq2
          · rw [List.cons_append]
            conv_lhs => rw [hsplit]
          · intro q hq
            rcases List.mem_cons.mp hq with rfl | hq2
            · exact hc
            · exact hpre q hq2
        · rw [if_neg hc] at h
          simp at h
          subst h
          rw [dget_cons, if_pos rfl]
          refine ⟨?_, [], rest, by simp, by intro q hq; cases hq⟩
          intro q hq
          rcases List.mem_cons.mp hq with rfl | hq2
          · exact le_rfl
          · exact le_trans (ihall q hq2) (not_lt.mp hc)

/-- What the rounding correction does to a dictionary `d` with distinct
keys: a single key — the first one holding the maximal value — absorbs the
entire difference, every other key's binding is untouched, and the value
sum grows by exactly the difference. -/
def AdjustSpec (d : List (String × Int)) (diff : Int) : Prop :=
  ∃ k, argmaxKey d = some k ∧
    adjustLargest d diff = some (pset d k (dget d k + diff)) ∧
    (∀ p ∈ d, p.2 ≤ dget d k) ∧
    (∃ pre post, d = pre ++ (k, dget d k) :: post ∧ ∀ p ∈ pre, p.2 < dget d k) ∧
    plookup (pset d k (dget d k + diff)) k = some (dget d k + diff) ∧
    (∀ k2, k2 ≠ k → plookup (pset d k (dget d k + diff)) k2 = plookup d k2) ∧
    dsum (pset d k (dget d k + diff)) = dsum d + diff

/-- Claim C5: after the per-path floor counts are computed, the entire
shortfall is added to the single path holding the largest current count,
ties broken by the first-encountered path in iteration order — stated for
the shared correction step and hooked into the legacy and segment
strategies (which call it whenever the floors miss the total). -/
theorem remainder_assignment :
    (∀ (d : List (String × Int)) (diff : Int), (dkeys d).Nodup → d ≠ [] →
      AdjustSpec d diff) ∧
    (∀ (u : Int) (ps : List JPath),
      ¬((ps.any fun p => truthyPct p.percentage) ∧ legacyTotal ps = 0) →
      dsum (legacyFloors u ps) < u →
      calcLegacyDistribution u ps =
        adjustLargest (legacyFloors u ps) (u - dsum (legacyFloors u ps))) ∧
    (∀ (u : Int) (segs : List Segment) (ps : List JPath),
      ¬(segs ≠ [] ∧ segTotal segs = 0) →
      ¬(∃ s ∈ segs, s.path_preferences ≠ [] ∧ prefTotal s = 0) →
      dsum (segmentFloors u segs (initPaths ps)) ≠ u →
      calcSegmentDistribution u segs ps =
        adjustLargest (segmentFloors u segs (initPaths ps))
          (u - dsum (segmentFloors u segs (initPaths ps)))) := by
  refine ⟨?_, ?_, ?_⟩
  · intro d diff hnodup hne
    rcases hm : argmaxKey d with _ | k
    · exact absurd ((argmaxKey_none_iff d).mp hm) hne
    · obtain ⟨hall, pre, post, hsplit, hpre⟩ := argmaxKey_spec d hnodup k hm
      exact ⟨k, hm, by rw [adjustLargest, hm], hall, ⟨pre, post, hsplit, hpre⟩,
        plookup_pset_self d k _, fun k2 hk2 => plookup_pset_other d k k2 _ hk2,
        dsum_pset_add d k diff⟩
  · intro u ps hg hlt
    simp only [calcLegacyDistribution]
    rw [if_neg hg, if_pos hlt]
  · intro u segs ps hg1 hg2 hne
    simp only [calcSegmentDistribution]
    rw [if_neg hg1, if_neg hg2, if_pos hne]

/-- Witness for claim C5 at the spec's example (weights `[33, 33, 34]`,
total 10): the floors are `3, 3, 3`, the single remainder unit goes to the
first of the tied paths, no count is negative, and exactly one path
absorbed the remainder. -/
theorem remainder_assignment_witness :
    AdjustSpec [("p1", 3), ("p2", 3), ("p3", 3)] 1 ∧
    calcLegacyDistribution 10 paths33 =
      adjustLargest (legacyFloors 10 paths33) (10 - dsum (legacyFloors 10 paths33)) ∧
    legacyFloors 10 paths33 = [("p1", 3), ("p2", 3), ("p3", 3)] ∧
    calcLegacyDistribution 10 paths33 = some [("p1", 4), ("p2", 3), ("p3", 3)] :=
  ⟨remainder_assignment.1 [("p1", 3), ("p2", 3), ("p3", 3)] 1 (by decide) (by decide),
   remainder_assignment.2.1 10 paths33
     (by
       intro hc
       norm_num [paths33, legacyTotal, truthyPct] at hc)
     (by
       norm_num +decide [paths33, legacyFloors, legacyTotal, truthyPct, pset, dsum, pyInt]),
   by norm_num +decide [paths33, legacyFloors, legacyTotal, truthyPct, pset, pyInt],
   by norm_num +decide [paths33, calcLegacyDistribution, legacyFloors, legacyTotal, truthyPct,
     pset, dsum, pyInt, adjustLargest, argmaxKey, dget, List.find?]⟩

/-! ## Claims C1/C3/C4: groundwork for the codec proofs -/

/-- Does the object bind the key? -/
def objHasKey : JsonObj → List Char → Bool
  | .onil, _ => false
  | .ocons k0 _ tl, k => k0 = k || objHasKey tl k

mutual
/-- Well-formed JSON value: every object at any depth has distinct keys.
CPython dictionaries cannot hold duplicate keys, so every value
`json.dumps` serializes satisfies this. -/
def wfJson : Json → Bool
  | .null => true
  | .bool _ => true
  | .num _ => true
  | .str _ => true
  | .arr xs => wfJsonList xs
  | .obj kvs => wfJsonObj kvs

/-- Well-formedness of every element. -/
def wfJsonList : JsonList → Bool
  | .nil => true
  | .cons x tl => wfJson x && wfJsonList tl

/-- Well-formedness of an object: fresh key and well-formed value at every
member. -/
def wfJsonObj : JsonObj → Bool
  | .onil => true
  | .ocons k v tl => !objHasKey tl k && (wfJson v && wfJsonObj tl)
end

/-- Every Unicode scalar value is either below the surrogate block or
above it and below `0x110000`. -/
theorem char_ranges (c : Char) : c.toNat < 55296 ∨ (57343 < c.toNat ∧ c.toNat < 1114112) := by
  rcases c.valid with h | h
  · left; exact_mod_cast h
  · right
    exact ⟨by exact_mod_cast h.1, by exact_mod_cast h.2⟩

/-- A character is recovered from its scalar value. -/
theorem char_of_toNat {c : Char} {n : Nat} (h : c.toNat = n) : Char.ofNat n = c := by
  rw [← h, Char.ofNat_toNat]

/-- Hexadecimal digits round-trip. -/
theorem hexVal_hexDigitChar : ∀ d, d < 16 → hexVal (hexDigitChar d) = some d := by decide

/-- The four digit characters of a `\uXXXX` escape. -/
def uDigits (n : Nat) : List Char :=
  [hexDigitChar (n / 4096 % 16), hexDigitChar (n / 256 % 16),
   hexDigitChar (n / 16 % 16), hexDigitChar (n % 16)]

/-- Shape of the escape. -/
theorem uEscape_eq (n : Nat) : uEscape n = '\\' :: 'u' :: uDigits n := rfl

/-- Parsing the four digits of an escape recovers the code unit. -/
theorem parseHex4_uDigits (n : Nat) (hn : n < 65536) (rest : List Char) :
    parseHex4 (uDigits n ++ rest) = some (n, rest) := by
  show parseHex4 (hexDigitChar (n / 4096 % 16) :: hexDigitChar (n / 256 % 16) ::
    hexDigitChar (n / 16 % 16) :: hexDigitChar (n % 16) :: rest) = some (n, rest)
  rw [parseHex4]
  rw [hexVal_hexDigitChar _ (by omega), hexVal_hexDigitChar _ (by omega),
    hexVal_hexDigitChar _ (by omega), hexVal_hexDigitChar _ (by omega)]
  show some (n / 4096 % 16 * 4096 + n / 256 % 16 * 256 + n / 16 % 16 * 16 + n % 16, rest) = _
  congr 2
  omega

/-- Little-endian decimal value of a digit list. -/
def valLE : List Nat → Nat
  | [] => 0
  | d :: tl => d + 10 * valLE tl

/-- The fuel-structural digit expansion is correct. -/
theorem natDigitsRev_val : ∀ (fuel n : Nat), n < fuel → valLE (natDigitsRev fuel n) = n := by
  intro fuel
  induction fuel with
  | zero => intro n h; omega
  | succ f ih =>
    intro n h
    rw [natDigitsRev]
    by_cases h0 : n = 0
    · rw [if_pos h0, valLE]; omega
    · rw [if_neg h0, valLE, ih (n / 10) (by omega)]
      omega

/-- Every produced digit is below ten. -/
theorem natDigitsRev_lt : ∀ (fuel n : Nat), ∀ d ∈ natDigitsRev fuel n, d < 10 := by
  intro fuel
  induction fuel with
  | zero => intro n d hd; cases hd
  | succ f ih =>
    intro n d hd
    rw [natDigitsRev] at hd
    by_cases h0 : n = 0
    · rw [if_pos h0] at hd; cases hd
    · rw [if_neg h0] at hd
      rcases List.mem_cons.mp hd with rfl | hd2
      · omega
      · exact ih (n / 10) d hd2

/-- For a positive number the most significant digit is nonzero. -/
theorem natDigitsRev_msd : ∀ (fuel n : Nat), n < fuel → n ≠ 0 →
    ∃ d ds, (natDigitsRev fuel n).reverse = d :: ds ∧ d ≠ 0 ∧ d < 10 := by
  intro fuel
  induction fuel with
  | zero => intro n h; omega
  | succ f ih =>
    intro n h h0
    rw [natDigitsRev, if_neg h0, List.reverse_cons]
    by_cases h10 : n / 10 = 0
    · rcases f with _ | f2
      · omega
      · rw [natDigitsRev, if_pos h10]
        exact ⟨n % 10, [], by simp, by omega, by omega⟩
    · obtain ⟨d, ds, heq, hd0, hd10⟩ := ih (n / 10) (by omega) h10
      exact ⟨d, ds ++ [n % 10], by rw [heq]; simp, hd0, hd10⟩

/-- After a serialized value, `json.dumps` only ever places a comma, a
closing bracket or a closing brace (or the end of the text). -/
def stopOk (rest : List Char) : Prop :=
  ∀ c rest2, rest = c :: rest2 → c = ',' ∨ c = ']' ∨ c = '}'

/-- Separators are not digits and cannot start a float suffix. -/
theorem stop_not_digit (c : Char) (h : c = ',' ∨ c = ']' ∨ c = '}') :
    isDigit c = false ∧ c ≠ '.' ∧ c ≠ 'e' ∧ c ≠ 'E' := by
  rcases h with rfl | rfl | rfl <;> exact ⟨by decide, by decide, by decide, by decide⟩

/-- A digit character carries its value. -/
theorem digitChar_toNat : ∀ d, d < 10 → (Char.ofNat (48 + d)).toNat = 48 + d := by decide

/-- A digit character is a digit. -/
theorem isDigit_digitChar : ∀ d, d < 10 → isDigit (Char.ofNat (48 + d)) = true := by decide

/-- A nonzero digit is not the character zero. -/
theorem digitChar_ne_zero : ∀ d, d < 10 → d ≠ 0 → Char.ofNat (48 + d) ≠ '0' := by decide

/-- Digits are not the minus sign. -/
theorem digitChar_ne_dash : ∀ d, d < 10 → Char.ofNat (48 + d) ≠ '-' := by decide

/-- A stop character ends `floatGuard` successfully. -/
theorem floatGuard_stop (m : Nat) (rest : List Char) (hstop : stopOk rest) :
    floatGuard m rest = some (m, rest) := by
  match rest with
  | [] => rfl
  | c :: rest2 =>
    have h := stop_not_digit c (hstop c rest2 rfl)
    rw [floatGuard, if_neg (by tauto)]

/-- The digit scanner consumes exactly the rendered digits and accumulates
their value. -/
theorem parseDigitsAcc_spec : ∀ (ds : List Nat) (acc : Nat) (rest : List Char),
    (∀ d ∈ ds, d < 10) →
    (∀ c rest2, rest = c :: rest2 → isDigit c = false) →
    parseDigitsAcc acc (ds.map (fun d => Char.ofNat (48 + d)) ++ rest) =
      (ds.foldl (fun a d => a * 10 + d) acc, rest) := by
  intro ds
  induction ds with
  | nil =>
    intro acc rest _ hstop
    match rest with
    | [] => rfl
    | c :: rest2 =>
      show parseDigitsAcc acc (c :: rest2) = (acc, c :: rest2)
      rw [parseDigitsAcc, if_neg (by simp [hstop c rest2 rfl])]
  | cons d ds ih =>
    intro acc rest hlt hstop
    have hd : d < 10 := hlt d (by simp)
    show parseDigitsAcc acc (Char.ofNat (48 + d) :: (ds.map _ ++ rest)) = _
    rw [parseDigitsAcc, if_pos (isDigit_digitChar d hd), digitChar_toNat d hd]
    have hsub : 48 + d - 48 = d := by omega
    rw [hsub, ih (acc * 10 + d) rest (fun x hx => hlt x (List.mem_cons_of_mem _ hx)) hstop]
    rfl

/-- Folding big-endian digits is positional evaluation. -/
theorem foldl_rev_digits : ∀ (l : List Nat) (acc : Nat),
    (l.reverse).foldl (fun a d => a * 10 + d) acc = acc * 10 ^ l.length + valLE l := by
  intro l
  induction l with
  | nil => intro acc; simp [valLE]
  | cons d tl ih =>
    intro acc
    rw [List.reverse_cons, List.foldl_append, ih]
    show (acc * 10 ^ tl.length + valLE tl) * 10 + d = acc * 10 ^ (tl.length + 1) + valLE (d :: tl)
    rw [valLE]
    ring

/-- Parsing the decimal rendering of a natural number recovers it. -/
theorem parseUInt_natChars (n : Nat) (rest : List Char) (hstop : stopOk rest) :
    parseUInt (natChars n ++ rest) = some (n, rest) := by
  have hstopd : ∀ c rest2, rest = c :: rest2 → isDigit c = false :=
    fun c r2 h => (stop_not_digit c (hstop c r2 h)).1
  by_cases h0 : n = 0
  · subst h0
    show parseUInt ('0' :: rest) = some (0, rest)
    rw [parseUInt, if_neg (by decide), if_pos rfl, floatGuard_stop 0 rest hstop]
  · obtain ⟨d, ds, hrev, hd0, hd10⟩ := natDigitsRev_msd (n + 1) n (by omega) h0
    have hds : ∀ x ∈ ds, x < 10 := by
      intro x hx
      have : x ∈ (natDigitsRev (n + 1) n).reverse := by rw [hrev]; simp [hx]
      exact natDigitsRev_lt (n + 1) n x (List.mem_reverse.mp this)
    have hchars : natChars n = Char.ofNat (48 + d) :: ds.map (fun x => Char.ofNat (48 + x)) := by
      rw [natChars, if_neg h0, hrev]
      rfl
    rw [hchars]
    show parseUInt (Char.ofNat (48 + d) :: (ds.map _ ++ rest)) = some (n, rest)
    rw [parseUInt, if_neg (by simp [isDigit_digitChar d hd10]),
      if_neg (digitChar_ne_zero d hd10 hd0), digitChar_toNat d hd10]
    have hsub : 48 + d - 48 = d := by omega
    rw [hsub]
    have hacc := parseDigitsAcc_spec ds d rest hds hstopd
    simp only [hacc]
    have hval : ds.foldl (fun a x => a * 10 + x) d = n := by
      have h1 : (d :: ds).foldl (fun a x => a * 10 + x) 0 =
          ds.foldl (fun a x => a * 10 + x) d := by
        show ds.foldl (fun a x => a * 10 + x) (0 * 10 + d) = _
        congr 1
        omega
      have h2 := foldl_rev_digits (natDigitsRev (n + 1) n) 0
      rw [hrev] at h2
      rw [← h1, h2, natDigitsRev_val (n + 1) n (by omega)]
      omega
    rw [hval, floatGuard_stop n rest hstop]

/-- Shape of the decimal rendering: it starts with a digit character. -/
theorem natChars_head (n : Nat) :
    ∃ d ds, natChars n = Char.ofNat (48 + d) :: ds ∧ d < 10 := by
  by_cases h0 : n = 0
  · subst h0
    exact ⟨0, [], rfl, by omega⟩
  · obtain ⟨d, ds, hrev, _, hd10⟩ := natDigitsRev_msd (n + 1) n (by omega) h0
    refine ⟨d, ds.map (fun x => Char.ofNat (48 + x)), ?_, hd10⟩
    rw [natChars, if_neg h0, hrev]
    rfl

/-- Parsing the decimal rendering of an integer recovers it. -/
theorem parseNumber_intChars (i : Int) (rest : List Char) (hstop : stopOk rest) :
    parseNumber (intChars i ++ rest) = some (.num i, rest) := by
  by_cases hneg : i < 0
  · have h1 : intChars i = '-' :: natChars i.natAbs := by rw [intChars, if_pos hneg]
    rw [h1]
    show parseNumber ('-' :: (natChars i.natAbs ++ rest)) = _
    rw [parseNumber, if_pos rfl, parseUInt_natChars i.natAbs rest hstop]
    show some (Json.num (-(i.natAbs : Int)), rest) = some (Json.num i, rest)
    have h2 : (-(i.natAbs : Int)) = i := by omega
    rw [h2]
  · obtain ⟨d, ds, hn, hd10⟩ := natChars_head i.natAbs
    have h1 : intChars i ++ rest = Char.ofNat (48 + d) :: (ds ++ rest) := by
      rw [intChars, if_neg hneg, hn]
      rfl
    rw [h1, parseNumber, if_neg (digitChar_ne_dash d hd10)]
    have h2 : Char.ofNat (48 + d) :: (ds ++ rest) = natChars i.natAbs ++ rest := by
      rw [hn]
      rfl
    rw [h2, parseUInt_natChars i.natAbs rest hstop]
    show some (Json.num ((i.natAbs : Int)), rest) = some (Json.num i, rest)
    have h3 : ((i.natAbs : Int)) = i := by omega
    rw [h3]

/-- Parsing a `\uXXXX` escape of a non-surrogate code unit yields that
scalar and continues. -/
theorem parse_escape_u (n : Nat) (hn : n < 65536) (hval : n < 55296 ∨ 57343 < n)
    (f : Nat) (tail : List Char) :
    parseStrBody (f + 1) ('\\' :: 'u' :: (uDigits n ++ tail)) =
      (parseStrBody f tail).map (fun p => (Char.ofNat n :: p.1, p.2)) := by
  simp +decide only [parseStrBody, parseHex4_uDigits n hn tail, reduceIte]
  rw [if_neg (by omega), if_neg (by omega)]

/-- Parsing a surrogate pair of `\uXXXX` escapes yields the combined
astral scalar and continues. -/
theorem parse_escape_pair (hi lo : Nat) (hhi1 : 55296 ≤ hi) (hhi2 : hi ≤ 56319)
    (hlo1 : 56320 ≤ lo) (hlo2 : lo ≤ 57343) (f : Nat) (tail : List Char) :
    parseStrBody (f + 1) ('\\' :: 'u' :: (uDigits hi ++ ('\\' :: 'u' :: (uDigits lo ++ tail)))) =
      (parseStrBody f tail).map
        (fun p => (Char.ofNat (65536 + (hi - 55296) * 1024 + (lo - 56320)) :: p.1, p.2)) := by
  simp +decide only [parseStrBody,
    parseHex4_uDigits hi (by omega) ('\\' :: 'u' :: (uDigits lo ++ tail)), reduceIte]
  rw [if_pos (by omega)]
  simp +decide only [parseHex4_uDigits lo (by omega) tail, reduceIte]
  rw [if_pos (by omega)]

/-- Parsing the escaped body of a serialized string literal (up to its
closing quote) recovers exactly the original characters. -/
theorem parseStrBody_esc : ∀ (s : List Char) (fuel : Nat) (rest : List Char),
    ((s.map escapeChar).flatten).length < fuel →
    parseStrBody fuel ((s.map escapeChar).flatten ++ '"' :: rest) = some (s, rest) := by
  intro s
  induction s with
  | nil =>
    intro fuel rest hf
    rcases fuel with _ | f
    · exact absurd hf (by omega)
    · simp +decide only [List.map_nil, List.flatten_nil, List.nil_append, parseStrBody, reduceIte]
  | cons c s2 ih =>
    intro fuel rest hf
    rcases fuel with _ | f
    · exact absurd hf (by omega)
    · have hlen : (escapeChar c).length + ((s2.map escapeChar).flatten).length < f + 1 := by
        simpa [List.length_append] using hf
      have hene : 1 ≤ (escapeChar c).length := by
        rw [escapeChar]
        repeat' split
        all_goals simp [uEscape]
      have hih : ((s2.map escapeChar).flatten).length < f := by omega
      have hgoal : (((c :: s2).map escapeChar).flatten ++ '"' :: rest) =
          escapeChar c ++ ((s2.map escapeChar).flatten ++ '"' :: rest) := by
        simp [List.append_assoc]
      rw [hgoal]
      by_cases h1 : c = '"'
      · subst h1
        have he : escapeChar '"' = ['\\', '"'] := rfl
        rw [he]
        simp +decide only [List.append_eq, List.singleton_append, List.cons_append, List.nil_append, parseStrBody, reduceIte]
        rw [ih f rest hih]
        rfl
      · by_cases h2 : c = '\\'
        · subst h2
          have he : escapeChar '\\' = ['\\', '\\'] := rfl
          rw [he]
          simp +decide only [List.append_eq, List.singleton_append, List.cons_append, List.nil_append, parseStrBody, reduceIte]
          rw [ih f rest hih]
          rfl
        · by_cases h3 : c.toNat = 8
          · have he : escapeChar c = ['\\', 'b'] := by
              rw [escapeChar, if_neg h1, if_neg h2, if_pos h3]
            rw [he]
            simp +decide only [List.append_eq, List.singleton_append, List.cons_append, List.nil_append, parseStrBody, reduceIte]
            rw [ih f rest hih]
            rw [char_of_toNat h3]
            rfl
          · by_cases h4 : c.toNat = 9
            · have he : escapeChar c = ['\\', 't'] := by
                rw [escapeChar, if_neg h1, if_neg h2, if_neg h3, if_pos h4]
              rw [he]
              simp +decide only [List.append_eq, List.singleton_append, List.cons_append, List.nil_append, parseStrBody, reduceIte]
              rw [ih f rest hih]
              rw [char_of_toNat h4]
              rfl
            · by_cases h5 : c.toNat = 10
              · have he : escapeChar c = ['\\', 'n'] := by
                  rw [escapeChar, if_neg h1, if_neg h2, if_neg h3, if_neg h4, if_pos h5]
                rw [he]
                simp +decide only [List.append_eq, List.singleton_append, List.cons_append, List.nil_append, parseStrBody, reduceIte]
                rw [ih f rest hih]
                rw [char_of_toNat h5]
                rfl
              · by_cases h6 : c.toNat = 12
                · have he : escapeChar c = ['\\', 'f'] := by
                    rw [escapeChar, if_neg h1, if_neg h2, if_neg h3, if_neg h4, if_neg h5,
                      if_pos h6]
                  rw [he]
                  simp +decide only [List.append_eq, List.singleton_append, List.cons_append, List.nil_append, parseStrBody, reduceIte]
                  rw [ih f rest hih]
                  rw [char_of_toNat h6]
                  rfl
                · by_cases h7 : c.toNat = 13
                  · have he : escapeChar c = ['\\', 'r'] := by
                      rw [escapeChar, if_neg h1, if_neg h2, if_neg h3, if_neg h4, if_neg h5,
                        if_neg h6, if_pos h7]
                    rw [he]
                    simp +decide only [List.append_eq, List.singleton_append, List.cons_append, List.nil_append, parseStrBody,
                      reduceIte]
                    rw [ih f rest hih]
                    rw [char_of_toNat h7]
                    rfl
                  · by_cases h8 : c.toNat < 32
                    · have he : escapeChar c = uEscape c.toNat := by
                        rw [escapeChar, if_neg h1, if_neg h2, if_neg h3, if_neg h4, if_neg h5,
                          if_neg h6, if_neg h7, if_pos h8]
                      rw [he, uEscape_eq, List.cons_append, List.cons_append]
                      rw [parse_escape_u c.toNat (by omega) (Or.inl (by omega)) f _]
                      rw [ih f rest hih, Char.ofNat_toNat]
                      rfl
                    · by_cases h9 : c.toNat ≤ 126
                      · have he : escapeChar c = [c] := by
                          rw [escapeChar, if_neg h1, if_neg h2, if_neg h3, if_neg h4, if_neg h5,
                            if_neg h6, if_neg h7, if_neg h8, if_pos h9]
                        rw [he, List.cons_append, List.nil_append]
                        simp only [parseStrBody]
                        rw [if_neg h1, if_neg h2, if_neg h8]
                        rw [ih f rest hih]
                        rfl
                      · by_cases h10 : c.toNat < 65536
                        · have he : escapeChar c = uEscape c.toNat := by
                            rw [escapeChar, if_neg h1, if_neg h2, if_neg h3, if_neg h4,
                              if_neg h5, if_neg h6, if_neg h7, if_neg h8, if_neg h9,
                              if_pos h10]
                          have hval : c.toNat < 55296 ∨ 57343 < c.toNat := by
                            rcases char_ranges c with h | h
                            · exact Or.inl h
                            · exact Or.inr h.1
                          rw [he, uEscape_eq, List.cons_append, List.cons_append]
                          rw [parse_escape_u c.toNat h10 hval f _]
                          rw [ih f rest hih, Char.ofNat_toNat]
                          rfl
                        · have hbig : 57343 < c.toNat ∧ c.toNat < 1114112 := by
                            rcases char_ranges c with h | h
                            · omega
                            · exact h
                          have he : escapeChar c =
                              uEscape (55296 + (c.toNat - 65536) / 1024) ++
                              uEscape (56320 + (c.toNat - 65536) % 1024) := by
                            rw [escapeChar, if_neg h1, if_neg h2, if_neg h3, if_neg h4,
                              if_neg h5, if_neg h6, if_neg h7, if_neg h8, if_neg h9,
                              if_neg h10]
                          have hm : c.toNat - 65536 < 1048576 := by omega
                          rw [he, uEscape_eq, uEscape_eq]
                          have hassoc :
                              (('\\' :: 'u' :: uDigits (55296 + (c.toNat - 65536) / 1024)) ++
                                ('\\' :: 'u' :: uDigits (56320 + (c.toNat - 65536) % 1024))) ++
                                ((s2.map escapeChar).flatten ++ '"' :: rest) =
                              '\\' :: 'u' :: (uDigits (55296 + (c.toNat - 65536) / 1024) ++
                                ('\\' :: 'u' :: (uDigits (56320 + (c.toNat - 65536) % 1024) ++
                                  ((s2.map escapeChar).flatten ++ '"' :: rest)))) := by
                            simp [List.append_assoc]
                          rw [hassoc]
                          rw [parse_escape_pair (55296 + (c.toNat - 65536) / 1024)
                            (56320 + (c.toNat - 65536) % 1024) (by omega)
                            (by omega) (by omega) (by omega) f _]
                          rw [ih f rest hih]
                          have hchar : 65536 + (55296 + (c.toNat - 65536) / 1024 - 55296) * 1024 +
                              (56320 + (c.toNat - 65536) % 1024 - 56320) = c.toNat := by
                            omega
                          rw [hchar, Char.ofNat_toNat]
                          rfl

/-- A character that is not JSON whitespace passes `skipWs` untouched. -/
theorem skipWs_cons {c : Char} (t : List Char) (h : isJsonWs c = false) :
    skipWs (c :: t) = c :: t := by
  rw [skipWs, h]
  rfl

/-- Digit characters are not structural or keyword-opening characters. -/
theorem digitChar_not_special : ∀ d, d < 10 →
    Char.ofNat (48 + d) ≠ 'n' ∧ Char.ofNat (48 + d) ≠ 't' ∧ Char.ofNat (48 + d) ≠ 'f' ∧
    Char.ofNat (48 + d) ≠ '"' ∧ Char.ofNat (48 + d) ≠ '[' ∧ Char.ofNat (48 + d) ≠ '{' ∧
    isJsonWs (Char.ofNat (48 + d)) = false ∧ Char.ofNat (48 + d) ≠ ']' ∧
    Char.ofNat (48 + d) ≠ '}' ∧ Char.ofNat (48 + d) ≠ ',' := by decide

/-- Shape of a rendered integer: the first character is a minus sign or a
digit, and is not whitespace, not a structural character and not the start
of a keyword. -/
theorem intChars_shape (i : Int) : ∃ c t, intChars i = c :: t ∧
    (c = '-' ∨ isDigit c = true) ∧ c ≠ 'n' ∧ c ≠ 't' ∧ c ≠ 'f' ∧ c ≠ '"' ∧
    c ≠ '[' ∧ c ≠ '{' ∧ isJsonWs c = false ∧ c ≠ ']' ∧ c ≠ '}' ∧ c ≠ ',' := by
  by_cases hneg : i < 0
  · refine ⟨'-', natChars i.natAbs, by rw [intChars, if_pos hneg], Or.inl rfl, ?_⟩
    refine ⟨by decide, by decide, by decide, by decide, by decide, by decide, by decide,
      by decide, by decide, by decide⟩
  · obtain ⟨d, ds, hn, hd10⟩ := natChars_head i.natAbs
    obtain ⟨p1, p2, p3, p4, p5, p6, p7, p8, p9, p10⟩ := digitChar_not_special d hd10
    refine ⟨Char.ofNat (48 + d), ds, by rw [intChars, if_neg hneg, hn],
      Or.inr (isDigit_digitChar d hd10), p1, p2, p3, p4, p5, p6, p7, p8, p9, p10⟩

/-- The first character of a serialized value is not whitespace and not a
closing delimiter or separator. -/
theorem dumpJson_head (v : Json) : ∃ c t, dumpJson v = c :: t ∧
    isJsonWs c = false ∧ c ≠ ']' ∧ c ≠ '}' ∧ c ≠ ',' := by
  cases v with
  | null => exact ⟨'n', _, rfl, by decide, by decide, by decide, by decide⟩
  | bool b =>
    cases b
    · exact ⟨'f', _, rfl, by decide, by decide, by decide, by decide⟩
    · exact ⟨'t', _, rfl, by decide, by decide, by decide, by decide⟩
  | num n =>
    obtain ⟨c, t, heq, _, _, _, _, _, _, _, hws, hr, hb, hc⟩ := intChars_shape n
    exact ⟨c, t, heq, hws, hr, hb, hc⟩
  | str s => exact ⟨'"', _, rfl, by decide, by decide, by decide, by decide⟩
  | arr xs => exact ⟨'[', _, rfl, by decide, by decide, by decide, by decide⟩
  | obj kvs => exact ⟨'{', _, rfl, by decide, by decide, by decide, by decide⟩

/-- A key that the object does not bind is distinct from every key of its
pair list. -/
theorem objHasKey_toList (kvs : JsonObj) (k : List Char) (h : objHasKey kvs k = false) :
    ∀ p ∈ kvs.toList, p.1 ≠ k := by
  have main : ∀ (n : Nat) (o : JsonObj), o.toList.length ≤ n → objHasKey o k = false →
      ∀ p ∈ o.toList, p.1 ≠ k := by
    intro n
    induction n with
    | zero =>
      intro o hn _ p hp
      cases o with
      | onil => cases hp
      | ocons k0 v tl => simp [JsonObj.toList] at hn
    | succ m ih =>
      intro o hn ho p hp
      cases o with
      | onil => cases hp
      | ocons k0 v tl =>
        rw [objHasKey, Bool.or_eq_false_iff] at ho
        rw [JsonObj.toList] at hp hn
        rcases List.mem_cons.mp hp with rfl | hp2
        · simpa using ho.1
        · exact ih tl (by simpa using Nat.le_of_succ_le_succ hn) ho.2 p hp2
  exact main kvs.toList.length kvs le_rfl h

/-- Folding `dict` assignments whose keys avoid `k` leaves a leading
binding of `k` in place. -/
theorem foldl_set_ocons (ps : List (List Char × Json)) (k : List Char) (v : Json)
    (o : JsonObj) (h : ∀ p ∈ ps, p.1 ≠ k) :
    ps.foldl (fun o p => o.set p.1 p.2) (JsonObj.ocons k v o) =
      JsonObj.ocons k v (ps.foldl (fun o p => o.set p.1 p.2) o) := by
  induction ps generalizing o with
  | nil => rfl
  | cons p ps ih =>
    rw [List.foldl_cons, List.foldl_cons]
    have hset : (JsonObj.ocons k v o).set p.1 p.2 = JsonObj.ocons k v (o.set p.1 p.2) := by
      rw [JsonObj.set, if_neg (fun he => h p (by simp) (he.symm))]
    rw [hset, ih (o.set p.1 p.2) (fun q hq => h q (List.mem_cons_of_mem _ hq))]

/-- Rebuilding an object with distinct keys from its pair list by
sequential assignment recovers it. -/
theorem objOfPairs_toList (kvs : JsonObj) (hwf : wfJsonObj kvs = true) :
    objOfPairs kvs.toList = kvs := by
  have main : ∀ (n : Nat) (o : JsonObj), o.toList.length ≤ n → wfJsonObj o = true →
      objOfPairs o.toList = o := by
    intro n
    induction n with
    | zero =>
      intro o hn _
      cases o with
      | onil => rfl
      | ocons k0 v tl => simp [JsonObj.toList] at hn
    | succ m ih =>
      intro o hn ho
      cases o with
      | onil => rfl
      | ocons k v tl =>
        rw [wfJsonObj, Bool.and_eq_true, Bool.and_eq_true, Bool.not_eq_true'] at ho
        rw [JsonObj.toList] at hn ⊢
        rw [objOfPairs, List.foldl_cons]
        rw [show JsonObj.set .onil k v = JsonObj.ocons k v .onil from rfl]
        rw [foldl_set_ocons tl.toList k v .onil (objHasKey_toList tl k ho.1)]
        rw [← objOfPairs, ih tl (by simpa using Nat.le_of_succ_le_succ hn) ho.2.2]
  exact main kvs.toList.length kvs le_rfl hwf

/-- The empty remainder is a valid stopping context. -/
theorem stopOk_nil : stopOk [] := fun _ _ h => nomatch h

/-- A closing bracket is a valid stopping context. -/
theorem stopOk_bracket (r : List Char) : stopOk (']' :: r) := by
  intro c r2 h
  injection h with h1 _
  exact Or.inr (Or.inl h1.symm)

/-- A closing brace is a valid stopping context. -/
theorem stopOk_brace (r : List Char) : stopOk ('}' :: r) := by
  intro c r2 h
  injection h with h1 _
  exact Or.inr (Or.inr h1.symm)

/-- A comma is a valid stopping context. -/
theorem stopOk_comma (r : List Char) : stopOk (',' :: r) := by
  intro c r2 h
  injection h with h1 _
  exact Or.inl h1.symm

/-- The serialization of a non-empty array element list starts with the
serialization of its first element. -/
theorem dumpJsonList_cons (x : Json) (tl : JsonList) :
    ∃ R, dumpJsonList (.cons x tl) = dumpJson x ++ R := by
  cases tl with
  | nil => exact ⟨[], by simp only [dumpJsonList, List.append_nil]⟩
  | cons y tl2 => exact ⟨',' :: dumpJsonList (.cons y tl2), by simp only [dumpJsonList]⟩

/-- The parser inverts the serializer: parsing a dumped well-formed value
(with a stopping context behind it) recovers the value; likewise for the
element list of a non-empty array and the member list of a non-empty
object.  The fuel bound is the length of the dumped text. -/
theorem parse_dump_all : ∀ fuel : Nat,
    (∀ (v : Json) (rest : List Char), wfJson v = true → stopOk rest →
      (dumpJson v).length < fuel →
      parseValue fuel (dumpJson v ++ rest) = some (v, rest)) ∧
    (∀ (xs : JsonList) (rest : List Char), wfJsonList xs = true → xs ≠ JsonList.nil →
      (dumpJsonList xs).length + 1 < fuel →
      parseElems fuel (dumpJsonList xs ++ ']' :: rest) = some (xs, rest)) ∧
    (∀ (kvs : JsonObj) (rest : List Char), wfJsonObj kvs = true → kvs ≠ JsonObj.onil →
      (dumpJsonObj kvs).length + 1 < fuel →
      parseMembers fuel (dumpJsonObj kvs ++ '}' :: rest) = some (kvs.toList, rest)) := by
  intro fuel
  induction fuel with
  | zero =>
    exact ⟨fun v rest _ _ h => absurd h (by omega),
      fun xs rest _ _ h => absurd h (by omega),
      fun kvs rest _ _ h => absurd h (by omega)⟩
  | succ f ih =>
    obtain ⟨ihV, ihE, ihM⟩ := ih
    refine ⟨?_, ?_, ?_⟩
    · -- values
      intro v rest hwf hstop hlt
      cases v with
      | null =>
        rw [show dumpJson .null = ['n', 'u', 'l', 'l'] from rfl]
        simp +decide only [List.append_eq, List.singleton_append, List.cons_append, List.nil_append, parseValue, skipWs, reduceIte]
      | bool b =>
        cases b with
        | true =>
          rw [show dumpJson (.bool true) = ['t', 'r', 'u', 'e'] from rfl]
          simp +decide only [List.append_eq, List.singleton_append, List.cons_append, List.nil_append, parseValue, skipWs, reduceIte]
        | false =>
          rw [show dumpJson (.bool false) = ['f', 'a', 'l', 's', 'e'] from rfl]
          simp +decide only [List.append_eq, List.singleton_append, List.cons_append, List.nil_append, parseValue, skipWs, reduceIte]
      | num n =>
        obtain ⟨c, t, heq, hcd, hn, ht, hf2, hq, hbk, hbr, hws, _, _, _⟩ := intChars_shape n
        have hio : dumpJson (.num n) ++ rest = c :: (t ++ rest) := by
          rw [show dumpJson (.num n) = intChars n from rfl, heq]
          rfl
        rw [hio]
        simp only [parseValue, skipWs_cons _ hws]
        rw [if_neg hn, if_neg ht, if_neg hf2, if_neg hq, if_neg hbk, if_neg hbr, if_pos hcd]
        have hback : c :: (t ++ rest) = intChars n ++ rest := by
          rw [heq]
          rfl
        rw [hback, parseNumber_intChars n rest hstop]
      | str s =>
        have hio : dumpJson (.str s) ++ rest =
            '"' :: ((s.map escapeChar).flatten ++ '"' :: rest) := by
          rw [show dumpJson (.str s) = dumpStr s from rfl, dumpStr]
          simp [List.append_assoc]
        rw [hio]
        simp +decide only [List.append_eq, List.singleton_append, List.cons_append, List.nil_append, parseValue, skipWs, reduceIte]
        rw [parseStrBody_esc s _ rest
          (by simp only [List.length_append, List.length_cons]; omega)]
        rfl
      | arr xs =>
        cases xs with
        | nil =>
          rw [show dumpJson (.arr .nil) ++ rest = '[' :: ']' :: rest from rfl]
          simp +decide only [List.append_eq, List.singleton_append, List.cons_append, List.nil_append, parseValue, skipWs, reduceIte]
        | cons x tl =>
          obtain ⟨R, hR⟩ := dumpJsonList_cons x tl
          obtain ⟨c, t, hx, hws, hrb, _, _⟩ := dumpJson_head x
          have hio : dumpJson (.arr (.cons x tl)) ++ rest =
              '[' :: (dumpJsonList (.cons x tl) ++ ']' :: rest) := by
            rw [show dumpJson (.arr (.cons x tl)) =
              '[' :: (dumpJsonList (.cons x tl) ++ [']']) from rfl]
            simp [List.append_assoc]
          have hcons : dumpJsonList (.cons x tl) ++ ']' :: rest =
              c :: (t ++ (R ++ ']' :: rest)) := by
            rw [hR, hx]
            simp [List.append_assoc]
          have hlen : (dumpJsonList (.cons x tl)).length + 1 < f := by
            have h2 : (dumpJson (.arr (.cons x tl))).length =
                (dumpJsonList (.cons x tl)).length + 2 := by
              rw [show dumpJson (.arr (.cons x tl)) =
                '[' :: (dumpJsonList (.cons x tl) ++ [']']) from rfl]
              simp
            omega
          rw [hio]
          simp +decide only [List.append_eq, List.singleton_append, List.cons_append, List.nil_append, parseValue, skipWs, reduceIte]
          rw [hcons, skipWs_cons _ hws]
          split
          · rename_i r hr
            injection hr with h1 _
            exact absurd h1 hrb
          · rw [← hcons, ihE (.cons x tl) rest (by simpa [wfJson] using hwf) (by nofun) hlen]
            rfl
      | obj kvs =>
        cases kvs with
        | onil =>
          rw [show dumpJson (.obj .onil) ++ rest = '{' :: '}' :: rest from rfl]
          simp +decide only [List.append_eq, List.singleton_append, List.cons_append, List.nil_append, parseValue, skipWs, reduceIte]
        | ocons k v tl =>
          have hio : dumpJson (.obj (.ocons k v tl)) ++ rest =
              '{' :: (dumpJsonObj (.ocons k v tl) ++ '}' :: rest) := by
            rw [show dumpJson (.obj (.ocons k v tl)) =
              '{' :: (dumpJsonObj (.ocons k v tl) ++ ['}']) from rfl]
            simp [List.append_assoc]
          obtain ⟨R, hR⟩ : ∃ R, dumpJsonObj (.ocons k v tl) ++ '}' :: rest =
              '"' :: ((k.map escapeChar).flatten ++ ('"' :: R)) := by
            cases tl with
            | onil =>
              refine ⟨':' :: dumpJson v ++ '}' :: rest, ?_⟩
              simp only [dumpJsonObj, dumpStr]
              simp [List.append_assoc]
            | ocons k2 v2 tl2 =>
              refine ⟨':' :: dumpJson v ++ ',' :: dumpJsonObj (.ocons k2 v2 tl2) ++
                '}' :: rest, ?_⟩
              simp only [dumpJsonObj, dumpStr]
              simp [List.append_assoc]
          have hlen : (dumpJsonObj (.ocons k v tl)).length + 1 < f := by
            have h2 : (dumpJson (.obj (.ocons k v tl))).length =
                (dumpJsonObj (.ocons k v tl)).length + 2 := by
              rw [show dumpJson (.obj (.ocons k v tl)) =
                '{' :: (dumpJsonObj (.ocons k v tl) ++ ['}']) from rfl]
              simp
            omega
          rw [hio]
          simp +decide only [List.append_eq, List.singleton_append, List.cons_append, List.nil_append, parseValue, skipWs, reduceIte]
          rw [hR, skipWs_cons _ (by decide)]
          split
          · rename_i r hr
            injection hr with h1 _
            exact absurd h1.symm (by decide)
          · rw [← hR, ihM (.ocons k v tl) rest (by simpa [wfJson] using hwf) (by nofun) hlen]
            show some (Json.obj (objOfPairs (JsonObj.ocons k v tl).toList), rest) = _
            rw [objOfPairs_toList _ (by simpa [wfJson] using hwf)]
    · -- array elements
      intro xs rest hwf hne hlt
      cases xs with
      | nil => exact absurd rfl hne
      | cons x tl =>
        simp only [wfJsonList, Bool.and_eq_true] at hwf
        cases tl with
        | nil =>
          simp only [dumpJsonList] at hlt ⊢
          simp only [parseElems]
          rw [ihV x (']' :: rest) hwf.1 (stopOk_bracket rest) (by omega)]
          simp +decide only [List.append_eq, List.singleton_append, List.cons_append, List.nil_append, skipWs, reduceIte]
        | cons y tl2 =>
          simp only [dumpJsonList] at hlt ⊢
          have hio : (dumpJson x ++ ',' :: dumpJsonList (.cons y tl2)) ++ ']' :: rest =
              dumpJson x ++ ',' :: (dumpJsonList (.cons y tl2) ++ ']' :: rest) := by
            simp [List.append_assoc]
          have hlx : (dumpJson x).length < f := by
            simp only [List.length_append, List.length_cons] at hlt
            omega
          have hltl : (dumpJsonList (.cons y tl2)).length + 1 < f := by
            simp only [List.length_append, List.length_cons] at hlt
            omega
          simp only [parseElems]
          rw [hio, ihV x _ hwf.1 (stopOk_comma _) hlx]
          simp +decide only [List.append_eq, List.singleton_append, List.cons_append, List.nil_append, skipWs, reduceIte]
          rw [ihE (.cons y tl2) rest hwf.2 (by nofun) hltl]
          rfl
    · -- object members
      intro kvs rest hwf hne hlt
      cases kvs with
      | onil => exact absurd rfl hne
      | ocons k v tl =>
        simp only [wfJsonObj, Bool.and_eq_true, Bool.not_eq_true'] at hwf
        cases tl with
        | onil =>
          have hio : dumpJsonObj (.ocons k v .onil) ++ '}' :: rest =
              '"' :: ((k.map escapeChar).flatten ++ '"' ::
                (':' :: (dumpJson v ++ '}' :: rest))) := by
            simp only [dumpJsonObj, dumpStr]
            simp [List.append_assoc]
          have hlv : (dumpJson v).length < f := by
            have h2 : (dumpJsonObj (.ocons k v .onil)).length =
                (dumpStr k).length + 1 + (dumpJson v).length := by
              simp only [dumpJsonObj]
              simp
              omega
            have h3 : 2 ≤ (dumpStr k).length := by
              rw [dumpStr]
              simp
            omega
          rw [hio]
          simp only [parseMembers]
          simp +decide only [List.append_eq, List.singleton_append, List.cons_append, List.nil_append, skipWs, reduceIte]
          rw [parseStrBody_esc k _ _
            (by simp only [List.length_append, List.length_cons]; omega)]
          simp +decide only [List.append_eq, List.singleton_append, List.cons_append, List.nil_append, skipWs, reduceIte]
          rw [ihV v ('}' :: rest) hwf.2.1 (stopOk_brace rest) hlv]
          simp +decide only [List.append_eq, List.singleton_append, List.cons_append, List.nil_append, skipWs, reduceIte]
          simp [JsonObj.toList]
        | ocons k2 v2 tl2 =>
          have hio : dumpJsonObj (.ocons k v (.ocons k2 v2 tl2)) ++ '}' :: rest =
              '"' :: ((k.map escapeChar).flatten ++ '"' ::
                (':' :: (dumpJson v ++ ',' ::
                  (dumpJsonObj (.ocons k2 v2 tl2) ++ '}' :: rest)))) := by
            simp only [dumpJsonObj, dumpStr]
            simp [List.append_assoc]
          have hlens : (dumpJsonObj (.ocons k v (.ocons k2 v2 tl2))).length =
              (dumpStr k).length + 1 + (dumpJson v).length + 1 +
                (dumpJsonObj (.ocons k2 v2 tl2)).length := by
            simp only [dumpJsonObj, dumpStr]
            simp
            omega
          have hk2 : 2 ≤ (dumpStr k).length := by
            rw [dumpStr]
            simp
          have hlv : (dumpJson v).length < f := by omega
          have hltl : (dumpJsonObj (.ocons k2 v2 tl2)).length + 1 < f := by omega
          rw [hio]
          simp only [parseMembers]
          simp +decide only [List.append_eq, List.singleton_append, List.cons_append, List.nil_append, skipWs, reduceIte]
          rw [parseStrBody_esc k _ _
            (by simp only [List.length_append, List.length_cons]; omega)]
          simp +decide only [List.append_eq, List.singleton_append, List.cons_append, List.nil_append, skipWs, reduceIte]
          rw [ihV v _ hwf.2.1 (stopOk_comma _) hlv]
          simp +decide only [List.append_eq, List.singleton_append, List.cons_append, List.nil_append, skipWs, reduceIte]
          rw [ihM (.ocons k2 v2 tl2) rest hwf.2.2 (by nofun) hltl]
          simp [JsonObj.toList]

/-- `json.loads` inverts `json.dumps` on well-formed values. -/
theorem jsonLoads_dump (v : Json) (hwf : wfJson v = true) :
    jsonLoads (dumpJson v) = some v := by
  rw [jsonLoads]
  have h := (parse_dump_all ((dumpJson v).length + 1)).1 v [] hwf stopOk_nil (by omega)
  rw [List.append_nil] at h
  rw [h]
  simp [skipWs]

/-- Hexadecimal digit characters are printable ASCII. -/
theorem hexDigitChar_print : ∀ n, n < 16 →
    32 ≤ (hexDigitChar n).toNat ∧ (hexDigitChar n).toNat ≤ 126 := by decide

/-- Every character of a `\uXXXX` escape is printable ASCII. -/
theorem uEscape_print (n : Nat) : ∀ c ∈ uEscape n, 32 ≤ c.toNat ∧ c.toNat ≤ 126 := by
  intro c hc
  rw [uEscape] at hc
  simp only [List.mem_cons, List.not_mem_nil, or_false] at hc
  rcases hc with rfl | rfl | rfl | rfl | rfl | rfl
  · decide
  · decide
  · exact hexDigitChar_print _ (Nat.mod_lt _ (by omega))
  · exact hexDigitChar_print _ (Nat.mod_lt _ (by omega))
  · exact hexDigitChar_print _ (Nat.mod_lt _ (by omega))
  · exact hexDigitChar_print _ (Nat.mod_lt _ (by omega))

/-- `json.dumps` with `ensure_ascii=True` escapes one character into
printable ASCII only. -/
theorem escapeChar_print : ∀ (c : Char) (d : Char), d ∈ escapeChar c →
    32 ≤ d.toNat ∧ d.toNat ≤ 126 := by
  intro c d hd
  by_cases h1 : c = '"'
  · rw [escapeChar, if_pos h1] at hd
    fin_cases hd <;> decide
  · by_cases h2 : c = '\\'
    · rw [escapeChar, if_neg h1, if_pos h2] at hd
      fin_cases hd <;> decide
    · by_cases h3 : c.toNat = 8
      · rw [escapeChar, if_neg h1, if_neg h2, if_pos h3] at hd
        fin_cases hd <;> decide
      · by_cases h4 : c.toNat = 9
        · rw [escapeChar, if_neg h1, if_neg h2, if_neg h3, if_pos h4] at hd
          fin_cases hd <;> decide
        · by_cases h5 : c.toNat = 10
          · rw [escapeChar, if_neg h1, if_neg h2, if_neg h3, if_neg h4, if_pos h5] at hd
            fin_cases hd <;> decide
          · by_cases h6 : c.toNat = 12
            · rw [escapeChar, if_neg h1, if_neg h2, if_neg h3, if_neg h4, if_neg h5,
                if_pos h6] at hd
              fin_cases hd <;> decide
            · by_cases h7 : c.toNat = 13
              · rw [escapeChar, if_neg h1, if_neg h2, if_neg h3, if_neg h4, if_neg h5,
                  if_neg h6, if_pos h7] at hd
                fin_cases hd <;> decide
              · by_cases h8 : c.toNat < 32
                · rw [escapeChar, if_neg h1, if_neg h2, if_neg h3, if_neg h4, if_neg h5,
                    if_neg h6, if_neg h7, if_pos h8] at hd
                  exact uEscape_print _ d hd
                · by_cases h9 : c.toNat <= 126
                  · rw [escapeChar, if_neg h1, if_neg h2, if_neg h3, if_neg h4, if_neg h5,
                      if_neg h6, if_neg h7, if_neg h8, if_pos h9] at hd
                    rcases List.mem_singleton.mp hd with rfl
                    omega
                  · by_cases h10 : c.toNat < 65536
                    · rw [escapeChar, if_neg h1, if_neg h2, if_neg h3, if_neg h4, if_neg h5,
                        if_neg h6, if_neg h7, if_neg h8, if_neg h9, if_pos h10] at hd
                      exact uEscape_print _ d hd
                    · rw [escapeChar, if_neg h1, if_neg h2, if_neg h3, if_neg h4, if_neg h5,
                        if_neg h6, if_neg h7, if_neg h8, if_neg h9, if_neg h10] at hd
                      rcases List.mem_append.mp hd with h | h
                      · exact uEscape_print _ d h
                      · exact uEscape_print _ d h

/-- Digit characters are printable ASCII. -/
theorem digitChar_print : ∀ d, d < 10 →
    32 ≤ (Char.ofNat (48 + d)).toNat ∧ (Char.ofNat (48 + d)).toNat ≤ 126 := by decide

/-- The decimal rendering of a natural number is printable ASCII. -/
theorem natChars_print (n : Nat) : ∀ c ∈ natChars n, 32 ≤ c.toNat ∧ c.toNat ≤ 126 := by
  intro c hc
  rw [natChars] at hc
  split at hc
  · rcases List.mem_singleton.mp hc with rfl
    decide
  · obtain ⟨d, hd, rfl⟩ := List.mem_map.mp hc
    exact digitChar_print d (natDigitsRev_lt _ _ d (List.mem_reverse.mp hd))

/-- The decimal rendering of an integer is printable ASCII. -/
theorem intChars_print (i : Int) : ∀ c ∈ intChars i, 32 ≤ c.toNat ∧ c.toNat ≤ 126 := by
  intro c hc
  rw [intChars] at hc
  split at hc
  · rcases List.mem_cons.mp hc with rfl | h
    · decide
    · exact natChars_print _ c h
  · exact natChars_print _ c hc

/-- A serialized string literal is printable ASCII. -/
theorem dumpStr_print (s : List Char) : ∀ c ∈ dumpStr s, 32 ≤ c.toNat ∧ c.toNat ≤ 126 := by
  intro c hc
  rw [dumpStr] at hc
  rcases List.mem_cons.mp hc with rfl | h
  · decide
  · rcases List.mem_append.mp h with h2 | h2
    · obtain ⟨l, hl, hcl⟩ := List.mem_flatten.mp h2
      obtain ⟨d, _, rfl⟩ := List.mem_map.mp hl
      exact escapeChar_print d c hcl
    · rcases List.mem_singleton.mp h2 with rfl
      decide

/-- `json.dumps` output is printable ASCII (`ensure_ascii=True`), stated
for values, element lists and member lists; the fuel bounds the text
length. -/
theorem dump_print_all : ∀ fuel : Nat,
    (∀ v, (dumpJson v).length < fuel →
      ∀ c ∈ dumpJson v, 32 ≤ c.toNat ∧ c.toNat ≤ 126) ∧
    (∀ xs, (dumpJsonList xs).length + 1 < fuel →
      ∀ c ∈ dumpJsonList xs, 32 ≤ c.toNat ∧ c.toNat ≤ 126) ∧
    (∀ kvs, (dumpJsonObj kvs).length + 1 < fuel →
      ∀ c ∈ dumpJsonObj kvs, 32 ≤ c.toNat ∧ c.toNat ≤ 126) := by
  intro fuel
  induction fuel with
  | zero =>
    exact ⟨fun v h => absurd h (by omega), fun xs h => absurd h (by omega),
      fun kvs h => absurd h (by omega)⟩
  | succ f ih =>
    obtain ⟨ihV, ihE, ihM⟩ := ih
    refine ⟨?_, ?_, ?_⟩
    · intro v hlt c hc
      cases v with
      | null =>
        rw [show dumpJson .null = ['n', 'u', 'l', 'l'] from rfl] at hc
        fin_cases hc <;> decide
      | bool b =>
        cases b with
        | true =>
          rw [show dumpJson (.bool true) = ['t', 'r', 'u', 'e'] from rfl] at hc
          fin_cases hc <;> decide
        | false =>
          rw [show dumpJson (.bool false) = ['f', 'a', 'l', 's', 'e'] from rfl] at hc
          fin_cases hc <;> decide
      | num n =>
        rw [show dumpJson (.num n) = intChars n from rfl] at hc
        exact intChars_print n c hc
      | str s =>
        rw [show dumpJson (.str s) = dumpStr s from rfl] at hc
        exact dumpStr_print s c hc
      | arr xs =>
        rw [show dumpJson (.arr xs) = '[' :: (dumpJsonList xs ++ [']']) from rfl] at hc
        have hlen : (dumpJsonList xs).length + 1 < f := by
          have h2 : (dumpJson (.arr xs)).length = (dumpJsonList xs).length + 2 := by
            rw [show dumpJson (.arr xs) = '[' :: (dumpJsonList xs ++ [']']) from rfl]
            simp
          omega
        rcases List.mem_cons.mp hc with rfl | h
        · decide
        · rcases List.mem_append.mp h with h2 | h2
          · exact ihE xs hlen c h2
          · rcases List.mem_singleton.mp h2 with rfl
            decide
      | obj kvs =>
        rw [show dumpJson (.obj kvs) = '{' :: (dumpJsonObj kvs ++ ['}']) from rfl] at hc
        have hlen : (dumpJsonObj kvs).length + 1 < f := by
          have h2 : (dumpJson (.obj kvs)).length = (dumpJsonObj kvs).length + 2 := by
            rw [show dumpJson (.obj kvs) = '{' :: (dumpJsonObj kvs ++ ['}']) from rfl]
            simp
          omega
        rcases List.mem_cons.mp hc with rfl | h
        · decide
        · rcases List.mem_append.mp h with h2 | h2
          · exact ihM kvs hlen c h2
          · rcases List.mem_singleton.mp h2 with rfl
            decide
    · intro xs hlt c hc
      cases xs with
      | nil => simp only [dumpJsonList] at hc; cases hc
      | cons x tl =>
        cases tl with
        | nil =>
          simp only [dumpJsonList] at hc hlt
          exact ihV x (by omega) c hc
        | cons y tl2 =>
          simp only [dumpJsonList] at hc hlt
          simp only [List.length_append, List.length_cons] at hlt
          rcases List.mem_append.mp hc with h | h
          · exact ihV x (by omega) c h
          · rcases List.mem_cons.mp h with rfl | h2
            · decide
            · exact ihE (.cons y tl2) (by omega) c h2
    · intro kvs hlt c hc
      cases kvs with
      | onil => simp only [dumpJsonObj] at hc; cases hc
      | ocons k v tl =>
        cases tl with
        | onil =>
          simp only [dumpJsonObj] at hc hlt
          simp only [List.length_append, List.length_cons] at hlt
          simp only [List.mem_append, List.mem_cons, or_assoc] at hc
          rcases hc with h | rfl | h
          · exact dumpStr_print k c h
          · decide
          · exact ihV v (by omega) c h
        | ocons k2 v2 tl2 =>
          simp only [dumpJsonObj] at hc hlt
          simp only [List.length_append, List.length_cons] at hlt
          simp only [List.mem_append, List.mem_cons, or_assoc] at hc
          rcases hc with h | rfl | h | rfl | h
          · exact dumpStr_print k c h
          · decide
          · exact ihV v (by omega) c h
          · decide
          · exact ihM (.ocons k2 v2 tl2) (by omega) c h

/-- Every character of a serialized well-formed value is printable ASCII. -/
theorem dumpJson_print (v : Json) : ∀ c ∈ dumpJson v, 32 ≤ c.toNat ∧ c.toNat ≤ 126 :=
  (dump_print_all ((dumpJson v).length + 1)).1 v (by omega)

/-- On ASCII text, UTF-8 encoding is the identity on code points. -/
theorem utf8Encode_ascii (s : List Char) (h : ∀ c ∈ s, c.toNat < 128) :
    utf8Encode s = s.map Char.toNat := by
  induction s with
  | nil => rfl
  | cons c t ih =>
    have hc : c.toNat < 128 := h c (by simp)
    have hcc : utf8Char c = [c.toNat] := by
      simp [utf8Char, hc]
    simp only [utf8Encode, List.map_cons, List.flatten_cons] at *
    rw [hcc, ih (fun x hx => h x (by simp [hx]))]
    rfl

/-- Decoding the UTF-8 encoding of text whose code points are below
`0x800` (one- and two-byte forms) recovers the text. -/
theorem utf8DecodeF_encode : ∀ (s : List Char) (fuel : Nat), s.length ≤ fuel →
    (∀ c ∈ s, c.toNat < 2048) →
    utf8DecodeF fuel (utf8Encode s) = some s := by
  intro s
  induction s with
  | nil =>
    intro fuel _ _
    simp [utf8Encode, utf8DecodeF]
  | cons c t ih =>
    intro fuel hf hlt
    rcases fuel with _ | f
    · simp at hf
    · simp only [List.length_cons] at hf
      have hct : c.toNat < 2048 := hlt c (by simp)
      have henc : utf8Encode (c :: t) = utf8Char c ++ utf8Encode t := by
        simp [utf8Encode]
      by_cases hc : c.toNat < 128
      · have hcc : utf8Char c = [c.toNat] := by simp [utf8Char, hc]
        rw [henc, hcc]
        show utf8DecodeF (f + 1) (c.toNat :: utf8Encode t) = some (c :: t)
        simp only [utf8DecodeF]
        rw [if_pos hc, ih f (by omega) (fun x hx => hlt x (by simp [hx])), Char.ofNat_toNat]
        rfl
      · have hcc : utf8Char c = [192 + c.toNat / 64, 128 + c.toNat % 64] := by
          simp only [utf8Char]
          rw [if_neg hc, if_pos hct]
        rw [henc, hcc]
        show utf8DecodeF (f + 1)
          ((192 + c.toNat / 64) :: (128 + c.toNat % 64) :: utf8Encode t) = some (c :: t)
        simp only [utf8DecodeF]
        rw [if_neg (by omega), if_pos (by constructor <;> omega),
          if_pos (by simp [isCont]; omega)]
        rw [ih f (by omega) (fun x hx => hlt x (by simp [hx]))]
        have hn : (192 + c.toNat / 64 - 192) * 64 + (128 + c.toNat % 64 - 128) = c.toNat := by
          omega
        rw [hn, Char.ofNat_toNat]
        rfl

/-- Each character encodes to at least one byte. -/
theorem utf8Char_len (c : Char) : 1 ≤ (utf8Char c).length := by
  rw [utf8Char]
  repeat' split
  all_goals simp

/-- The encoding is at least as long as the text. -/
theorem utf8Encode_len (s : List Char) : s.length ≤ (utf8Encode s).length := by
  induction s with
  | nil => simp [utf8Encode]
  | cons c t ih =>
    have h := utf8Char_len c
    simp only [utf8Encode, List.map_cons, List.flatten_cons, List.length_append,
      List.length_cons] at *
    omega

/-- `bytes.decode('utf-8')` inverts `str.encode('utf-8')` on text below
`U+0800`. -/
theorem utf8Decode_encode (s : List Char) (h : ∀ c ∈ s, c.toNat < 2048) :
    utf8Decode (utf8Encode s) = some s := by
  rw [utf8Decode]
  exact utf8DecodeF_encode s _ (utf8Encode_len s) h

/-- A list of ASCII bytes decodes to the corresponding characters. -/
theorem utf8DecodeF_ascii : ∀ (bs : List Nat) (fuel : Nat), bs.length ≤ fuel →
    (∀ b ∈ bs, b < 128) →
    utf8DecodeF fuel bs = some (bs.map Char.ofNat) := by
  intro bs
  induction bs with
  | nil =>
    intro fuel _ _
    simp [utf8DecodeF]
  | cons b t ih =>
    intro fuel hf hlt
    rcases fuel with _ | f
    · simp at hf
    · simp only [utf8DecodeF]
      rw [if_pos (hlt b (by simp)), ih f (by simpa using hf) (fun x hx => hlt x (by simp [hx]))]
      rfl

/-- A list of ASCII bytes decodes to the corresponding characters. -/
theorem utf8Decode_ascii (bs : List Nat) (h : ∀ b ∈ bs, b < 128) :
    utf8Decode bs = some (bs.map Char.ofNat) :=
  utf8DecodeF_ascii bs _ le_rfl h

/-- A quote-safe character is not a percent sign. -/
theorem quoteSafe_ne_pct (c : Char) (h : quoteSafe c = true) : c ≠ '%' := by
  intro he
  subst he
  exact absurd h (by decide)

/-- `urllib.parse.quote(s, safe='')` passes an all-safe string through. -/
theorem pyQuote_safe (s : List Char) (h : ∀ c ∈ s, quoteSafe c = true) : pyQuote s = s := by
  induction s with
  | nil => rfl
  | cons c t ih =>
    have hc := h c (by simp)
    simp only [pyQuote, List.map_cons, List.flatten_cons]
    rw [if_pos hc]
    have ht : pyQuote t = t := ih (fun x hx => h x (by simp [hx]))
    rw [pyQuote] at ht
    rw [ht]
    rfl

/-- `urllib.parse.unquote` passes a percent-free string through. -/
theorem pyUnquoteF_nopct : ∀ (fuel : Nat) (s : List Char), (∀ c ∈ s, c ≠ '%') →
    pyUnquoteF fuel s = s := by
  intro fuel
  induction fuel with
  | zero =>
    intro s _
    cases s <;> rfl
  | succ f ih =>
    intro s h
    cases s with
    | nil => rfl
    | cons c t =>
      simp only [pyUnquoteF]
      rw [if_neg (h c (by simp)), ih t (fun x hx => h x (by simp [hx]))]

/-- `urllib.parse.unquote` passes a percent-free string through. -/
theorem pyUnquote_nopct (s : List Char) (h : ∀ c ∈ s, c ≠ '%') : pyUnquote s = s :=
  pyUnquoteF_nopct s.length s h

/-- The standard alphabet decodes its own characters. -/
theorem b64Index_b64Char : ∀ n, n < 64 → b64Index (b64Char n) = some n := by decide

/-- Alphabet characters are not the padding character. -/
theorem b64Char_ne_pad : ∀ n, n < 64 → b64Char n ≠ '=' := by decide

/-- URL-safe alphabet characters are not the padding character. -/
theorem b64UrlChar_ne_pad : ∀ n, n < 64 → b64UrlChar n ≠ '=' := by decide

/-- URL-safe alphabet characters are never percent-escaped by
`urllib.parse.quote(..., safe='')`. -/
theorem quoteSafe_b64UrlChar : ∀ n, n < 64 → quoteSafe (b64UrlChar n) = true := by decide

/-- The two alphabet-replacement maps send a URL-safe character to the
corresponding standard character. -/
theorem urlsafe_char_std : ∀ n, n < 64 →
    (if (if b64UrlChar n = '-' then '+' else b64UrlChar n) = '_' then '/'
     else if b64UrlChar n = '-' then '+' else b64UrlChar n) = b64Char n := by decide

/-- `urlsafeToStd` on the empty string. -/
theorem urlsafeToStd_nil : urlsafeToStd [] = [] := rfl

/-- `urlsafeToStd` maps characters one at a time. -/
theorem urlsafeToStd_cons (c : Char) (t : List Char) :
    urlsafeToStd (c :: t) =
      (if (if c = '-' then '+' else c) = '_' then '/' else if c = '-' then '+' else c) ::
        urlsafeToStd t := by
  simp [urlsafeToStd]

/-- `str.rstrip('=')` leaves a string without padding untouched. -/
theorem rstripEq_no_pad (l : List Char) (h : ∀ c ∈ l, c ≠ '=') : rstripEq l = l := by
  rw [rstripEq]
  have hd : l.reverse.dropWhile (fun c => c = '=') = l.reverse := by
    cases hr : l.reverse with
    | nil => rfl
    | cons x t =>
      rw [List.dropWhile_cons]
      have hx : x ∈ l := List.mem_reverse.mp (by rw [hr]; simp)
      rw [if_neg (by simp [h x hx])]
  rw [hd, List.reverse_reverse]

/-- `str.rstrip('=')` removes a padding-only suffix. -/
theorem rstripEq_append_pad (l m : List Char) (h : ∀ c ∈ m, c = '=') :
    rstripEq (l ++ m) = rstripEq l := by
  rw [rstripEq, rstripEq, List.reverse_append, List.dropWhile_append]
  have h1 : m.reverse.dropWhile (fun c => c = '=') = [] :=
    List.dropWhile_eq_nil_iff.mpr (fun c hc => by simp [h c (List.mem_reverse.mp hc)])
  rw [h1]
  simp

/-- `str.rstrip('=')` only strips inside a suffix holding a non-padding
character. -/
theorem rstripEq_append_keep (l m : List Char) (h : ∃ c ∈ m, c ≠ '=') :
    rstripEq (l ++ m) = l ++ rstripEq m := by
  rw [rstripEq, rstripEq, List.reverse_append, List.dropWhile_append]
  have h1 : ¬ (m.reverse.dropWhile (fun c => c = '=')).isEmpty = true := by
    obtain ⟨c, hc, hne⟩ := h
    intro hx
    rw [List.isEmpty_iff] at hx
    have h2 := List.dropWhile_eq_nil_iff.mp hx c (List.mem_reverse.mpr hc)
    simp at h2
    exact hne h2
  rw [if_neg h1, List.reverse_append, List.reverse_reverse]

/-- Padding to a multiple of four commutes with a leading quad. -/
theorem padB64_quad (a b c d : Char) (m : List Char) :
    padB64 (a :: b :: c :: d :: m) = a :: b :: c :: d :: padB64 m := by
  rw [padB64, padB64]
  have hl : (a :: b :: c :: d :: m).length % 4 = m.length % 4 := by
    simp only [List.length_cons]
    omega
  rw [hl]
  split
  · rfl
  · simp

/-- The quad decoder is insensitive to its fuel once the fuel covers the
input. -/
theorem b64Quads_mono : ∀ (n f g : Nat) (l : List Char), l.length ≤ n →
    l.length ≤ 4 * f → l.length ≤ 4 * g → b64Quads f l = b64Quads g l := by
  intro n
  induction n with
  | zero =>
    intro f g l hn _ _
    have hl : l = [] := List.length_eq_zero.mp (by omega)
    subst hl
    cases f <;> cases g <;> rfl
  | succ m ih =>
    intro f g l hn hf hg
    cases l with
    | nil => cases f <;> cases g <;> rfl
    | cons c1 r1 =>
      rcases f with _ | f2
      · exact absurd hf (by simp)
      rcases g with _ | g2
      · exact absurd hg (by simp)
      cases r1 with
      | nil => rfl
      | cons c2 r2 =>
        cases r2 with
        | nil => rfl
        | cons c3 r3 =>
          cases r3 with
          | nil => rfl
          | cons c4 rest =>
            have hrec : b64Quads f2 rest = b64Quads g2 rest := by
              apply ih f2 g2 rest
              · simp only [List.length_cons] at hn
                omega
              · simp only [List.length_cons] at hf
                omega
              · simp only [List.length_cons] at hg
                omega
            simp only [b64Quads, hrec]

/-- Stripped URL-safe encoding of a single byte. -/
theorem rstrip_enc_one (a : Nat) (ha : a < 256) :
    rstripEq (b64UrlEncode [a]) = [b64UrlChar (a / 4), b64UrlChar (a % 4 * 16)] := by
  have he : b64UrlEncode [a] =
      [b64UrlChar (a / 4), b64UrlChar (a % 4 * 16)] ++ ['=', '='] := by
    simp [b64UrlEncode]
  rw [he, rstripEq_append_pad _ _ (by intro c hc; fin_cases hc <;> rfl)]
  refine rstripEq_no_pad _ ?_
  intro c hc
  simp only [List.mem_cons, List.not_mem_nil, or_false] at hc
  rcases hc with rfl | rfl
  · exact b64UrlChar_ne_pad _ (by omega)
  · exact b64UrlChar_ne_pad _ (by omega)

/-- Stripped URL-safe encoding of two bytes. -/
theorem rstrip_enc_two (a b : Nat) (ha : a < 256) (hb : b < 256) :
    rstripEq (b64UrlEncode [a, b]) =
      [b64UrlChar (a / 4), b64UrlChar (a % 4 * 16 + b / 16), b64UrlChar (b % 16 * 4)] := by
  have he : b64UrlEncode [a, b] =
      [b64UrlChar (a / 4), b64UrlChar (a % 4 * 16 + b / 16), b64UrlChar (b % 16 * 4)] ++
        ['='] := by
    simp [b64UrlEncode]
  rw [he, rstripEq_append_pad _ _ (by intro c hc; fin_cases hc <;> rfl)]
  refine rstripEq_no_pad _ ?_
  intro c hc
  simp only [List.mem_cons, List.not_mem_nil, or_false] at hc
  rcases hc with rfl | rfl | rfl
  · exact b64UrlChar_ne_pad _ (by omega)
  · exact b64UrlChar_ne_pad _ (by omega)
  · exact b64UrlChar_ne_pad _ (by omega)

/-- A non-empty byte list encodes to a string led by an alphabet
character. -/
theorem b64UrlEncode_head : ∀ (bs : List Nat), bs ≠ [] → (∀ x ∈ bs, x < 256) →
    ∃ q t, b64UrlEncode bs = q :: t ∧ q ≠ '=' := by
  intro bs hne hb
  cases bs with
  | nil => exact absurd rfl hne
  | cons a r =>
    have ha : a < 256 := hb a (by simp)
    cases r with
    | nil =>
      exact ⟨b64UrlChar (a / 4), [b64UrlChar (a % 4 * 16), '=', '='], rfl,
        b64UrlChar_ne_pad _ (by omega)⟩
    | cons b r2 =>
      cases r2 with
      | nil =>
        exact ⟨b64UrlChar (a / 4),
          [b64UrlChar (a % 4 * 16 + b / 16), b64UrlChar (b % 16 * 4), '='], rfl,
          b64UrlChar_ne_pad _ (by omega)⟩
      | cons c r3 =>
        exact ⟨b64UrlChar (a / 4),
          b64UrlChar (a % 4 * 16 + b / 16) :: b64UrlChar (b % 16 * 4 + c / 64) ::
            b64UrlChar (c % 64) :: b64UrlEncode r3, rfl,
          b64UrlChar_ne_pad _ (by omega)⟩

/-- Stripped URL-safe encoding of three or more bytes: a full quad then
the encoding of the remainder. -/
theorem rstrip_enc_quad (a b c : Nat) (rest : List Nat) (ha : a < 256) (hb : b < 256)
    (hc : c < 256) (hrest : ∀ x ∈ rest, x < 256) :
    rstripEq (b64UrlEncode (a :: b :: c :: rest)) =
      b64UrlChar (a / 4) :: b64UrlChar (a % 4 * 16 + b / 16) ::
      b64UrlChar (b % 16 * 4 + c / 64) :: b64UrlChar (c % 64) ::
      rstripEq (b64UrlEncode rest) := by
  have he : b64UrlEncode (a :: b :: c :: rest) =
      [b64UrlChar (a / 4), b64UrlChar (a % 4 * 16 + b / 16),
       b64UrlChar (b % 16 * 4 + c / 64), b64UrlChar (c % 64)] ++ b64UrlEncode rest := by
    simp [b64UrlEncode]
  by_cases hrn : rest = []
  · subst hrn
    rw [he, show b64UrlEncode ([] : List Nat) = [] from rfl, List.append_nil]
    rw [rstripEq_no_pad _ (by
      intro x hx
      simp only [List.mem_cons, List.not_mem_nil, or_false] at hx
      rcases hx with rfl | rfl | rfl | rfl
      · exact b64UrlChar_ne_pad _ (by omega)
      · exact b64UrlChar_ne_pad _ (by omega)
      · exact b64UrlChar_ne_pad _ (by omega)
      · exact b64UrlChar_ne_pad _ (by omega))]
    rfl
  · obtain ⟨q, t, hqt, hq⟩ := b64UrlEncode_head rest hrn hrest
    rw [he, rstripEq_append_keep _ _ ⟨q, by rw [hqt]; simp, hq⟩]
    rfl

/-- Every character of the stripped URL-safe encoding is an alphabet
character. -/
theorem rstrip_enc_safe : ∀ (n : Nat) (bs : List Nat), bs.length ≤ n →
    (∀ x ∈ bs, x < 256) →
    ∀ c ∈ rstripEq (b64UrlEncode bs), ∃ m, m < 64 ∧ c = b64UrlChar m := by
  intro n
  induction n with
  | zero =>
    intro bs hn _ c hc
    have hb : bs = [] := List.length_eq_zero.mp (by omega)
    subst hb
    simp [b64UrlEncode, rstripEq] at hc
  | succ m ih =>
    intro bs hn hb c hc
    cases bs with
    | nil => simp [b64UrlEncode, rstripEq] at hc
    | cons a r =>
      have ha : a < 256 := hb a (by simp)
      cases r with
      | nil =>
        rw [rstrip_enc_one a ha] at hc
        simp only [List.mem_cons, List.not_mem_nil, or_false] at hc
        rcases hc with rfl | rfl
        · exact ⟨a / 4, by omega, rfl⟩
        · exact ⟨a % 4 * 16, by omega, rfl⟩
      | cons b r2 =>
        have hbb : b < 256 := hb b (by simp)
        cases r2 with
        | nil =>
          rw [rstrip_enc_two a b ha hbb] at hc
          simp only [List.mem_cons, List.not_mem_nil, or_false] at hc
          rcases hc with rfl | rfl | rfl
          · exact ⟨a / 4, by omega, rfl⟩
          · exact ⟨a % 4 * 16 + b / 16, by omega, rfl⟩
          · exact ⟨b % 16 * 4, by omega, rfl⟩
        | cons cc r3 =>
          have hcc : cc < 256 := hb cc (by simp)
          have hr3 : ∀ x ∈ r3, x < 256 := fun x hx => hb x (by simp [hx])
          rw [rstrip_enc_quad a b cc r3 ha hbb hcc hr3] at hc
          rcases List.mem_cons.mp hc with rfl | hc1
          · exact ⟨a / 4, by omega, rfl⟩
          rcases List.mem_cons.mp hc1 with rfl | hc2
          · exact ⟨a % 4 * 16 + b / 16, by omega, rfl⟩
          rcases List.mem_cons.mp hc2 with rfl | hc3
          · exact ⟨b % 16 * 4 + cc / 64, by omega, rfl⟩
          rcases List.mem_cons.mp hc3 with rfl | hc4
          · exact ⟨cc % 64, by omega, rfl⟩
          · exact ih r3 (by simp only [List.length_cons] at hn; omega) hr3 c hc4

/-- The filter inside `b64decode` keeps alphabet and padding characters. -/
theorem b64_filter_keep (l : List Char)
    (h : ∀ c ∈ l, ((b64Index c).isSome || c = '=') = true) :
    l.filter (fun c => (b64Index c).isSome || c = '=') = l :=
  List.filter_eq_self.mpr h

/-- Decoding (with the URL-safe conversion and re-padding of `decode_jzb`)
inverts the stripped URL-safe encoding of any byte string. -/
theorem b64_enc_roundtrip : ∀ (n : Nat) (bs : List Nat), bs.length ≤ n →
    (∀ x ∈ bs, x < 256) →
    b64Decode (padB64 (urlsafeToStd (rstripEq (b64UrlEncode bs)))) = some bs := by
  intro n
  induction n with
  | zero =>
    intro bs hn _
    have hb : bs = [] := List.length_eq_zero.mp (by omega)
    subst hb
    decide
  | succ m ih =>
    intro bs hn hb
    cases bs with
    | nil => decide
    | cons a r =>
      have ha : a < 256 := hb a (by simp)
      cases r with
      | nil =>
        rw [rstrip_enc_one a ha, urlsafeToStd_cons, urlsafeToStd_cons, urlsafeToStd_nil,
          urlsafe_char_std _ (by omega), urlsafe_char_std _ (by omega)]
        have hpad : padB64 [b64Char (a / 4), b64Char (a % 4 * 16)] =
            [b64Char (a / 4), b64Char (a % 4 * 16), '=', '='] := by
          rw [padB64, if_neg (by simp)]
          rfl
        rw [hpad, b64Decode]
        rw [b64_filter_keep _ (by
          intro c hc
          simp only [List.mem_cons, List.not_mem_nil, or_false] at hc
          rcases hc with rfl | rfl | rfl | rfl
          · simp [b64Index_b64Char _ (by omega : a / 4 < 64)]
          · simp [b64Index_b64Char _ (by omega : a % 4 * 16 < 64)]
          · simp
          · simp)]
        show b64Quads 4 [b64Char (a / 4), b64Char (a % 4 * 16), '=', '='] = some [a]
        simp only [b64Quads, b64Index_b64Char _ (by omega : a / 4 < 64),
          b64Index_b64Char _ (by omega : a % 4 * 16 < 64), Option.some_bind]
        have e1 : a / 4 * 4 + a % 4 * 16 / 16 = a := by omega
        simp [e1]
        all_goals omega
      | cons b r2 =>
        have hbb : b < 256 := hb b (by simp)
        cases r2 with
        | nil =>
          rw [rstrip_enc_two a b ha hbb, urlsafeToStd_cons, urlsafeToStd_cons,
            urlsafeToStd_cons, urlsafeToStd_nil, urlsafe_char_std _ (by omega),
            urlsafe_char_std _ (by omega), urlsafe_char_std _ (by omega)]
          have hpad : padB64 [b64Char (a / 4), b64Char (a % 4 * 16 + b / 16),
              b64Char (b % 16 * 4)] =
              [b64Char (a / 4), b64Char (a % 4 * 16 + b / 16), b64Char (b % 16 * 4),
                '='] := by
            rw [padB64, if_neg (by simp)]
            rfl
          rw [hpad, b64Decode]
          rw [b64_filter_keep _ (by
            intro c hc
            simp only [List.mem_cons, List.not_mem_nil, or_false] at hc
            rcases hc with rfl | rfl | rfl | rfl
            · simp [b64Index_b64Char _ (by omega : a / 4 < 64)]
            · simp [b64Index_b64Char _ (by omega : a % 4 * 16 + b / 16 < 64)]
            · simp [b64Index_b64Char _ (by omega : b % 16 * 4 < 64)]
            · simp)]
          show b64Quads 4 [b64Char (a / 4), b64Char (a % 4 * 16 + b / 16),
            b64Char (b % 16 * 4), '='] = some [a, b]
          simp only [b64Quads, b64Index_b64Char _ (by omega : a / 4 < 64),
            b64Index_b64Char _ (by omega : a % 4 * 16 + b / 16 < 64),
            b64Index_b64Char _ (by omega : b % 16 * 4 < 64), Option.some_bind]
          have e1 : a / 4 * 4 + (a % 4 * 16 + b / 16) / 16 = a := by omega
          have e2 : (a % 4 * 16 + b / 16) % 16 * 16 + b % 16 * 4 / 4 = b := by omega
          simp [b64Char_ne_pad _ (by omega : b % 16 * 4 < 64), e1, e2]
          all_goals omega
        | cons c r3 =>
          have hcc : c < 256 := hb c (by simp)
          have hr3 : ∀ x ∈ r3, x < 256 := fun x hx => hb x (by simp [hx])
          rw [rstrip_enc_quad a b c r3 ha hbb hcc hr3, urlsafeToStd_cons, urlsafeToStd_cons,
            urlsafeToStd_cons, urlsafeToStd_cons, urlsafe_char_std _ (by omega),
            urlsafe_char_std _ (by omega), urlsafe_char_std _ (by omega),
            urlsafe_char_std _ (by omega), padB64_quad]
          simp only [b64Decode]
          simp only [List.filter_cons, b64Index_b64Char _ (by omega : a / 4 < 64),
            b64Index_b64Char _ (by omega : a % 4 * 16 + b / 16 < 64),
            b64Index_b64Char _ (by omega : b % 16 * 4 + c / 64 < 64),
            b64Index_b64Char _ (by omega : c % 64 < 64),
            Option.isSome_some, Bool.true_or, if_true, List.length_cons]
          simp only [b64Quads, b64Index_b64Char _ (by omega : a / 4 < 64),
            b64Index_b64Char _ (by omega : a % 4 * 16 + b / 16 < 64),
            b64Index_b64Char _ (by omega : b % 16 * 4 + c / 64 < 64),
            b64Index_b64Char _ (by omega : c % 64 < 64), Option.some_bind]
          rw [b64Quads_mono
            ((padB64 (urlsafeToStd (rstripEq (b64UrlEncode r3)))).filter
              (fun c => (b64Index c).isSome || c = '=')).length
            (((padB64 (urlsafeToStd (rstripEq (b64UrlEncode r3)))).filter
              (fun c => (b64Index c).isSome || c = '=')).length + 1 + 1 + 1)
            ((padB64 (urlsafeToStd (rstripEq (b64UrlEncode r3)))).filter
              (fun c => (b64Index c).isSome || c = '=')).length
            ((padB64 (urlsafeToStd (rstripEq (b64UrlEncode r3)))).filter
              (fun c => (b64Index c).isSome || c = '='))
            le_rfl (by omega) (by omega)]
          have hdec : b64Quads
              ((padB64 (urlsafeToStd (rstripEq (b64UrlEncode r3)))).filter
                (fun c => (b64Index c).isSome || c = '=')).length
              ((padB64 (urlsafeToStd (rstripEq (b64UrlEncode r3)))).filter
                (fun c => (b64Index c).isSome || c = '=')) =
              b64Decode (padB64 (urlsafeToStd (rstripEq (b64UrlEncode r3)))) := rfl
          rw [hdec, ih r3 (by simp only [List.length_cons] at hn; omega) hr3]
          have e1 : a / 4 * 4 + (a % 4 * 16 + b / 16) / 16 = a := by omega
          have e2 : (a % 4 * 16 + b / 16) % 16 * 16 + (b % 16 * 4 + c / 64) / 4 = b := by
            omega
          have e3 : (b % 16 * 4 + c / 64) % 4 * 64 + c % 64 = c := by omega
          simp [b64Char_ne_pad _ (by omega : b % 16 * 4 + c / 64 < 64),
            b64Char_ne_pad _ (by omega : c % 64 < 64), e1, e2, e3]
          all_goals omega

/-- Inflating one final stored block recovers its data and leaves the
trailing bytes. -/
theorem inflate_single_block (data extra : List Nat) (f : Nat) (h : data.length ≤ 65535) :
    inflateStored (f + 1)
      ((1 :: data.length % 256 :: data.length / 256 ::
        (65535 - data.length) % 256 :: (65535 - data.length) / 256 :: data) ++ extra) =
      some (data, extra) := by
  simp only [List.cons_append]
  simp only [inflateStored]
  rw [if_neg (by norm_num)]
  rw [if_neg (show ¬((65535 - data.length) % 256 + 256 * ((65535 - data.length) / 256) ≠
    65535 - (data.length % 256 + 256 * (data.length / 256))) from by omega)]
  rw [if_neg (show ¬((data ++ extra).length < data.length % 256 + 256 * (data.length / 256))
    from by simp [List.length_append]; omega)]
  rw [if_pos (by norm_num)]
  have hl : data.length % 256 + 256 * (data.length / 256) = data.length := by omega
  rw [hl, List.take_left, List.drop_left]

/-- Inflating the stored-block body produced by the compressor recovers
the original data and leaves the trailing bytes. -/
theorem infl_defl : ∀ (g : Nat) (data extra : List Nat) (fi : Nat),
    data.length ≤ 65535 * g + 65535 → g < fi →
    inflateStored fi (deflateStored (g + 1) data ++ extra) = some (data, extra) := by
  intro g
  induction g with
  | zero =>
    intro data extra fi hlen hfi
    rcases fi with _ | f
    · omega
    rw [deflateStored, if_pos (by omega)]
    exact inflate_single_block data extra f (by omega)
  | succ g2 ihg =>
    intro data extra fi hlen hfi
    rcases fi with _ | f
    · omega
    by_cases hsm : data.length ≤ 65535
    · rw [deflateStored, if_pos hsm]
      exact inflate_single_block data extra f hsm
    · rw [deflateStored, if_neg hsm]
      have htk : (data.take 65535).length = 65535 := by
        rw [List.length_take]
        omega
      simp only [List.cons_append, List.append_assoc]
      simp only [inflateStored]
      rw [if_neg (by norm_num)]
      rw [if_neg (show ¬(0 + 256 * 0 ≠ 65535 - (255 + 256 * 255)) from by norm_num)]
      rw [if_neg (show ¬((data.take 65535 ++ (deflateStored (g2 + 1) (data.drop 65535) ++
        extra)).length < 255 + 256 * 255) from by
          simp [List.length_append, htk])]
      rw [if_neg (by norm_num)]
      have hdrop : (data.take 65535 ++ (deflateStored (g2 + 1) (data.drop 65535) ++
          extra)).drop (255 + 256 * 255) =
          deflateStored (g2 + 1) (data.drop 65535) ++ extra := by
        have h5 : (255 + 256 * 255) = (data.take 65535).length := by omega
        rw [h5, List.drop_left]
      rw [hdrop, ihg (data.drop 65535) extra f (by simp [List.length_drop]; omega)
        (by omega)]
      show some (List.take (255 + 256 * 255)
          (List.take 65535 data ++ (deflateStored (g2 + 1) (List.drop 65535 data) ++
            extra)) ++ List.drop 65535 data, extra) = some (data, extra)
      have htake : List.take (255 + 256 * 255)
          (List.take 65535 data ++ (deflateStored (g2 + 1) (List.drop 65535 data) ++
            extra)) = List.take 65535 data := by
        have h5 : (255 + 256 * 255) = (List.take 65535 data).length := by omega
        rw [h5, List.take_left]
      rw [htake, List.take_append_drop]

/-- The compressed body is at least as long as the data. -/
theorem deflateStored_len : ∀ (g : Nat) (data : List Nat),
    data.length ≤ 65535 * g + 65535 →
    data.length ≤ (deflateStored (g + 1) data).length := by
  intro g
  induction g with
  | zero =>
    intro data hlen
    rw [deflateStored, if_pos (by omega)]
    simp
    omega
  | succ g2 ihg =>
    intro data hlen
    by_cases hsm : data.length ≤ 65535
    · rw [deflateStored, if_pos hsm]
      simp
      omega
    · rw [deflateStored, if_neg hsm]
      have h2 := ihg (data.drop 65535) (by simp [List.length_drop]; omega)
      simp only [List.length_cons, List.length_append, List.length_take,
        List.length_drop] at h2 ⊢
      omega

/-- The two Adler-32 accumulators stay below the modulus. -/
theorem adler_fold_lt : ∀ (bs : List Nat) (p : Nat × Nat), p.1 < 65521 → p.2 < 65521 →
    (bs.foldl (fun p byte => ((p.1 + byte) % 65521, (p.2 + p.1 + byte) % 65521)) p).1 <
      65521 ∧
    (bs.foldl (fun p byte => ((p.1 + byte) % 65521, (p.2 + p.1 + byte) % 65521)) p).2 <
      65521 := by
  intro bs
  induction bs with
  | nil => exact fun p h1 h2 => ⟨h1, h2⟩
  | cons b t ih =>
    intro p h1 h2
    rw [List.foldl_cons]
    exact ih _ (Nat.mod_lt _ (by omega)) (Nat.mod_lt _ (by omega))

/-- Adler-32 fits in 32 bits. -/
theorem adler32_lt (bs : List Nat) : adler32 bs < 4294967296 := by
  rw [adler32]
  have h := adler_fold_lt bs (1, 0) (by omega) (by omega)
  omega

/-- The decompressor's checksum comparison accepts the compressor's
trailer. -/
theorem adler_recombine (bs : List Nat) :
    adler32 bs / 16777216 % 256 * 16777216 + adler32 bs / 65536 % 256 * 65536 +
      adler32 bs / 256 % 256 * 256 + adler32 bs % 256 = adler32 bs := by
  have h := adler32_lt bs
  omega

/-- `zlib.decompress` at `wbits = 15` inverts `zlib.compress`. -/
theorem zlib_header_roundtrip (data : List Nat) :
    zlibDecompressHeader 15 (zlibCompress data) = some data := by
  rw [zlibCompress, zlibDecompressHeader]
  rw [if_pos (by norm_num)]
  have hinf := infl_defl data.length data (adlerBytes data)
    ((deflateStored (data.length + 1) data ++ adlerBytes data).length + 1)
    (by omega)
    (by
      have h2 := deflateStored_len data.length data (by omega)
      simp only [List.length_append]
      omega)
  rw [hinf]
  show (match adlerBytes data with
    | a1 :: a2 :: a3 :: a4 :: _ =>
      if a1 * 16777216 + a2 * 65536 + a3 * 256 + a4 = adler32 data then some data else none
    | _ => none) = some data
  rw [show adlerBytes data = [adler32 data / 16777216 % 256, adler32 data / 65536 % 256,
    adler32 data / 256 % 256, adler32 data % 256] from rfl]
  show (if adler32 data / 16777216 % 256 * 16777216 + adler32 data / 65536 % 256 * 65536 +
      adler32 data / 256 % 256 * 256 + adler32 data % 256 = adler32 data then some data
    else none) = some data
  rw [if_pos (adler_recombine data)]

/-- A stored block whose length bytes come from printable ASCII can never
satisfy the ones-complement check, and Huffman block types are outside the
stored-block model: inflation of such a stream fails. -/
theorem inflate_print5_none (fuel : Nat) (b p1 p2 p3 p4 : Nat) (tail : List Nat)
    (h1 : 32 ≤ p1) (h2 : p1 ≤ 126) (h3 : 32 ≤ p2) (h4 : p2 ≤ 126)
    (h5 : 32 ≤ p3) (h6 : p3 ≤ 126) (h7 : 32 ≤ p4) (h8 : p4 ≤ 126) :
    inflateStored fuel (b :: p1 :: p2 :: p3 :: p4 :: tail) = none := by
  rcases fuel with _ | f
  · rfl
  · simp only [inflateStored]
    by_cases hbt : b / 2 % 4 = 0
    · rw [if_neg (show ¬(b / 2 % 4 ≠ 0) from by omega)]
      rw [if_pos (show p3 + 256 * p4 ≠ 65535 - (p1 + 256 * p2) from by omega)]
    · rw [if_pos hbt]

/-- Raw inflation (negative `wbits`, as the code tries first) fails on the
output of `zlib.compress` over printable-ASCII payloads: the zlib header
bytes are misread as a stored-block header whose ones-complement check can
only be met deep inside the payload, where printable bytes can never
complete another valid block. -/
theorem raw_on_zlib_none (P : List Nat) (hp : ∀ x ∈ P, 32 ≤ x ∧ x ≤ 126) :
    zlibDecompressRaw (zlibCompress P) = none := by
  rw [zlibDecompressRaw, zlibCompress]
  by_cases hlen : P.length ≤ 65535
  · rw [deflateStored, if_pos hlen]
    simp only [List.cons_append]
    simp only [inflateStored]
    rw [if_neg (show ¬(120 / 2 % 4 ≠ 0) from by norm_num)]
    by_cases hEq : P.length = 65123
    · rw [if_neg (show ¬(P.length % 256 + 256 * (P.length / 256) ≠
        65535 - (156 + 256 * 1)) from by omega)]
      have hal : (adlerBytes P).length = 4 := rfl
      rw [if_neg (show ¬(((65535 - P.length) % 256 :: (65535 - P.length) / 256 ::
          (P ++ adlerBytes P)).length < 156 + 256 * 1) from by
        simp only [List.length_cons, List.length_append, hal]
        omega)]
      rw [if_neg (show ¬(120 % 2 = 1) from by norm_num)]
      have hdrop : ((65535 - P.length) % 256 :: (65535 - P.length) / 256 ::
          (P ++ adlerBytes P)).drop (156 + 256 * 1) = P.drop 410 ++ adlerBytes P := by
        have h1 : ∀ (x y : Nat) (l : List Nat), (x :: y :: l).drop 412 = l.drop 410 :=
          fun x y l => rfl
        rw [show (156 + 256 * 1) = 412 from rfl, h1, List.drop_append_eq_append_drop,
          show 410 - P.length = 0 from by omega, List.drop_zero]
      have h5 : (P.drop 410).length = 64713 := by rw [List.length_drop, hEq]
      obtain ⟨q0, l0, h0⟩ : ∃ a l, P.drop 410 = a :: l := by
        cases hpd : P.drop 410 with
        | nil => rw [hpd] at h5; simp at h5
        | cons a l => exact ⟨a, l, rfl⟩
      have h50 : l0.length = 64712 := by rw [h0] at h5; simpa using h5
      obtain ⟨q1, l1, hh1⟩ : ∃ a l, l0 = a :: l := by
        cases hpd : l0 with
        | nil => rw [hpd] at h50; simp at h50
        | cons a l => exact ⟨a, l, rfl⟩
      have h51 : l1.length = 64711 := by rw [hh1] at h50; simpa using h50
      obtain ⟨q2, l2, hh2⟩ : ∃ a l, l1 = a :: l := by
        cases hpd : l1 with
        | nil => rw [hpd] at h51; simp at h51
        | cons a l => exact ⟨a, l, rfl⟩
      have h52 : l2.length = 64710 := by rw [hh2] at h51; simpa using h51
      obtain ⟨q3, l3, hh3⟩ : ∃ a l, l2 = a :: l := by
        cases hpd : l2 with
        | nil => rw [hpd] at h52; simp at h52
        | cons a l => exact ⟨a, l, rfl⟩
      have h53 : l3.length = 64709 := by rw [hh3] at h52; simpa using h52
      obtain ⟨q4, l4, hh4⟩ : ∃ a l, l3 = a :: l := by
        cases hpd : l3 with
        | nil => rw [hpd] at h53; simp at h53
        | cons a l => exact ⟨a, l, rfl⟩
      have hd : P.drop 410 = q0 :: q1 :: q2 :: q3 :: q4 :: l4 := by
        rw [h0, hh1, hh2, hh3, hh4]
      have hmem : ∀ x ∈ P.drop 410, 32 ≤ x ∧ x ≤ 126 :=
        fun x hx => hp x (List.drop_subset _ _ hx)
      have hq1 : 32 ≤ q1 ∧ q1 ≤ 126 := hmem q1 (by rw [hd]; simp)
      have hq2 : 32 ≤ q2 ∧ q2 ≤ 126 := hmem q2 (by rw [hd]; simp)
      have hq3 : 32 ≤ q3 ∧ q3 ≤ 126 := hmem q3 (by rw [hd]; simp)
      have hq4 : 32 ≤ q4 ∧ q4 ≤ 126 := hmem q4 (by rw [hd]; simp)
      rw [hdrop, hd]
      simp only [List.cons_append]
      rw [inflate_print5_none _ q0 q1 q2 q3 q4 (l4 ++ adlerBytes P)
        hq1.1 hq1.2 hq2.1 hq2.2 hq3.1 hq3.2 hq4.1 hq4.2]
      rfl
    · rw [if_pos (show P.length % 256 + 256 * (P.length / 256) ≠
        65535 - (156 + 256 * 1) from by omega)]
      rfl
  · rw [deflateStored, if_neg hlen]
    simp only [List.cons_append]
    simp only [inflateStored]
    rw [if_neg (show ¬(120 / 2 % 4 ≠ 0) from by norm_num)]
    rw [if_pos (show (255 : Nat) + 256 * 255 ≠ 65535 - (156 + 256 * 0) from by norm_num)]
    rfl

/-- The compressed body consists of bytes. -/
theorem deflateStored_lt256 : ∀ (f : Nat) (data : List Nat), (∀ x ∈ data, x < 256) →
    ∀ y ∈ deflateStored f data, y < 256 := by
  intro f
  induction f with
  | zero =>
    intro data _ y hy
    rw [deflateStored] at hy
    cases hy
  | succ f2 ih =>
    intro data h y hy
    rw [deflateStored] at hy
    split at hy
    · rename_i hle
      simp only [List.mem_cons] at hy
      rcases hy with rfl | rfl | rfl | rfl | rfl | hy2
      · omega
      · exact Nat.mod_lt _ (by omega)
      · omega
      · exact Nat.mod_lt _ (by omega)
      · omega
      · exact h y hy2
    · simp only [List.mem_cons] at hy
      rcases hy with rfl | rfl | rfl | rfl | rfl | hy2
      · omega
      · omega
      · omega
      · omega
      · omega
      · rcases List.mem_append.mp hy2 with h3 | h3
        · exact h y (List.take_subset _ _ h3)
        · exact ih (data.drop 65535) (fun x hx => h x (List.drop_subset _ _ hx)) y h3

/-- The compressor emits bytes. -/
theorem zlibCompress_lt256 (data : List Nat) (h : ∀ x ∈ data, x < 256) :
    ∀ y ∈ zlibCompress data, y < 256 := by
  intro y hy
  rw [zlibCompress] at hy
  simp only [List.mem_cons] at hy
  rcases hy with rfl | rfl | hy2
  · omega
  · omega
  · rcases List.mem_append.mp hy2 with h3 | h3
    · exact deflateStored_lt256 _ data h y h3
    · rw [show adlerBytes data = [adler32 data / 16777216 % 256, adler32 data / 65536 % 256,
        adler32 data / 256 % 256, adler32 data % 256] from rfl] at h3
      simp only [List.mem_cons, List.not_mem_nil, or_false] at h3
      rcases h3 with h3 | h3 | h3 | h3
      all_goals rw [h3]
      all_goals exact Nat.mod_lt _ (by omega)

/-- The decompression cascade of `decode_jzb` recovers the serialized text
from `zlib.compress` output over a printable, non-empty payload: the first
`wbits` attempt (`-15`, raw) fails, the second (`15`, zlib header)
succeeds, and the loop breaks there with non-falsy text. -/
theorem jzbText_compress (T : List Char) (hprint : ∀ c ∈ T, 32 ≤ c.toNat ∧ c.toNat ≤ 126)
    (c0 : Char) (t0 : List Char) (hT : T = c0 :: t0) :
    jzbText (zlibCompress (utf8Encode T)) = some T := by
  have hascii : ∀ c ∈ T, c.toNat < 128 := fun c hc => by have := hprint c hc; omega
  have hbytes : utf8Encode T = T.map Char.toNat := utf8Encode_ascii T hascii
  have hDp : ∀ b ∈ utf8Encode T, 32 ≤ b ∧ b ≤ 126 := by
    intro b hb
    rw [hbytes] at hb
    obtain ⟨c, hc, rfl⟩ := List.mem_map.mp hb
    exact hprint c hc
  have hm1 : wbitsAttempt (-15) (zlibCompress (utf8Encode T)) = none := by
    rw [wbitsAttempt, zlibDecompress, if_pos (by norm_num),
      raw_on_zlib_none (utf8Encode T) hDp]
    rfl
  have hm15 : wbitsAttempt 15 (zlibCompress (utf8Encode T)) = some T := by
    rw [wbitsAttempt, zlibDecompress, if_neg (by norm_num)]
    rw [show ((15 : Int)).toNat = 15 from rfl]
    rw [zlib_header_roundtrip (utf8Encode T)]
    show utf8Decode (utf8Encode T) = some T
    exact utf8Decode_encode T (fun c hc => by have := hprint c hc; omega)
  have hfw : firstWbits (zlibCompress (utf8Encode T)) = some T := by
    rw [firstWbits, hm1, hm15]
  rw [jzbText, hfw, hT]
  rw [if_pos (show falsyStr (some (c0 :: t0)) = false from rfl)]

/-- C1 helper: the full encoder output decodes through the base64 phase. -/
theorem b64Phase_encode (Z : List Nat) (hZb : ∀ x ∈ Z, x < 256) :
    b64Phase (pyUnquote (pyQuote (rstripEq (b64UrlEncode Z)))) = some Z := by
  have hsafe : ∀ c ∈ rstripEq (b64UrlEncode Z), quoteSafe c = true := by
    intro c hc
    obtain ⟨m, hm, rfl⟩ := rstrip_enc_safe Z.length Z le_rfl hZb c hc
    exact quoteSafe_b64UrlChar m hm
  rw [pyQuote_safe _ hsafe,
    pyUnquote_nopct _ (fun c hc => quoteSafe_ne_pct c (hsafe c hc)),
    b64Phase, b64_enc_roundtrip Z.length Z le_rfl hZb]

/-- C1: Round-trip: decoding the string produced by
`PendoReplay.encode_to_jzb` on any well-formed list of JSON event records
via `PendoCapture.decode_jzb` yields exactly the original records, in
order; in particular every output of the encoder is accepted by the
decoder. -/
theorem encode_decode_roundtrip (events : JsonList) (hwf : wfJsonList events = true) :
    decodeJzb (encodeToJzb events) = events.toList := by
  have hprint : ∀ c ∈ dumpJson (.arr events), 32 ≤ c.toNat ∧ c.toNat ≤ 126 :=
    dumpJson_print _
  have hascii : ∀ c ∈ dumpJson (.arr events), c.toNat < 128 :=
    fun c hc => by have := hprint c hc; omega
  have hZb : ∀ x ∈ zlibCompress (utf8Encode (dumpJson (.arr events))), x < 256 := by
    apply zlibCompress_lt256
    intro x hx
    rw [utf8Encode_ascii _ hascii] at hx
    obtain ⟨c, hc, rfl⟩ := List.mem_map.mp hx
    have := hprint c hc
    omega
  rw [show encodeToJzb events =
    pyQuote (rstripEq (b64UrlEncode (zlibCompress (utf8Encode (dumpJson (.arr events))))))
    from rfl]
  rw [decodeJzb, b64Phase_encode _ hZb]
  show (match jzbText (zlibCompress (utf8Encode (dumpJson (.arr events)))) with
    | none => ([] : List Json)
    | some t =>
      match jsonLoads t with
      | none => []
      | some v => listify v) = events.toList
  rw [jzbText_compress (dumpJson (.arr events)) hprint '['
    (dumpJsonList events ++ [']']) rfl]
  show (match jsonLoads (dumpJson (.arr events)) with
    | none => ([] : List Json)
    | some v => listify v) = events.toList
  rw [jsonLoads_dump (.arr events) (by simpa [wfJson] using hwf)]
  rfl

/-- A concrete event batch: one object record and one number. -/
def eventsW : JsonList :=
  .cons (.obj (.ocons ['t', 'y', 'p', 'e'] (.str ['c', 'l', 'i', 'c', 'k'])
    (.ocons ['c', 't'] (.num 1700000000000) .onil)))
    (.cons (.num 3) .nil)

/-- Witness: the C1 round-trip evaluated at a concrete event batch. -/
theorem encode_decode_roundtrip_witness :
    wfJsonList eventsW = true ∧ decodeJzb (encodeToJzb eventsW) = eventsW.toList :=
  ⟨by decide, encode_decode_roundtrip eventsW (by decide)⟩

/-- C3: `decode_jzb` is total — every stage of the decoder is modelled as
a total function whose failure is a value — and every unrecoverable
failure (base64 phase, decompression cascade, JSON parse) yields the empty
list, while full success yields the parsed events. -/
theorem decode_total_silent (s : List Char) :
    (b64Phase (pyUnquote s) = none → decodeJzb s = []) ∧
    (∀ bs, b64Phase (pyUnquote s) = some bs → jzbText bs = none → decodeJzb s = []) ∧
    (∀ bs t, b64Phase (pyUnquote s) = some bs → jzbText bs = some t →
      jsonLoads t = none → decodeJzb s = []) ∧
    (∀ bs t v, b64Phase (pyUnquote s) = some bs → jzbText bs = some t →
      jsonLoads t = some v → decodeJzb s = listify v) := by
  refine ⟨?_, ?_, ?_, ?_⟩
  · intro h
    simp only [decodeJzb, h]
  · intro bs h1 h2
    simp only [decodeJzb, h1, h2]
  · intro bs t h1 h2 h3
    simp only [decodeJzb, h1, h2, h3]
  · intro bs t v h1 h2 h3
    simp only [decodeJzb, h1, h2, h3]

/-- Witness: on the undecodable input `"!!!"` the base64 phase fails (the
filter leaves only the re-added padding, an invalid group) and the decoder
returns the empty list. -/
theorem decode_total_silent_witness :
    b64Phase (pyUnquote ['!', '!', '!']) = none ∧ decodeJzb ['!', '!', '!'] = [] :=
  ⟨by decide, (decode_total_silent ['!', '!', '!']).1 (by decide)⟩

/-! ### A payload separating the code's attempt order from the spec's

The byte string below is a genuine zlib stream (header `0x78 0x01`, one
stored block, valid Adler-32 trailer) whose payload is crafted so that the
raw-DEFLATE reading of the same bytes — which `decode_jzb` tries first,
`wbits = -15` — also succeeds: the header bytes parse as a first stored
block whose ones-complement check is met by the payload-length bytes, and
a second, final stored block starts at payload offset 255 where the
characters `1=~` and the UTF-8 pair `C2 81` line up as a valid
length/complement header.  The raw reading yields control characters that
fail JSON parsing (so the code returns `[]`), while the zlib reading
yields the intended one-string array. -/

/-- The crafted payload: `["` + 253 spaces + `1=~` + `C2 81` (U+0081) +
65016 spaces + `"]`, 65278 bytes. -/
def cexPayload : List Nat :=
  [91, 34] ++ List.replicate 253 32 ++ [49, 61, 126, 194, 129] ++
    List.replicate 65016 32 ++ [34, 93]

/-- The JSON string value inside the crafted payload. -/
def cexStr : List Char :=
  List.replicate 253 ' ' ++ ['1', '=', '~', Char.ofNat 129] ++ List.replicate 65016 ' '

/-- The payload as text. -/
def cexText : List Char := '[' :: '"' :: (cexStr ++ ['"', ']'])

/-- The crafted zlib stream (the deflate fuel `65279` is the payload
length plus one, written as a literal). -/
def cexZ : List Nat :=
  120 :: 1 :: (deflateStored 65279 cexPayload ++ adlerBytes cexPayload)

/-- The decoder input: the stripped URL-safe base64 encoding of the
stream. -/
def cexS : List Char := rstripEq (b64UrlEncode cexZ)

/-- Payload length. -/
theorem cexPayload_len : cexPayload.length = 65278 := by
  rw [cexPayload, List.length_append, List.length_append, List.length_append,
    List.length_append, List.length_replicate, List.length_replicate]
  rfl

/-- The compressed body of the crafted stream is a single stored block. -/
theorem cexD_eq : deflateStored 65279 cexPayload =
    1 :: 254 :: 254 :: 1 :: 1 :: cexPayload := by
  rw [deflateStored, cexPayload_len, if_pos (by norm_num : (65278 : Nat) ≤ 65535)]

/-- The crafted stream, byte by byte. -/
theorem cexZ_cons : cexZ = 120 :: 1 :: 1 :: 254 :: 254 :: 1 :: 1 ::
    (cexPayload ++ adlerBytes cexPayload) := by
  rw [cexZ, cexD_eq]
  simp only [List.cons_append]

/-- Every entry of the payload is a byte. -/
theorem cexPayload_bytes : ∀ x ∈ cexPayload, x < 256 := by
  intro x hx
  rw [cexPayload] at hx
  rcases List.mem_append.mp hx with h | h
  rcases List.mem_append.mp h with h2 | h2
  rcases List.mem_append.mp h2 with h3 | h3
  rcases List.mem_append.mp h3 with h4 | h4
  · fin_cases h4 <;> omega
  · rw [List.eq_of_mem_replicate h4]
    omega
  · fin_cases h3 <;> omega
  · rw [List.eq_of_mem_replicate h2]
    omega
  · fin_cases h <;> omega

set_option maxRecDepth 4000 in
/-- Every entry of the crafted stream is a byte. -/
theorem cexZ_bytes : ∀ x ∈ cexZ, x < 256 := by
  intro x hx
  rw [cexZ_cons] at hx
  simp only [List.mem_cons, or_assoc] at hx
  rcases hx with rfl | rfl | rfl | rfl | rfl | rfl | rfl | hx2
  · omega
  · omega
  · omega
  · omega
  · omega
  · omega
  · omega
  · rcases List.mem_append.mp hx2 with h3 | h3
    · exact cexPayload_bytes x h3
    · rw [show adlerBytes cexPayload = [adler32 cexPayload / 16777216 % 256,
        adler32 cexPayload / 65536 % 256, adler32 cexPayload / 256 % 256,
        adler32 cexPayload % 256] from rfl] at h3
      simp only [List.mem_cons, List.not_mem_nil, or_false] at h3
      rcases h3 with h3 | h3 | h3 | h3
      all_goals rw [h3]
      all_goals exact Nat.mod_lt _ (by omega)

/-- Regrouping of the payload around offset 255. -/
theorem cexPayload_group : cexPayload = ([91, 34] ++ List.replicate 253 32) ++
    ([49, 61, 126, 194, 129] ++ (List.replicate 65016 32 ++ [34, 93])) := by
  rw [cexPayload]
  simp only [List.append_assoc]

/-- Length of the payload's first 255 bytes. -/
theorem cexHead_len : (([91, 34] ++ List.replicate 253 32 : List Nat)).length = 255 := by
  rw [List.length_append, List.length_replicate]
  rfl

/-- The payload after offset 255: the crafted block header then spaces. -/
theorem cexPayload_drop255 : cexPayload.drop 255 =
    [49, 61, 126, 194, 129] ++ (List.replicate 65016 32 ++ [34, 93]) := by
  rw [cexPayload_group, List.drop_left' cexHead_len]

/-- The payload before offset 255. -/
theorem cexPayload_take255 : cexPayload.take 255 = [91, 34] ++ List.replicate 253 32 := by
  rw [cexPayload_group, List.take_left' cexHead_len]

/-- The second stored block that the raw reading finds at payload offset
255: header byte `0x31`, length `0x7E3D`, complement `0x81C2`. -/
theorem cex_block2 (fuel : Nat) (hf : 1 ≤ fuel) (X : List Nat) :
    inflateStored fuel (49 :: 61 :: 126 :: 194 :: 129 ::
        (List.replicate 65016 32 ++ X)) =
      some (List.replicate 32317 32, List.replicate 32699 32 ++ X) := by
  rcases fuel with _ | f
  · omega
  simp only [inflateStored]
  rw [if_neg (show ¬(49 / 2 % 4 ≠ 0) from by norm_num)]
  rw [if_neg (show ¬((194 : Nat) + 256 * 129 ≠ 65535 - (61 + 256 * 126)) from by norm_num)]
  have hlen : (List.replicate 65016 32 ++ X : List Nat).length = 65016 + X.length := by
    rw [List.length_append, List.length_replicate]
  rw [if_neg (show ¬((List.replicate 65016 32 ++ X : List Nat).length < 61 + 256 * 126)
    from by rw [hlen]; omega)]
  rw [if_pos True.intro]
  have ht : (List.replicate 65016 32 ++ X : List Nat).take (61 + 256 * 126) =
      List.replicate 32317 32 := by
    rw [List.take_append_eq_append_take, List.take_replicate, List.length_replicate]
    rw [show (61 + 256 * 126 : Nat) = 32317 from rfl]
    rw [show min 32317 65016 = 32317 from rfl]
    rw [show (32317 : Nat) - 65016 = 0 from rfl, List.take_zero, List.append_nil]
  have hd : (List.replicate 65016 32 ++ X : List Nat).drop (61 + 256 * 126) =
      List.replicate 32699 32 ++ X := by
    rw [List.drop_append_eq_append_drop, List.drop_replicate, List.length_replicate]
    rw [show (61 + 256 * 126 : Nat) = 32317 from rfl]
    rw [show (65016 : Nat) - 32317 = 32699 from rfl]
    rw [show (32317 : Nat) - 65016 = 0 from rfl, List.drop_zero]
  rw [ht, hd]

/-- The output of the raw (`wbits = -15`) reading of the crafted stream:
the two complement bytes `0x01 0x01`, the payload's first 255 bytes, and
32317 spaces from the second block. -/
def cexRaw : List Nat :=
  1 :: 1 :: (([91, 34] ++ List.replicate 253 32) ++ List.replicate 32317 32)

/-- Raw inflation of the crafted stream body succeeds: the first stored
block swallows the zlib header coincidentally, the second is the crafted
final block at payload offset 255. -/
theorem cex_raw_core (F : Nat) (hF : 1 ≤ F) :
    inflateStored (F + 1) (120 :: 1 :: 1 :: 254 :: 254 :: 1 :: 1 ::
        (cexPayload ++ adlerBytes cexPayload)) =
      some (cexRaw, List.replicate 32699 32 ++ ([34, 93] ++ adlerBytes cexPayload)) := by
  have hal : (adlerBytes cexPayload).length = 4 := rfl
  have hlen2 : ((1 : Nat) :: 1 :: (cexPayload ++ adlerBytes cexPayload)).length = 65284 := by
    rw [List.length_cons, List.length_cons, List.length_append, cexPayload_len, hal]
  simp only [inflateStored]
  rw [if_neg (show ¬(120 / 2 % 4 ≠ 0) from by norm_num)]
  rw [if_neg (show ¬((254 : Nat) + 256 * 254 ≠ 65535 - (1 + 256 * 1)) from by norm_num)]
  rw [hlen2]
  rw [if_neg (show ¬((65284 : Nat) < 1 + 256 * 1) from by norm_num)]
  rw [if_neg (show ¬((120 : Nat) % 2 = 1) from by norm_num)]
  have hdrop : ((1 : Nat) :: 1 :: (cexPayload ++ adlerBytes cexPayload)).drop
      (1 + 256 * 1) =
      49 :: 61 :: 126 :: 194 :: 129 ::
        (List.replicate 65016 32 ++ ([34, 93] ++ adlerBytes cexPayload)) := by
    have h1 : ∀ (x y : Nat) (l : List Nat), (x :: y :: l).drop 257 = l.drop 255 :=
      fun x y l => rfl
    rw [show (1 + 256 * 1) = 257 from rfl, h1, List.drop_append_eq_append_drop,
      cexPayload_drop255, show 255 - cexPayload.length = 0 from by rw [cexPayload_len],
      List.drop_zero]
    simp only [List.cons_append, List.append_assoc, List.nil_append]
  have htake : ((1 : Nat) :: 1 :: (cexPayload ++ adlerBytes cexPayload)).take
      (1 + 256 * 1) = 1 :: 1 :: ([91, 34] ++ List.replicate 253 32) := by
    have h1 : ∀ (x y : Nat) (l : List Nat), (x :: y :: l).take 257 = x :: y :: l.take 255 :=
      fun x y l => rfl
    rw [show (1 + 256 * 1) = 257 from rfl, h1, List.take_append_eq_append_take,
      cexPayload_take255, show 255 - cexPayload.length = 0 from by rw [cexPayload_len],
      List.take_zero, List.append_nil]
  rw [hdrop, cex_block2 F hF ([34, 93] ++ adlerBytes cexPayload), htake]
  rw [cexRaw]
  simp only [List.cons_append, List.nil_append]

/-- Raw inflation of the crafted stream succeeds and yields `cexRaw`. -/
theorem cex_raw : zlibDecompressRaw cexZ = some cexRaw := by
  have hZlen : cexZ.length = 65289 := by
    rw [cexZ_cons, List.length_cons, List.length_cons, List.length_cons, List.length_cons,
      List.length_cons, List.length_cons, List.length_cons, List.length_append,
      cexPayload_len, show (adlerBytes cexPayload).length = 4 from rfl]
  rw [zlibDecompressRaw]
  generalize hF : cexZ.length = F
  rw [cexZ_cons, cex_raw_core F (by omega)]
  rfl

/-- The raw reading's output bytes are all ASCII. -/
theorem cexRaw_ascii : ∀ b ∈ cexRaw, b < 128 := by
  intro b hb
  rw [cexRaw] at hb
  rcases List.mem_cons.mp hb with rfl | hb1
  · omega
  rcases List.mem_cons.mp hb1 with rfl | hb2
  · omega
  rcases List.mem_append.mp hb2 with h | h
  · rcases List.mem_append.mp h with h2 | h2
    · fin_cases h2 <;> omega
    · rw [List.eq_of_mem_replicate h2]
      omega
  · rw [List.eq_of_mem_replicate h]
    omega

/-- Percent-decoding passes the crafted input through. -/
theorem cex_unquote : pyUnquote cexS = cexS := by
  have hsafe : ∀ c ∈ cexS, quoteSafe c = true := by
    intro c hc
    obtain ⟨m, hm, rfl⟩ := rstrip_enc_safe cexZ.length cexZ le_rfl cexZ_bytes c hc
    exact quoteSafe_b64UrlChar m hm
  exact pyUnquote_nopct _ (fun c hc => quoteSafe_ne_pct c (hsafe c hc))

/-- The base64 phase recovers the crafted stream. -/
theorem cex_b64 : b64Phase cexS = some cexZ := by
  rw [cexS, b64Phase, b64_enc_roundtrip cexZ.length cexZ le_rfl cexZ_bytes]

/-- The first `wbits` attempt succeeds on the crafted stream. -/
theorem cex_m1 : wbitsAttempt (-15) cexZ = some (cexRaw.map Char.ofNat) := by
  rw [wbitsAttempt, zlibDecompress, if_pos (by norm_num), cex_raw, Option.some_bind]
  exact utf8Decode_ascii cexRaw cexRaw_ascii

/-- The decompression cascade on the crafted stream returns the raw
reading's control-character text. -/
theorem cex_jzb : jzbText cexZ = some (cexRaw.map Char.ofNat) := by
  have hfw : firstWbits cexZ = some (cexRaw.map Char.ofNat) := by
    rw [firstWbits, cex_m1]
  have hmap : cexRaw.map Char.ofNat = Char.ofNat 1 :: Char.ofNat 1 ::
      ((([91, 34] ++ List.replicate 253 32) ++ List.replicate 32317 32).map Char.ofNat) := by
    rw [cexRaw, List.map_cons, List.map_cons]
  have hfal : falsyStr (some (Char.ofNat 1 :: Char.ofNat 1 ::
      ((([91, 34] ++ List.replicate 253 32) ++
        List.replicate 32317 32).map Char.ofNat))) = false := rfl
  simp only [jzbText]
  rw [hfw, hmap, if_pos hfal, ← hmap]

/-- A leading character that opens no JSON production makes the parser
fail. -/
theorem parseValue_badhead (fuel : Nat) (c : Char) (rest : List Char)
    (h1 : isJsonWs c = false) (h2 : c ≠ 'n') (h3 : c ≠ 't') (h4 : c ≠ 'f') (h5 : c ≠ '"')
    (h6 : c ≠ '[') (h7 : c ≠ '{') (h8 : ¬(c = '-' ∨ isDigit c = true)) :
    parseValue fuel (c :: rest) = none := by
  rcases fuel with _ | f
  · rfl
  · simp only [parseValue, skipWs_cons _ h1]
    rw [if_neg h2, if_neg h3, if_neg h4, if_neg h5, if_neg h6, if_neg h7, if_neg h8]

/-- The raw reading's text is not JSON: it opens with `U+0001`. -/
theorem cex_loads : jsonLoads (cexRaw.map Char.ofNat) = none := by
  have hmap : cexRaw.map Char.ofNat = Char.ofNat 1 :: Char.ofNat 1 ::
      ((([91, 34] ++ List.replicate 253 32) ++ List.replicate 32317 32).map Char.ofNat) := by
    rw [cexRaw, List.map_cons, List.map_cons]
  rw [jsonLoads, hmap]
  generalize ((([91, 34] ++ List.replicate 253 32) ++
    List.replicate 32317 32).map Char.ofNat) = T2
  rw [parseValue_badhead _ (Char.ofNat 1) _ (by decide) (by decide) (by decide) (by decide)
    (by decide) (by decide) (by decide) (by decide)]

/-- Stage composition of the decoder: a parse failure after successful
base64 and decompression stages yields the empty list. -/
theorem decodeJzb_stages (s : List Char) (bs : List Nat) (t : List Char)
    (h1 : b64Phase (pyUnquote s) = some bs) (h2 : jzbText bs = some t)
    (h3 : jsonLoads t = none) : decodeJzb s = [] := by
  simp only [decodeJzb, h1, h2, h3]

/-- The code's decoder returns the empty list on the crafted input: the
raw reading wins the `wbits` race, its text opens with the control
character `U+0001`, and JSON parsing fails. -/
theorem decode_cex : decodeJzb cexS = [] :=
  decodeJzb_stages cexS cexZ (cexRaw.map Char.ofNat)
    (by rw [cex_unquote, cex_b64]) cex_jzb cex_loads

/-- Inflating the crafted stream's body (one final stored block) yields
the payload and leaves the trailer. -/
theorem cex_header_core (F : Nat) :
    inflateStored (F + 1)
        (1 :: 254 :: 254 :: 1 :: 1 :: (cexPayload ++ adlerBytes cexPayload)) =
      some (cexPayload, adlerBytes cexPayload) := by
  have hlen : (cexPayload ++ adlerBytes cexPayload).length = 65282 := by
    rw [List.length_append, cexPayload_len, show (adlerBytes cexPayload).length = 4 from rfl]
  simp only [inflateStored]
  rw [if_neg (show ¬(1 / 2 % 4 ≠ 0) from by norm_num)]
  rw [if_neg (show ¬((1 : Nat) + 256 * 1 ≠ 65535 - (254 + 256 * 254)) from by norm_num)]
  rw [hlen]
  rw [if_neg (show ¬((65282 : Nat) < 254 + 256 * 254) from by norm_num)]
  rw [if_pos True.intro]
  have ht : (cexPayload ++ adlerBytes cexPayload).take (254 + 256 * 254) = cexPayload := by
    have h5 : (254 + 256 * 254 : Nat) = cexPayload.length := by rw [cexPayload_len]
    rw [h5, List.take_left]
  have hd : (cexPayload ++ adlerBytes cexPayload).drop (254 + 256 * 254) =
      adlerBytes cexPayload := by
    have h5 : (254 + 256 * 254 : Nat) = cexPayload.length := by rw [cexPayload_len]
    rw [h5, List.drop_left]
  rw [ht, hd]

/-- A `0x78 0x01` zlib stream whose body inflates to data followed by the
matching Adler-32 trailer decompresses to that data at `wbits = 15`. -/
theorem zlibHeader_78_01 (body out : List Nat)
    (h : inflateStored (body.length + 1) body = some (out, adlerBytes out)) :
    zlibDecompressHeader 15 (120 :: 1 :: body) = some out := by
  simp only [zlibDecompressHeader]
  rw [if_pos (by norm_num), h]
  rw [show adlerBytes out = [adler32 out / 16777216 % 256, adler32 out / 65536 % 256,
    adler32 out / 256 % 256, adler32 out % 256] from rfl]
  show (if adler32 out / 16777216 % 256 * 16777216 + adler32 out / 65536 % 256 * 65536 +
      adler32 out / 256 % 256 * 256 + adler32 out % 256 = adler32 out then some out
    else none) = some out
  rw [if_pos (adler_recombine out)]

/-- The zlib reading (`wbits = 15`) of the crafted stream succeeds and
yields the payload: valid `0x78 0x01` header, one stored block, correct
Adler-32 trailer. -/
theorem cex_header : zlibDecompressHeader 15 cexZ = some cexPayload := by
  rw [cexZ_cons]
  exact zlibHeader_78_01 _ cexPayload (cex_header_core _)

/-- Flattening identical singleton blocks is replication. -/
theorem flatten_rep_single (n : Nat) (a : Nat) :
    (List.replicate n [a]).flatten = List.replicate n a := by
  induction n with
  | zero => rfl
  | succ m ih =>
    rw [List.replicate_succ, List.flatten_cons, ih, List.replicate_succ,
      List.singleton_append]

/-- UTF-8 encoding distributes over concatenation. -/
theorem utf8Encode_append (s t : List Char) :
    utf8Encode (s ++ t) = utf8Encode s ++ utf8Encode t := by
  rw [utf8Encode, utf8Encode, utf8Encode, List.map_append, List.flatten_append]

/-- UTF-8 encoding of one more character. -/
theorem utf8Encode_cons (c : Char) (t : List Char) :
    utf8Encode (c :: t) = utf8Char c ++ utf8Encode t := by
  rw [utf8Encode, utf8Encode, List.map_cons, List.flatten_cons]

/-- UTF-8 encoding of a run of spaces. -/
theorem utf8Encode_spaces (n : Nat) :
    utf8Encode (List.replicate n ' ') = List.replicate n 32 := by
  rw [utf8Encode, List.map_replicate, show utf8Char ' ' = [32] from rfl]
  exact flatten_rep_single n 32

/-- The crafted payload is the UTF-8 encoding of the crafted text. -/
theorem cex_encode : utf8Encode cexText = cexPayload := by
  rw [cexText, cexStr, cexPayload]
  rw [utf8Encode_cons, utf8Encode_cons, utf8Encode_append, utf8Encode_append,
    utf8Encode_append, utf8Encode_spaces, utf8Encode_spaces]
  rw [show utf8Char '[' = [91] from rfl, show utf8Char '"' = [34] from rfl]
  rw [show utf8Encode ['1', '=', '~', Char.ofNat 129] = [49, 61, 126, 194, 129] from rfl]
  rw [show utf8Encode ['"', ']'] = [34, 93] from rfl]
  simp only [List.cons_append, List.append_assoc, List.nil_append]

/-- Every character of the crafted text is below `U+0800`. -/
theorem cexText_chars : ∀ c ∈ cexText, c.toNat < 2048 := by
  intro c hc
  rw [cexText] at hc
  rcases List.mem_cons.mp hc with rfl | hc1
  · decide
  rcases List.mem_cons.mp hc1 with rfl | hc2
  · decide
  rcases List.mem_append.mp hc2 with h | h
  · rw [cexStr] at h
    rcases List.mem_append.mp h with h2 | h2
    · rcases List.mem_append.mp h2 with h3 | h3
      · rw [List.eq_of_mem_replicate h3]
        decide
      · fin_cases h3 <;> decide
    · rw [List.eq_of_mem_replicate h2]
      decide
  · fin_cases h <;> decide

/-- The crafted payload decodes as UTF-8 to the crafted text. -/
theorem cex_utf8 : utf8Decode cexPayload = some cexText := by
  rw [← cex_encode]
  exact utf8Decode_encode cexText cexText_chars

/-- If the first attempt of the specification ladder (zlib with header)
already yields UTF-8 text, the ladder returns that text. -/
theorem specLadder_first (bs out : List Nat) (t : List Char)
    (h1 : zlibDecompressHeader 15 bs = some out)
    (h2 : utf8Decode out = some t) : specLadderText bs = some t := by
  rw [specLadderText, h1, Option.some_bind, h2]

/-- The specification-order ladder accepts the crafted stream at its first
attempt (zlib with header). -/
theorem cex_ladder : specLadderText cexZ = some cexText :=
  specLadder_first cexZ cexPayload cexText cex_header cex_utf8

/-- A string body of plain characters (no quote, no backslash, no control
character) parses to itself up to the closing quote. -/
theorem parseStrBody_plain : ∀ (s : List Char) (fuel : Nat) (rest : List Char),
    (∀ c ∈ s, c ≠ '"' ∧ c ≠ '\\' ∧ 32 ≤ c.toNat) → s.length < fuel →
    parseStrBody fuel (s ++ '"' :: rest) = some (s, rest) := by
  intro s
  induction s with
  | nil =>
    intro fuel rest _ hf
    rcases fuel with _ | f
    · exact absurd hf (by omega)
    · simp +decide only [List.nil_append, parseStrBody, reduceIte]
  | cons a t ih =>
    intro fuel rest hc hf
    rcases fuel with _ | f
    · exact absurd hf (by omega)
    · obtain ⟨h1, h2, h3⟩ := hc a (List.mem_cons_self a t)
      rw [List.cons_append]
      simp only [parseStrBody]
      rw [if_neg h1, if_neg h2, if_neg (by omega : ¬ a.toNat < 32)]
      rw [ih f rest (fun c hm => hc c (List.mem_cons_of_mem a hm))
        (by simp only [List.length_cons] at hf; omega)]
      rfl

/-- A quoted plain string parses as a JSON string literal. -/
theorem parseValue_strLit (f : Nat) (s rest : List Char)
    (hc : ∀ c ∈ s, c ≠ '"' ∧ c ≠ '\\' ∧ 32 ≤ c.toNat) :
    parseValue (f + 1) ('"' :: (s ++ '"' :: rest)) = some (Json.str s, rest) := by
  simp +decide only [parseValue, skipWs, reduceIte]
  rw [show (s ++ '"' :: rest).length = s.length + (rest.length + 1) from by
    simp [List.length_append]]
  rw [parseStrBody_plain s _ rest hc (by omega)]
  rfl

/-- A one-element array body holding a plain string parses completely. -/
theorem parseElems_strOne (f : Nat) (s : List Char)
    (hc : ∀ c ∈ s, c ≠ '"' ∧ c ≠ '\\' ∧ 32 ≤ c.toNat) :
    parseElems (f + 1 + 1) ('"' :: (s ++ '"' :: [']'])) =
      some (JsonList.cons (Json.str s) JsonList.nil, []) := by
  simp only [parseElems]
  rw [parseValue_strLit f s [']'] hc]
  simp +decide only [skipWs, reduceIte]

/-- The bracketed form of a plain one-string array parses as that array. -/
theorem parseValue_strArr (f : Nat) (s : List Char)
    (hc : ∀ c ∈ s, c ≠ '"' ∧ c ≠ '\\' ∧ 32 ≤ c.toNat) :
    parseValue (f + 1 + 1 + 1) ('[' :: '"' :: (s ++ ['"', ']'])) =
      some (Json.arr (JsonList.cons (Json.str s) JsonList.nil), []) := by
  simp +decide only [parseValue, skipWs, reduceIte]
  split
  · rename_i r hr
    injection hr with h1 _
    exact absurd h1 (by decide)
  · rw [show f + 2 = f + 1 + 1 from rfl,
      show ('"' : Char) :: (s ++ ['"', ']']) = '"' :: (s ++ '"' :: [']']) from rfl]
    rw [parseElems_strOne f s hc]
    rfl

/-- `json.loads` accepts a one-string array of plain characters. -/
theorem jsonLoads_strArr (s : List Char)
    (hc : ∀ c ∈ s, c ≠ '"' ∧ c ≠ '\\' ∧ 32 ≤ c.toNat) :
    jsonLoads ('[' :: '"' :: (s ++ ['"', ']'])) =
      some (Json.arr (JsonList.cons (Json.str s) JsonList.nil)) := by
  rw [jsonLoads]
  rw [show ('[' :: '"' :: (s ++ ['"', ']'])).length + 1 =
    s.length + 1 + 1 + 1 + 1 + 1 from by
      simp only [List.length_cons, List.length_append, List.length_nil]
      try omega]
  rw [show s.length + 1 + 1 + 1 + 1 + 1 = (s.length + 1 + 1) + 1 + 1 + 1 from rfl]
  rw [parseValue_strArr (s.length + 1 + 1) s hc]
  rfl

/-- Every character of the crafted string is plain: not a quote, not a
backslash, not a control character. -/
theorem cexStr_chars : ∀ c ∈ cexStr, c ≠ '"' ∧ c ≠ '\\' ∧ 32 ≤ c.toNat := by
  intro c hc
  rw [cexStr] at hc
  rcases List.mem_append.mp hc with h2 | h2
  · rcases List.mem_append.mp h2 with h3 | h3
    · rw [List.eq_of_mem_replicate h3]
      refine ⟨by decide, by decide, by decide⟩
    · fin_cases h3 <;> exact ⟨by decide, by decide, by decide⟩
  · rw [List.eq_of_mem_replicate h2]
    refine ⟨by decide, by decide, by decide⟩

/-- The crafted text parses as the one-element array holding the crafted
string. -/
theorem cex_parse : jsonLoads cexText =
    some (Json.arr (JsonList.cons (Json.str cexStr) JsonList.nil)) := by
  rw [cexText]
  exact jsonLoads_strArr cexStr cexStr_chars

/-- Stage composition of the specification-order decoder. -/
theorem specOrder_stages (s : List Char) (bs : List Nat) (t : List Char) (v : Json)
    (h1 : b64Phase (pyUnquote s) = some bs)
    (h2 : specLadderText bs = some t)
    (h3 : jsonLoads t = some v) : specOrderDecode s = listify v := by
  simp only [specOrderDecode, h1, h2, h3]

/-- Under the specification's attempt order, the crafted stream decodes to
the one-element list holding the crafted string. -/
theorem spec_cex : specOrderDecode cexS = [Json.str cexStr] :=
  (specOrder_stages cexS cexZ cexText
    (Json.arr (JsonList.cons (Json.str cexStr) JsonList.nil))
    (by rw [cex_unquote, cex_b64]) cex_ladder cex_parse).trans rfl

/-- The code's cascade equals the amended (depth-first wbits loop first)
description on every byte string. -/
theorem jzbText_eq_amended (bs : List Nat) : jzbText bs = amendedLadderText bs := by
  rw [jzbText, amendedLadderText, firstWbits]
  rcases h1 : wbitsAttempt (-15) bs with _ | (_ | ⟨c1, t1⟩) <;>
    rcases h1b : wbitsAttempt 15 bs with _ | (_ | ⟨cb, tb⟩) <;>
      rcases h1c : wbitsAttempt (-13) bs with _ | (_ | ⟨cc, tc⟩) <;>
        rcases h1d : wbitsAttempt 13 bs with _ | (_ | ⟨cd, td⟩) <;>
          rcases h2 : (zlibDecompressRaw (bs.drop 2)).bind utf8Decode
              with _ | (_ | ⟨c2, t2⟩) <;>
            rcases h3 : (gzipDecompress bs).bind utf8Decode
                with _ | (_ | ⟨c3, t3⟩) <;>
              rcases h4 : utf8Decode bs with _ | (_ | ⟨c4, t4⟩) <;>
                simp [falsyStr]

/-- C4: counterexample to the claimed attempt order.  On the crafted
percent-free base64 input `cexS` — a valid zlib stream (header `0x78
0x01`) whose stored-block framing also happens to parse as raw DEFLATE
from offset 0 into control-character text — the code returns `[]`
(its first attempt is raw DEFLATE with `wbits = -15`, whose output is not
valid JSON), while a decoder following the claimed order (zlib with
header first) returns the one-element list holding the crafted string.
So `decode_jzb` does not return the parse of the first attempt in the
claimed order (a) zlib/deflate with header, (b) raw, (c) raw after two
bytes, (d) gzip, (e) plain UTF-8. -/
theorem decode_order_counterexample :
    decodeJzb cexS = [] ∧ specOrderDecode cexS = [Json.str cexStr] ∧
      decodeJzb cexS ≠ specOrderDecode cexS := by
  refine ⟨decode_cex, spec_cex, ?_⟩
  rw [decode_cex, spec_cex]
  nofun

/-- C4 (amended): after percent-decoding and base64-decoding, the decoder
attempts zlib decompression with `wbits` −15 first, then 15, then −13,
then 13, breaking at the first attempt that raises no error even when it
yields empty text; only when every attempt raised or the surviving text
is empty does it try raw DEFLATE after skipping the first two bytes, then
gzip, then the bytes as plain UTF-8, each accepted only when it yields
non-empty UTF-8 text; the result is the JSON parse of the surviving text,
and the empty list when every stage fails. -/
theorem decode_cascade_amended (s : List Char) :
    decodeJzb s =
      match b64Phase (pyUnquote s) with
      | none => []
      | some bs =>
        match amendedLadderText bs with
        | none => []
        | some t =>
          match jsonLoads t with
          | none => []
          | some v => listify v := by
  rw [decodeJzb]
  simp only [jzbText_eq_amended]
